import Mathlib

set_option autoImplicit false

/-!
Shallow embedding of the pg-faker constrained data-generation engine
(`src/pg_faker/generate.py`, `src/pg_faker/strategies.py`,
`src/pg_faker/pg.py`), with theorems checking the specification's claims.

Randomness: the Python code consumes a shared pseudo-random source (the
`faker` provider and `random`).  We model the source as an explicit tape of
natural numbers threaded through every generation step; each primitive draw
takes the head of the tape.  Values produced by the injectable fake-value
provider are modelled as opaque tokens determined by the draw.  All claims
are quantified over every tape, i.e. over every possible random outcome.

Python `dict`s are modelled as association lists in insertion order with the
first binding of a key authoritative; Python `set`s are modelled as
duplicate-free lists in first-insertion order (the properties proved below
are insensitive to set iteration order).
-/

namespace PgFaker

abbrev TableName := String
abbrev ColName := String

/-- A generated SQL value.  `null` models Python `None`; `b` a boolean; `s` a
string (used for enum labels and fixed test values); `fake kind n` an opaque
value produced by the injectable fake-value provider on random draw `n`. -/
inductive Val where
  | null
  | b (x : Bool)
  | s (x : String)
  | fake (kind : String) (n : Nat)
deriving DecidableEq, Repr

/-- A Row is a Python dict from column name to value (`Row = dict[ColName, Any]`). -/
abbrev Row := List (ColName × Val)

/-- The generation store: `dict[TableName, list[Row]]`. -/
abbrev Store := List (TableName × List Row)

/-- First-binding lookup, i.e. Python `r[c]` / `r.get(c)` on a dict. -/
def vlookup (r : Row) (c : ColName) : Option Val :=
  match r with
  | [] => none
  | kv :: rest => if kv.1 = c then some kv.2 else vlookup rest c

/-- Generic association-list lookup (Python `d.get(k)`). -/
def alookup {α : Type} (l : List (String × α)) (k : String) : Option α :=
  match l with
  | [] => none
  | kv :: rest => if kv.1 = k then some kv.2 else alookup rest k

/-- Python `{**r1, **r2}` / `r1.update(r2)`: keys of `r1` in order with values
overridden by `r2`, then the keys of `r2` not in `r1` appended in order. -/
def rupdate (r1 r2 : Row) : Row :=
  r1.map (fun kv => (kv.1, (vlookup r2 kv.1).getD kv.2)) ++
    r2.filter (fun kv => (vlookup r1 kv.1).isNone)

/-- Python `data.get(tbl, [])`. -/
def storeGetD (store : Store) (tbl : TableName) : List Row :=
  (alookup store tbl).getD []

/-- Python `data[tbl] = rows`: replace in place, or append a new key. -/
def storeSet (store : Store) (tbl : TableName) (rows : List Row) : Store :=
  match store with
  | [] => [(tbl, rows)]
  | kv :: rest => if kv.1 = tbl then (tbl, rows) :: rest else kv :: storeSet rest tbl rows

/-- Set-as-list, with the already-seen accumulator. -/
def dedupGo (seen : List String) : List String → List String
  | [] => []
  | x :: xs => if x ∈ seen then dedupGo seen xs else x :: dedupGo (x :: seen) xs

/-- Set-as-list: keep the first occurrence of each element. -/
def dedupStr (l : List String) : List String := dedupGo [] l

/-! The random tape. -/

abbrev Tape := List Nat

/-- One primitive random draw (an exhausted tape keeps yielding 0). -/
def draw (t : Tape) : Nat × Tape :=
  match t with
  | [] => (0, [])
  | n :: rest => (n, rest)

/-! The Strategy abstraction (`strategies.py`).  A `Strategy` object bundles a
generation function with its bound arguments; invoking `.gen()` draws from the
random source.  We embed strategies as a first-order AST whose interpreter
`genV` threads the tape. -/

inductive Strat where
  | uuidK
  | dateK
  | timestampK
  | timeK
  | charK (maxChars : Option Nat)
  | numericK (leftDigits rightDigits : Int)
  | intK (minValue maxValue : Int)
  | boolK
  | jsonK
  | binaryK (length : Option Nat)
  | xmlK
  | mappedK (kind : String)
  | oneOfV (options : List Val)
  | nullableS (inner : Strat)
  | fixedV (v : Val)
deriving DecidableEq, Repr

/-- Interpret one `.gen()` call of a value strategy.  Terminal faker-backed
strategies return an opaque token for the draw; `one_of` picks uniformly by
indexing the draw modulo the option count (`fake.random_element`);
`nullable(inner, prob_null=0.1)` returns null iff the draw models
`random.random() <= 0.1` (one residue class out of ten); `fixed` consumes no
randomness. -/
def genV : Strat → Tape → Val × Tape
  | .uuidK, t => let p := draw t; (.fake "uuid" p.1, p.2)
  | .dateK, t => let p := draw t; (.fake "date" p.1, p.2)
  | .timestampK, t => let p := draw t; (.fake "timestamp" p.1, p.2)
  | .timeK, t => let p := draw t; (.fake "time" p.1, p.2)
  | .charK _, t => let p := draw t; (.fake "char" p.1, p.2)
  | .numericK _ _, t => let p := draw t; (.fake "numeric" p.1, p.2)
  | .intK _ _, t => let p := draw t; (.fake "int" p.1, p.2)
  | .boolK, t => let p := draw t; (.b (decide (p.1 % 2 = 0)), p.2)
  | .jsonK, t => let p := draw t; (.fake "json" p.1, p.2)
  | .binaryK _, t => let p := draw t; (.fake "binary" p.1, p.2)
  | .xmlK, t => let p := draw t; (.fake "xml" p.1, p.2)
  | .mappedK k, t => let p := draw t; (.fake k p.1, p.2)
  | .oneOfV vs, t => let p := draw t; (vs.getD (p.1 % vs.length) Val.null, p.2)
  | .nullableS s, t =>
    let p := draw t
    if p.1 % 10 = 0 then (Val.null, p.2) else genV s p.2
  | .fixedV v, t => (v, t)

/-- Row-producing strategies used as the `others` of `dict_strategy`:
`fixed_strategy({col: None})` and `one_of(sampled_constrained_rows)`. -/
inductive RowStrat where
  | fixedRow (r : Row)
  | oneOfRows (rs : List Row)
deriving DecidableEq, Repr

def genRowStrat : RowStrat → Tape → Row × Tape
  | .fixedRow r, t => (r, t)
  | .oneOfRows rs, t => let p := draw t; (rs.getD (p.1 % rs.length) [], p.2)

/-! The schema snapshot data model (`pg.py`). -/

structure ColInfo where
  col_name : String
  pgtype : String
  nullable : Bool
  character_maximum_length : Option Nat
  numeric_precision : Option Nat
  numeric_scale : Option Nat
  enum_values : Option (List String)
deriving DecidableEq, Repr

structure FkConstraint where
  local_table : TableName
  foreign_table : TableName
  local_foreign_mapping : List (ColName × ColName)
deriving DecidableEq, Repr

structure TableInfo where
  table : TableName
  columns : List (ColName × ColInfo)
  unique_constraints : List (List ColName)
  fk_constraints : List FkConstraint
deriving DecidableEq, Repr

/-- The errors the engine can raise.  `unsupported` is the
`ValueError(f"Unsupported pgtype: ..., col_info: ...")` of
`col_info_to_strategy` (it carries the offending type and, through the
printed `col_info`, the column name); `cycle` is the
`ValueError("Cycle detected in foreign key constraints")`;
`fkUnsat` is `UnSatisfiableFkConstraintError` carrying the constrained
columns of its message; `keyError` models a Python `KeyError`;
`badRange` models `random.randint(a, b)` with `b < a`; `fuel` marks loop-fuel
exhaustion in the embedding (proved unreachable for the fuel chosen). -/
inductive Err where
  | unsupported (pgtype : String) (col : String)
  | cycle
  | fkUnsat (cols : List ColName)
  | keyError (key : String)
  | badRange
  | fuel
deriving DecidableEq, Repr

/-! The type mapper (`generate.py:col_info_to_strategy`). -/

/-- Python truthiness of `Optional[int]`: `None` and `0` are falsy. -/
def truthyN (o : Option Nat) : Bool :=
  match o with
  | none => false
  | some n => n ≠ 0

/-- Python `x or default` for `Optional[int]`. -/
def orDefault (o : Option Nat) (d : Nat) : Nat :=
  match o with
  | none => d
  | some n => if n = 0 then d else n

/-- Python truthiness of `Optional[list[str]]`. -/
def truthyEnum (o : Option (List String)) : Bool :=
  match o with
  | none => false
  | some l => ¬ l.isEmpty

/-- `a` starts with `b` as character lists. -/
def startsList : List Char → List Char → Bool
  | [], _ => true
  | _ :: _, [] => false
  | a :: as, b :: bs => a = b && startsList as bs

/-- Python `word in name` substring containment, on character lists. -/
def infixList (w : List Char) : List Char → Bool
  | [] => startsList w []
  | c :: rest => startsList w (c :: rest) || infixList w rest

def isSubstr (w s : String) : Bool :=
  infixList w.toList s.toList

/-- Python `s.startswith(pre)` (kernel-reducible form of `String.startsWith`). -/
def strStartsWith (s pre : String) : Bool :=
  startsList pre.toList s.toList

/-- `text_col_map.COL_NAME_STRATEGY_MAPPINGS`: the ordered column-name
heuristic dictionary for unbounded text columns (word set, strategy). -/
def COL_NAME_STRATEGY_MAPPINGS : List (List String × Strat) :=
  [ (["address"], .mappedK "address"),
    (["name"], .mappedK "name"),
    (["email"], .mappedK "email"),
    (["phone_number"], .mappedK "phone_number"),
    (["telephone"], .mappedK "phone_number"),
    (["city"], .mappedK "city"),
    (["country"], .mappedK "country"),
    (["zip_code"], .mappedK "zipcode"),
    (["postal_code"], .mappedK "zipcode"),
    (["street"], .mappedK "street_address"),
    (["street_address"], .mappedK "street_address"),
    (["currency"], .mappedK "currency_code"),
    (["company", "name"], .mappedK "company"),
    (["counterparty", "name"], .mappedK "counterparty"),
    (["customer", "name"], .mappedK "counterparty"),
    (["supplier", "name"], .mappedK "counterparty") ]

/-- `generate.py:col_info_to_strategy`, branch for branch.  The heuristic
dictionary is consulted only for text-family columns without a truthy
`character_maximum_length`; the first rule whose every word is a substring of
the column name wins.  Note the `enum_values` test sits after the json branch
and before the bit-string branch, exactly as in the source. -/
def col_info_to_strategy (ci : ColInfo) : Except Err Strat :=
  let pgtype := ci.pgtype
  let base : Except Err Strat :=
    if pgtype = "uuid" then .ok .uuidK
    else if pgtype = "date" then .ok .dateK
    else if pgtype = "timestamptz" ∨ pgtype = "timestamp" then .ok .timestampK
    else if pgtype = "time" ∨ pgtype = "timetz" then .ok .timeK
    else if pgtype = "varchar" ∨ pgtype = "text" ∨ pgtype = "bpchar" then
      let mapped : Option Strat :=
        if ¬ truthyN ci.character_maximum_length then
          (COL_NAME_STRATEGY_MAPPINGS.find?
            (fun ws => ws.1.all (fun w => isSubstr w ci.col_name))).map (·.2)
        else none
      .ok (mapped.getD
        (if truthyN ci.character_maximum_length then
          .charK ci.character_maximum_length
        else .charK none))
    else if pgtype = "numeric" ∨ pgtype = "money" ∨ strStartsWith pgtype "float" then
      let precision : Int := orDefault ci.numeric_precision 53
      let scale : Int := orDefault ci.numeric_scale 0
      .ok (.numericK (precision - scale) scale)
    else if pgtype = "bool" then .ok .boolK
    else if pgtype = "int2" ∨ pgtype = "int4" ∨ pgtype = "int8" then
      let precision := orDefault ci.numeric_precision 32
      let maxValue : Int := 2 ^ (precision - 1) - 1
      .ok (.intK (-1 * maxValue - 1) maxValue)
    else if pgtype = "json" ∨ pgtype = "jsonb" then .ok .jsonK
    else if truthyEnum ci.enum_values then
      .ok (.oneOfV (((ci.enum_values).getD []).map Val.s))
    else if pgtype = "bit" ∨ pgtype = "varbit" then
      .ok (if truthyN ci.character_maximum_length then
        .binaryK ci.character_maximum_length
      else .binaryK none)
    else if pgtype = "xml" then .ok .xmlK
    else .error (.unsupported pgtype ci.col_name)
  match base with
  | .error e => .error e
  | .ok strat => .ok (if ci.nullable then .nullableS strat else strat)

/-! The FK resolver (`generate.py:get_fk_constrained_options` and helpers). -/

/-- `generate.py:select`. -/
def select (r : Row) (cols : List ColName) : Row :=
  cols.filterMap (fun c => (vlookup r c).map (fun v => (c, v)))

/-- `generate.py:rename`. -/
def renameRow (r : Row) (colMapping : List (ColName × ColName)) : Row :=
  r.map (fun kv => ((alookup colMapping kv.1).getD kv.1, kv.2))

/-- `generate.py:select_values`. -/
def select_values (r : Row) (cols : List ColName) : List Val :=
  cols.filterMap (vlookup r)

/-- `generate.py:inner_join`. -/
def inner_join (rows1 rows2 : List Row) (onCols : List ColName) : List Row :=
  rows1.flatMap (fun r1 =>
    (rows2.filter (fun r2 => select_values r1 onCols = select_values r2 onCols)).map
      (fun r2 => rupdate r1 r2))

/-- `generate.py:cross_join`. -/
def cross_join (rows1 rows2 : List Row) : List Row :=
  rows1.flatMap (fun r1 => rows2.map (fun r2 => rupdate r1 r2))

/-- The local column set of one FK constraint (`set(mapping.keys())`). -/
def localColsOf (fk : FkConstraint) : List ColName :=
  dedupStr (fk.local_foreign_mapping.map Prod.fst)

/-- The referenced foreign column set of one FK constraint (`set(mapping.values())`). -/
def foreignColsOf (fk : FkConstraint) : List ColName :=
  dedupStr (fk.local_foreign_mapping.map Prod.snd)

/-- Python `{v: k for k, v in mapping.items()}`: on duplicate foreign columns
the later local wins, hence lookup-first over the reversed list. -/
def revMapOf (fk : FkConstraint) : List (ColName × ColName) :=
  fk.local_foreign_mapping.reverse.map (fun lf => (lf.2, lf.1))

/-- The union of local columns over a constraint list
(`{col for fk in fk_constraints for col in fk["local_foreign_mapping"].keys()}`). -/
def fkColsOf (fks : List FkConstraint) : List ColName :=
  dedupStr (fks.flatMap (fun fk => fk.local_foreign_mapping.map Prod.fst))

/-- The constraint-processing loop of `get_fk_constrained_options`:
project, drop null referents, rename, then join into the running candidate
set.  `none` is the early-abort when a foreign table has no referencable
rows. -/
def fk_options_go (store : Store) :
    List FkConstraint → List ColName → List Row → Bool →
      Option (List ColName × List Row)
  | [], seen, constrained, _ => some (seen, constrained)
  | fk :: rest, seen, constrained, first =>
    let rows0 := (storeGetD store fk.foreign_table).map (fun r => select r (foreignColsOf fk))
    let rows1 := rows0.filter (fun r => r.all (fun kv => kv.2 ≠ Val.null))
    if rows1.isEmpty then none
    else
      let rows2 := rows1.map (fun r => renameRow r (revMapOf fk))
      let overlap := (localColsOf fk).filter (fun c => c ∈ seen)
      let seen' := seen ++ (localColsOf fk).filter (fun c => ¬ c ∈ seen)
      if first then fk_options_go store rest seen' rows2 false
      else if overlap.isEmpty then fk_options_go store rest seen' (cross_join constrained rows2) false
      else fk_options_go store rest seen' (inner_join constrained rows2 overlap) false

/-- `generate.py:get_fk_constrained_options`.  Returns the seen local columns
and, when at least one candidate survives, the sampled candidate list (the
strategy returned by the source is `one_of` over exactly this list). -/
def get_fk_constrained_options (fks : List FkConstraint) (store : Store)
    (maxRows : Nat) : List ColName × Option (List Row) :=
  match fk_options_go store fks [] [] true with
  | none => (fkColsOf fks, none)
  | some (seen, constrained) =>
    let sampled := constrained.take maxRows
    (seen, if sampled.isEmpty then none else some sampled)

/-! The row engine (`generate.py:get_row`). -/

/-- Phase 1 of `get_row`: for each FK-constrained column, resolve its
would-be strategy (override, else type mapper) and invoke it once; collect
the columns whose draw was null. -/
def null_fix_phase (colInfos : List (ColName × ColInfo)) (ov : List (ColName × Strat)) :
    List ColName → Tape → Except Err (List ColName) × Tape
  | [], t => (.ok [], t)
  | c :: rest, t =>
    let stratE : Except Err Strat :=
      match alookup ov c with
      | some s => .ok s
      | none =>
        match alookup colInfos c with
        | some ci => col_info_to_strategy ci
        | none => .error (.keyError c)
    match stratE with
    | .error e => (.error e, t)
    | .ok strat =>
      let p := genV strat t
      match null_fix_phase colInfos ov rest p.2 with
      | (.error e, t') => (.error e, t')
      | (.ok names, t') => (.ok (if p.1 = Val.null then c :: names else names), t')

/-- The enforceable constraints: those none of whose local columns were
null-fixed (SQL MATCH SIMPLE semantics). -/
def enforceableFks (fks : List FkConstraint) (nullNames : List ColName) : List FkConstraint :=
  fks.filter (fun fk => (fk.local_foreign_mapping.map Prod.fst).all (fun c => ¬ c ∈ nullNames))

/-- The strategies dict of `get_row`: override-or-default strategy for every
column not already handled; construction is eager, so the first unsupported
column aborts. -/
def build_strategies (ov : List (ColName × Strat)) (handled : List ColName) :
    List (ColName × ColInfo) → Except Err (List (ColName × Strat))
  | [] => .ok []
  | (c, ci) :: rest =>
    if c ∈ handled then build_strategies ov handled rest
    else
      let stratE : Except Err Strat :=
        match alookup ov c with
        | some s => .ok s
        | none => col_info_to_strategy ci
      match stratE with
      | .error e => .error e
      | .ok s =>
        match build_strategies ov handled rest with
        | .error e => .error e
        | .ok rest' => .ok ((c, s) :: rest')

/-- Generate every entry of the strategies dict in order (`dict_strategy`'s
comprehension). -/
def gen_strats : List (ColName × Strat) → Tape → Row × Tape
  | [], t => ([], t)
  | (c, s) :: rest, t =>
    let p := genV s t
    let q := gen_strats rest p.2
    ((c, p.1) :: q.1, q.2)

/-- Merge in the Rows produced by the `others` strategies, last writer wins
(`dict_strategy`'s update loop). -/
def gen_others : List RowStrat → Row → Tape → Row × Tape
  | [], r, t => (r, t)
  | o :: os, r, t =>
    let p := genRowStrat o t
    gen_others os (rupdate r p.1) p.2

/-- `strategies.py:dict_strategy` (one `.gen()` invocation). -/
def dict_strategy (strats : List (ColName × Strat)) (others : List RowStrat)
    (t : Tape) : Row × Tape :=
  let p := gen_strats strats t
  gen_others others p.1 p.2

/-- One `.gen()` of the strategy built by `generate.py:get_row`. -/
def get_row_gen (colInfos : List (ColName × ColInfo)) (fks : List FkConstraint)
    (store : Store) (ov : List (ColName × Strat)) (t : Tape) :
    Except Err Row × Tape :=
  match null_fix_phase colInfos ov (fkColsOf fks) t with
  | (.error e, t₁) => (.error e, t₁)
  | (.ok nullNames, t₁) =>
    let efks := enforceableFks fks nullNames
    let so := get_fk_constrained_options efks store 1000
    if ¬ so.1.isEmpty ∧ so.2.isNone then (.error (.fkUnsat so.1), t₁)
    else
      let handled := nullNames ++ so.1
      match build_strategies ov handled colInfos with
      | .error e => (.error e, t₁)
      | .ok strats =>
        let others :=
          nullNames.map (fun c => RowStrat.fixedRow [(c, Val.null)]) ++
            (match so.2 with
             | some rs => [RowStrat.oneOfRows rs]
             | none => [])
        let p := dict_strategy strats others t₁
        (.ok p.1, p.2)

/-! The table engine (`generate.py:get_uc_hasher`, `strategies.py:list_strategy`,
`generate.py:get_table`). -/

/-- `generate.py:get_uc_hasher`: the hash key of a row under one unique
constraint; raises `UnenforceableUniqueConstraintError` (modelled as
`Except.error ()`) when any value at the constraint's present columns is
null. -/
def get_uc_hasher (uc : List ColName) (r : Row) : Except Unit (List Val) :=
  let h := uc.filterMap (vlookup r)
  if h.any (fun v => v = Val.null) then .error () else .ok h

/-- The retry loop of `strategies.py:list_strategy`.  `seen` is the per-
constraint set of hashes of accepted items. -/
def list_strategy_go (genFn : Tape → Except Err Row × Tape)
    (ubs : List (Row → Except Unit (List Val))) (targetLen : Nat) :
    Nat → List Row → List (List (List Val)) → Tape → Except Err (List Row) × Tape
  | 0, items, _, t => (.ok items, t)
  | Nat.succ fuel, items, seen, t =>
    if targetLen ≤ items.length then (.ok items, t)
    else
      match genFn t with
      | (.error e, t') => (.error e, t')
      | (.ok item, t') =>
        if ubs.isEmpty then list_strategy_go genFn ubs targetLen fuel (items ++ [item]) seen t'
        else
          let newHashes := ubs.enum.filterMap (fun iu =>
            match iu.2 item with
            | .ok h => some (iu.1, h)
            | .error _ => none)
          if newHashes.any (fun ih => ih.2 ∈ seen.getD ih.1 []) then
            list_strategy_go genFn ubs targetLen fuel items seen t'
          else
            let seen' := newHashes.foldl (fun s ih => s.set ih.1 (ih.2 :: s.getD ih.1 [])) seen
            list_strategy_go genFn ubs targetLen fuel (items ++ [item]) seen' t'

/-- `strategies.py:list_strategy` (one `.gen()` invocation):
`length = random.randint(min_length, max_length)`, then up to `max_iter`
uniqueness-checked generations. -/
def list_strategy (genFn : Tape → Except Err Row × Tape) (minLen maxLen : Nat)
    (ubs : List (Row → Except Unit (List Val))) (maxIter : Nat) (t : Tape) :
    Except Err (List Row) × Tape :=
  if maxLen < minLen then (.error .badRange, t)
  else
    let p := draw t
    let target := minLen + p.1 % (maxLen + 1 - minLen)
    list_strategy_go genFn ubs target maxIter [] (ubs.map (fun _ => [])) p.2

def MIN_ROWS : Nat := 10
def MAX_ROWS : Nat := 1000

/-- `generate.py:get_table`: one trial row generation guarded against
`UnSatisfiableFkConstraintError` (recovered as the empty row list), then the
uniqueness-enforcing list generation.  Construction of the returned list
strategy and its single `.gen()` in `get_db` are fused. -/
def get_table (ti : TableInfo) (store : Store) (rowCount : Option Nat)
    (ov : List (ColName × Strat)) (t : Tape) : Except Err (List Row) × Tape :=
  match get_row_gen ti.columns ti.fk_constraints store ov t with
  | (.error (.fkUnsat _), t₁) => (.ok [], t₁)
  | (.error e, t₁) => (.error e, t₁)
  | (.ok _, t₁) =>
    list_strategy (get_row_gen ti.columns ti.fk_constraints store ov)
      (rowCount.getD MIN_ROWS) (rowCount.getD MAX_ROWS)
      (ti.unique_constraints.map get_uc_hasher) 10000 t₁

/-! The dependency orderer (`pg.py:topo_sort_tables`). -/

abbrev Graph := List (TableName × List TableName)
abbrev Deg := List (TableName × Int)

def graphGet (g : Graph) (t : TableName) : List TableName := (alookup g t).getD []

def graphKeys (g : Graph) : List TableName := g.map Prod.fst

def degGet (d : Deg) (t : TableName) : Int := (alookup d t).getD 0

def degKeys (d : Deg) : List TableName := d.map Prod.fst

/-- `graph[foreign_table].add(local_table)` on a `defaultdict(set)`. -/
def addEdge (g : Graph) (f l : TableName) : Graph :=
  match g with
  | [] => [(f, [l])]
  | kv :: rest =>
    if kv.1 = f then (kv.1, if l ∈ kv.2 then kv.2 else kv.2 ++ [l]) :: rest
    else kv :: addEdge rest f l

/-- `indegree[local_table] += 1` on a `defaultdict(int)`. -/
def bump (d : Deg) (l : TableName) : Deg :=
  match d with
  | [] => [(l, 1)]
  | kv :: rest => if kv.1 = l then (kv.1, kv.2 + 1) :: rest else kv :: bump rest l

/-- `indegree[x] -= 1`. -/
def degDec (d : Deg) (x : TableName) : Deg :=
  match d with
  | [] => [(x, -1)]
  | kv :: rest => if kv.1 = x then (kv.1, kv.2 - 1) :: rest else kv :: degDec rest x

/-- The edge-building loop of `topo_sort_tables`. -/
def buildGD (m : List (TableName × List FkConstraint)) : Graph × Deg :=
  m.foldl
    (fun gd entry =>
      entry.2.foldl (fun gd2 fk => (addEdge gd2.1 fk.foreign_table entry.1, bump gd2.2 entry.1)) gd)
    ([], [])

/-- The `defaultdict` read `graph[table]` inside the while loop inserts an
empty set for a missing key, growing `len(graph)`. -/
def ensureKey (g : Graph) (t : TableName) : Graph :=
  if (alookup g t).isSome then g else g ++ [(t, [])]

/-- One step of the dependent-processing loop. -/
def pdStep (acc : Deg × List TableName) (x : TableName) : Deg × List TableName :=
  let d' := degDec acc.1 x
  (d', if degGet d' x = 0 then acc.2 ++ [x] else acc.2)

/-- `for dependent in graph[table]: indegree[dependent] -= 1; if ... == 0:
queue.append(dependent)`. -/
def process_deps (d : Deg) (deps : List TableName) : Deg × List TableName :=
  deps.foldl pdStep (d, [])

/-- The Kahn while loop, fuelled (the fuel chosen in `topo_sort_tables` is
proved sufficient below). -/
def kahn_loop : Nat → Graph → Deg → List TableName → List TableName →
    Option (Graph × List TableName)
  | 0, _, _, _, _ => none
  | Nat.succ fuel, g, d, q, s =>
    match q with
    | [] => some (g, s)
    | tbl :: rest =>
      let deps := graphGet g tbl
      let g' := ensureKey g tbl
      let dq := process_deps d deps
      kahn_loop fuel g' dq.1 (rest ++ dq.2) (s ++ [tbl])

/-- `pg.py:topo_sort_tables`. -/
def topo_sort_tables (m : List (TableName × List FkConstraint))
    (allTables : List TableName) : Except Err (List TableName) :=
  let gd := buildGD m
  let q0 := (graphKeys gd.1).filter (fun tb => degGet gd.2 tb = 0)
  match kahn_loop ((graphKeys gd.1).length + (degKeys gd.2).length + 1) gd.1 gd.2 q0 [] with
  | none => .error .fuel
  | some gs =>
    if gs.2.length = (graphKeys gs.1).length then
      .ok (gs.2 ++ allTables.filter (fun tb => ¬ tb ∈ gs.2))
    else .error .cycle

/-! The database engine (`generate.py:get_db`). -/

def fk_map_of (schema : List TableInfo) : List (TableName × List FkConstraint) :=
  schema.map (fun ti => (ti.table, ti.fk_constraints))

/-- The per-table loop of `get_db`, threading the store forward. -/
def get_db_loop (schema : List TableInfo) (rcs : List (TableName × Nat))
    (ovs : List (TableName × List (ColName × Strat))) :
    List TableName → Store → Tape → Except Err Store
  | [], store, _ => .ok store
  | tbl :: rest, store, t =>
    match schema.find? (fun ti => ti.table == tbl) with
    | none => .error (.keyError tbl)
    | some ti =>
      match get_table ti store (alookup rcs tbl) ((alookup ovs tbl).getD []) t with
      | (.error e, _) => .error e
      | (.ok rows, t') => get_db_loop schema rcs ovs rest (storeSet store tbl rows) t'

/-- `generate.py:get_db`. -/
def get_db (schema : List TableInfo) (data0 : Store) (rcs : List (TableName × Nat))
    (ovs : List (TableName × List (ColName × Strat))) (t : Tape) : Except Err Store :=
  match topo_sort_tables (fk_map_of schema) (schema.map (·.table)) with
  | .error e => .error e
  | .ok order => get_db_loop schema rcs ovs order data0 t

/-! Specification-level notions used to state the claims: the FK dependency
graph, cycles, and the schema-snapshot well-formedness invariants that the
Postgres catalog introspection guarantees (§3 invariant (a); a FK references
the distinct columns of a unique constraint). -/

/-- The FK graph has an edge `f → l` when table `l` owns a constraint whose
foreign table is `f` (spec §4.3). -/
def edgeB (m : List (TableName × List FkConstraint)) (f l : TableName) : Bool :=
  m.any (fun e => e.1 == l && e.2.any (fun fk => fk.foreign_table == f))

/-- Every table name occurring in the FK map. -/
def nodesOf (m : List (TableName × List FkConstraint)) : List TableName :=
  dedupStr (m.map Prod.fst ++ m.flatMap (fun e => e.2.map (·.foreign_table)))

/-- Bounded reachability along FK edges (`fuel` extra steps allowed). -/
def reachB (m : List (TableName × List FkConstraint)) : Nat → TableName → TableName → Bool
  | 0, a, b => edgeB m a b
  | Nat.succ fuel, a, b =>
    edgeB m a b || (nodesOf m).any (fun c => edgeB m a c && reachB m fuel c b)

/-- The FK graph contains a cycle: some node reaches itself.  Fuel
`(nodesOf m).length` makes the bounded check complete. -/
def has_cycle (m : List (TableName × List FkConstraint)) : Bool :=
  (nodesOf m).any (fun tb => reachB m (nodesOf m).length tb tb)

/-- The FK edges as (foreign table, local table) pairs, one per constraint. -/
def pairsOf (m : List (TableName × List FkConstraint)) : List (TableName × TableName) :=
  m.flatMap (fun e => e.2.map (fun fk => (fk.foreign_table, e.1)))

/-- The distinct foreign tables referenced by table `x`. -/
def foreignsOfT (m : List (TableName × List FkConstraint)) (x : TableName) :
    List TableName :=
  dedupStr (((pairsOf m).filter (fun p => p.2 = x)).map Prod.fst)

def rowKeys (r : Row) : List ColName := r.map Prod.fst

/-- A row has exactly its table's declared columns. -/
def RowHasKeys (ti : TableInfo) (r : Row) : Prop :=
  (∀ cci ∈ ti.columns, (vlookup r cci.1).isSome) ∧
  (∀ kv ∈ r, kv.1 ∈ ti.columns.map Prod.fst)

/-- Well-formedness of one FK constraint: the local/foreign column lists are
duplicate-free (an FK references the columns of a unique constraint), the
column mapping is non-empty and the referenced table is part of the snapshot
(both guaranteed by the catalog introspection), local columns are declared on
the owning table, and foreign columns are declared on the foreign table. -/
def WfFk (schema : List TableInfo) (ti : TableInfo) (fk : FkConstraint) : Prop :=
  (fk.local_foreign_mapping.map Prod.fst).Nodup ∧
  (fk.local_foreign_mapping.map Prod.snd).Nodup ∧
  fk.local_foreign_mapping ≠ [] ∧
  fk.foreign_table ∈ schema.map (·.table) ∧
  (∀ lf ∈ fk.local_foreign_mapping, lf.1 ∈ ti.columns.map Prod.fst) ∧
  (∀ tj ∈ schema, tj.table = fk.foreign_table →
    ∀ lf ∈ fk.local_foreign_mapping, lf.2 ∈ tj.columns.map Prod.fst)

/-- Schema-snapshot invariants (§3): distinct table names, distinct column
names per table, well-formed FK constraints. -/
def Wf (schema : List TableInfo) : Prop :=
  (schema.map (·.table)).Nodup ∧
  ∀ ti ∈ schema, (ti.columns.map Prod.fst).Nodup ∧
    ∀ fk ∈ ti.fk_constraints, WfFk schema ti fk

/-- Caller-supplied pre-existing rows have exactly their tables' declared
columns. -/
def InitOk (schema : List TableInfo) (data0 : Store) : Prop :=
  ∀ e ∈ data0, ∀ ti ∈ schema, ti.table = e.1 → ∀ r ∈ e.2, RowHasKeys ti r

instance (schema : List TableInfo) (ti : TableInfo) (fk : FkConstraint) :
    Decidable (WfFk schema ti fk) := by
  unfold WfFk; infer_instance

instance (schema : List TableInfo) : Decidable (Wf schema) := by
  unfold Wf; infer_instance

instance (ti : TableInfo) (r : Row) : Decidable (RowHasKeys ti r) := by
  unfold RowHasKeys; infer_instance

instance (schema : List TableInfo) (data0 : Store) : Decidable (InitOk schema data0) := by
  unfold InitOk; infer_instance

/-! Concrete fixtures used by counterexamples and witnesses. -/

/-- A plain text column. -/
def textCol (c : String) (nb : Bool) : ColInfo :=
  { col_name := c, pgtype := "text", nullable := nb,
    character_maximum_length := none, numeric_precision := none,
    numeric_scale := none, enum_values := none }

/-- A `bool`-typed column that also carries enum labels. -/
def enumBoolCI : ColInfo :=
  { col_name := "flag", pgtype := "bool", nullable := false,
    character_maximum_length := none, numeric_precision := none,
    numeric_scale := none, enum_values := some ["yes", "no"] }

/-- An enum-typed column (its type tag is the enum's own name). -/
def enumCI : ColInfo :=
  { col_name := "mood", pgtype := "mood_enum", nullable := false,
    character_maximum_length := none, numeric_precision := none,
    numeric_scale := none, enum_values := some ["happy", "sad"] }

/-- A column of an unsupported type. -/
def unsupportedCI : ColInfo :=
  { col_name := "span", pgtype := "tsrange", nullable := false,
    character_maximum_length := none, numeric_precision := none,
    numeric_scale := none, enum_values := none }

def tiP : TableInfo :=
  { table := "p", columns := [("id", textCol "id" false)],
    unique_constraints := [], fk_constraints := [] }

/-- Child with a nullable FK column referencing `p.id`. -/
def tiC : TableInfo :=
  { table := "c", columns := [("pid", textCol "pid" true)],
    unique_constraints := [], fk_constraints := [⟨"c", "p", [("pid", "id")]⟩] }

/-- Child with a NOT NULL FK column referencing `p.id`. -/
def tiC2 : TableInfo :=
  { table := "c", columns := [("pid", textCol "pid" false)],
    unique_constraints := [], fk_constraints := [⟨"c", "p", [("pid", "id")]⟩] }

/-- A table with a single-column unique constraint. -/
def tiU : TableInfo :=
  { table := "u", columns := [("a", textCol "a" false)],
    unique_constraints := [["a"]], fk_constraints := [] }

/-- The schema of the repository's `test_configurable_mappings` tests. -/
def usersTI : TableInfo :=
  { table := "test.users",
    columns := [("email", textCol "email" false),
                ("custom_field", textCol "custom_field" false)],
    unique_constraints := [], fk_constraints := [] }

/-- Acyclic 3-table schema where `c` owns two FK constraints that both
reference `p`, and `d` references `c`. -/
def schema3 : List TableInfo :=
  [ { table := "p", columns := [("x", textCol "x" false), ("y", textCol "y" false)],
      unique_constraints := [], fk_constraints := [] },
    { table := "c", columns := [("a", textCol "a" false), ("b", textCol "b" false)],
      unique_constraints := [],
      fk_constraints := [⟨"c", "p", [("a", "x")]⟩, ⟨"c", "p", [("b", "y")]⟩] },
    { table := "d", columns := [("e", textCol "e" false)],
      unique_constraints := [], fk_constraints := [⟨"d", "c", [("e", "a")]⟩] } ]

/-- A self-referencing table. -/
def selfSchema : List TableInfo :=
  [ { table := "a", columns := [("id", textCol "id" false), ("pa", textCol "pa" true)],
      unique_constraints := [], fk_constraints := [⟨"a", "a", [("pa", "id")]⟩] } ]

/-- A table owning a column of unsupported type. -/
def tiBad : TableInfo :=
  { table := "b", columns := [("span", unsupportedCI)],
    unique_constraints := [], fk_constraints := [] }

/-- The type tags recognized by `col_info_to_strategy` (besides `float*`). -/
def supported_tags : List String :=
  ["uuid", "date", "timestamptz", "timestamp", "time", "timetz", "varchar", "text",
   "bpchar", "numeric", "money", "bool", "int2", "int4", "int8", "json", "jsonb",
   "bit", "varbit", "xml"]

/-- A column whose type no rule of the mapper matches: the tag is unsupported
and it carries no enum labels. -/
def unsupportedTypeB (ci : ColInfo) : Bool :=
  decide (¬ ci.pgtype ∈ supported_tags) && !strStartsWith ci.pgtype "float" &&
    !truthyEnum ci.enum_values

/-- One FK constraint is satisfied by row `r` against the store: some committed
foreign row's referenced columns equal, column by column under the constraint's
local-to-foreign mapping, `r`'s local-column values. -/
def FkMatch (store : Store) (fk : FkConstraint) (r : Row) : Prop :=
  ∃ p ∈ storeGetD store fk.foreign_table,
    ∀ lf ∈ fk.local_foreign_mapping, vlookup r lf.1 = vlookup p lf.2

/-- A row binds only columns of `seen` and binds all of them. -/
def RowOn (seen : List ColName) (r : Row) : Prop :=
  (∀ c ∈ r.map Prod.fst, c ∈ seen) ∧ (∀ c ∈ seen, (vlookup r c).isSome)

/-- Per-constraint hypotheses of the FK resolver: duplicate-free mapping
columns, and committed foreign rows binding every referenced column. -/
def FkWfStore (store : Store) (fk : FkConstraint) : Prop :=
  (fk.local_foreign_mapping.map Prod.fst).Nodup ∧
  (fk.local_foreign_mapping.map Prod.snd).Nodup ∧
  ∀ p ∈ storeGetD store fk.foreign_table,
    ∀ lf ∈ fk.local_foreign_mapping, (vlookup p lf.2).isSome

/-! ## Helper lemmas and claim theorems -/


/-! Basic helper lemmas. -/

theorem getD_mod_mem {α : Type} (l : List α) (d : α) (n : Nat) (h : l ≠ []) :
    l.getD (n % l.length) d ∈ l := by
  have hlen : 0 < l.length := List.length_pos.mpr h
  have hlt : n % l.length < l.length := Nat.mod_lt _ hlen
  rw [List.getD_eq_getElem?_getD, List.getElem?_eq_getElem hlt]
  exact List.getElem_mem hlt

theorem genV_oneOfV_mem (vs : List Val) (t : Tape) (h : vs ≠ []) :
    (genV (.oneOfV vs) t).1 ∈ vs := by
  simp only [genV]
  exact getD_mod_mem vs Val.null _ h

/-- C6 helper: the type-mapper unfolding for a column that reaches the enum rule. -/
theorem col_info_to_strategy_enum (ci : ColInfo) (labels : List String)
    (henum : ci.enum_values = some labels) (hne : labels ≠ [])
    (htags : ¬ ci.pgtype ∈ ["uuid", "date", "timestamptz", "timestamp", "time", "timetz",
      "varchar", "text", "bpchar", "numeric", "money", "bool", "int2", "int4", "int8",
      "json", "jsonb"])
    (hfl : strStartsWith ci.pgtype "float" = false) :
    col_info_to_strategy ci =
      .ok (if ci.nullable then .nullableS (.oneOfV (labels.map Val.s))
           else .oneOfV (labels.map Val.s)) := by
  simp only [List.mem_cons, List.not_mem_nil, or_false, not_or] at htags
  obtain ⟨h1, h2, h3, h4, h5, h6, h7, h8, h9, h10, h11, h13, h14, h15, h16, h17, h18⟩ := htags
  unfold col_info_to_strategy
  simp only [h1, h2, h3, h4, h5, h6, h7, h8, h9, h10, h11, hfl, h13, h14, h15, h16, h17, h18,
    henum, or_self, if_false, ite_false, or_false, false_or]
  simp [truthyEnum, hne]

/-- C8 helper: unsupported columns fail with an error naming type and column. -/
theorem col_info_to_strategy_unsupported (ci : ColInfo)
    (h : unsupportedTypeB ci = true) :
    col_info_to_strategy ci = .error (.unsupported ci.pgtype ci.col_name) := by
  simp only [unsupportedTypeB, supported_tags, Bool.and_eq_true, decide_eq_true_eq,
    Bool.not_eq_true', List.mem_cons, List.not_mem_nil, or_false, not_or] at h
  obtain ⟨⟨⟨h1, h2, h3, h4, h5, h6, h7, h8, h9, h10, h11, h13, h14, h15, h16, h17, h18,
    hb1, hb2, hx⟩, hfl⟩, hen⟩ := h
  unfold col_info_to_strategy
  simp [h1, h2, h3, h4, h5, h6, h7, h8, h9, h10, h11, hfl, h13, h14, h15, h16, h17, h18,
    hb1, hb2, hx, hen]


/-- C3: on the acyclic schema `schema3` (table `c` owns two FK constraints
both referencing `p`, table `d` references `c`) `topo_sort_tables` raises the
cycle-detected error even though the FK graph has no cycle: the in-degree of
`c` counts constraints (2) while edges are deduplicated in the graph's
dependent sets, so `c` is never emitted. -/
theorem C3_spurious_cycle_on_acyclic_duplicate_fk :
    has_cycle (fk_map_of schema3) = false ∧
    topo_sort_tables (fk_map_of schema3) (schema3.map (·.table)) = .error Err.cycle :=
  ⟨by rfl, by rfl⟩

/-- C6 counterexample: a `bool`-typed column carrying a non-empty enum label
list gets the boolean strategy, not the uniform-label strategy: the enum rule
is NOT checked before the other type-tag rules, and the produced value is not
one of the labels. -/
theorem C6_counterexample :
    col_info_to_strategy enumBoolCI = .ok .boolK ∧
    (genV .boolK [1]).1 = Val.b false ∧
    ¬ Val.b false ∈ [Val.s "yes", Val.s "no"] :=
  ⟨by rfl, by rfl, by decide⟩

/-- C6 amended: for every ColumnInfo with a non-empty enum label list whose
type tag matches none of the rules checked earlier (uuid, date, timestamps,
times, text family, numeric/money/float, bool, integers, json) the mapper
returns the uniform choice among the labels, wrapped in nullable when the
column is nullable; every produced value is one of the labels (or null under
the nullable wrapper).  The enum rule is checked before only the bit-string,
xml and unsupported-type rules. -/
theorem C6_enum_uniform_choice_amended (ci : ColInfo) (labels : List String)
    (henum : ci.enum_values = some labels) (hne : labels ≠ [])
    (htags : ¬ ci.pgtype ∈ ["uuid", "date", "timestamptz", "timestamp", "time", "timetz",
      "varchar", "text", "bpchar", "numeric", "money", "bool", "int2", "int4", "int8",
      "json", "jsonb"])
    (hfl : strStartsWith ci.pgtype "float" = false) :
    col_info_to_strategy ci =
      .ok (if ci.nullable then .nullableS (.oneOfV (labels.map Val.s))
           else .oneOfV (labels.map Val.s)) ∧
    ∀ t : Tape,
      (genV (if ci.nullable then .nullableS (.oneOfV (labels.map Val.s))
             else .oneOfV (labels.map Val.s)) t).1 ∈
        (if ci.nullable then Val.null :: labels.map Val.s else labels.map Val.s) := by
  have hmaps : labels.map Val.s ≠ [] := by
    intro hc
    exact hne (List.map_eq_nil_iff.mp hc)
  refine ⟨col_info_to_strategy_enum ci labels henum hne htags hfl, ?_⟩
  intro t
  cases hn : ci.nullable with
  | false =>
    simpa using genV_oneOfV_mem (labels.map Val.s) t hmaps
  | true =>
    simp only [if_true]
    simp only [genV]
    by_cases hz : (draw t).1 % 10 = 0
    · simp [hz]
    · simp only [hz, if_false, ite_false, List.mem_cons]
      exact Or.inr (genV_oneOfV_mem (labels.map Val.s) (draw t).2 hmaps)

/-- C6 witness: the enum-typed column `enumCI` satisfies the amended theorem;
at tape `[3]` the produced value is one of its two labels. -/
theorem C6_enum_uniform_choice_amended_witness :
    (enumCI.enum_values = some ["happy", "sad"] ∧ (["happy", "sad"] : List String) ≠ [] ∧
      ¬ enumCI.pgtype ∈ ["uuid", "date", "timestamptz", "timestamp", "time", "timetz",
        "varchar", "text", "bpchar", "numeric", "money", "bool", "int2", "int4", "int8",
        "json", "jsonb"] ∧
      strStartsWith enumCI.pgtype "float" = false) ∧
    col_info_to_strategy enumCI = .ok (.oneOfV [Val.s "happy", Val.s "sad"]) ∧
    (genV (.oneOfV [Val.s "happy", Val.s "sad"]) [3]).1 ∈ [Val.s "happy", Val.s "sad"] := by
  refine ⟨⟨by rfl, by decide, by decide, by decide⟩, ?_, ?_⟩
  · exact (C6_enum_uniform_choice_amended enumCI ["happy", "sad"] rfl (by decide)
      (by decide) (by decide)).1
  · exact (C6_enum_uniform_choice_amended enumCI ["happy", "sad"] rfl (by decide)
      (by decide) (by decide)).2 [3]




/-- C5 amended: FK-unsatisfiability is recovered exactly when it is signalled
by the single trial row invocation of `get_table`: the table yields the empty
row list and the `get_db` loop carries on with the remaining tables.  (A
`fkUnsat` signalled by a post-trial generation inside the list loop is not
caught; see the counterexample.) -/
theorem C5_trial_recovery_amended :
    (∀ (ti : TableInfo) (store : Store) (rc : Option Nat) (ov : List (ColName × Strat))
       (t t₁ : Tape) (cols : List ColName),
       get_row_gen ti.columns ti.fk_constraints store ov t = (.error (.fkUnsat cols), t₁) →
       get_table ti store rc ov t = (.ok [], t₁)) ∧
    (∀ (schema : List TableInfo) (rcs : List (TableName × Nat))
       (ovs : List (TableName × List (ColName × Strat))) (tbl : TableName)
       (rest : List TableName) (store : Store) (t t' : Tape) (ti : TableInfo)
       (rows : List Row),
       schema.find? (fun x => x.table == tbl) = some ti →
       get_table ti store (alookup rcs tbl) ((alookup ovs tbl).getD []) t = (.ok rows, t') →
       get_db_loop schema rcs ovs (tbl :: rest) store t =
         get_db_loop schema rcs ovs rest (storeSet store tbl rows) t') := by
  constructor
  · intro ti store rc ov t t₁ cols h
    simp [get_table, h]
  · intro schema rcs ovs tbl rest store t t' ti rows hfind hget
    simp [get_db_loop, hfind, hget]

/-- C5 witness: on the `tiC2` child with empty parent data the trial signals
FK-unsatisfiability, `get_table` returns the empty list, and the loop
continues. -/
theorem C5_trial_recovery_amended_witness :
    get_row_gen tiC2.columns tiC2.fk_constraints [] [] [1] =
      (.error (.fkUnsat ["pid"]), []) ∧
    get_table tiC2 [] (alookup [("c", 1)] "c") ((alookup [] "c").getD []) [1] =
      (.ok [], []) ∧
    [tiC2].find? (fun x => x.table == "c") = some tiC2 ∧
    get_db_loop [tiC2] [("c", 1)] [] ["c"] [] [1] =
      get_db_loop [tiC2] [("c", 1)] [] [] (storeSet [] "c" []) [] := by
  refine ⟨by rfl, ?_, by rfl, ?_⟩
  · exact C5_trial_recovery_amended.1 tiC2 [] (alookup [("c", 1)] "c")
      ((alookup [] "c").getD []) [1] [] ["pid"] (by rfl)
  · exact C5_trial_recovery_amended.2 [tiC2] [("c", 1)] [] "c" [] [] [1] [] tiC2 []
      (by rfl) (C5_trial_recovery_amended.1 tiC2 [] (alookup [("c", 1)] "c")
        ((alookup [] "c").getD []) [1] [] ["pid"] (by rfl))

/-- C5 counterexample: with a nullable FK column (`c.pid → p.id`), an empty
parent (`row_counts p = 0`) and a tape whose trial draw is null but whose
next row draw is non-null, the `UnSatisfiableFkConstraintError` raised inside
the list loop propagates out of `get_db` as a run failure, contradicting the
claim that it is never propagated. -/
theorem C5_counterexample :
    get_db [tiP, tiC] [] [("p", 0), ("c", 2)] [] [5, 0, 0, 0, 7, 1, 3] =
      .error (.fkUnsat ["pid"]) := by
  rfl

/-- C7: the embedded `get_db`, like the source's, has no
`col_name_strategy_mappings` parameter: the heuristic dictionary is the fixed
module constant.  Running the repository's own configurable-mappings test
schema therefore yields a generic `char` value for `custom_field`, never the
caller's `fixed_strategy("CUSTOM_VALUE")`, and `pg_faker.run` /
`tests/test_configurable_mappings.py` pass an argument `generate.get_db` does
not accept. -/
theorem C7_mappings_not_configurable :
    get_db [usersTI] [] [("test.users", 1)] [] [1, 2, 3, 4, 5, 6] =
      .ok [("test.users",
        [[("email", Val.fake "email" 4), ("custom_field", Val.fake "char" 5)]])] ∧
    ¬ Val.fake "char" 5 = Val.s "CUSTOM_VALUE" :=
  ⟨by rfl, by decide⟩

/-- C8: (1) strategy construction for a column whose type tag no rule matches
fails with an unsupported-type error naming the type and the column;
(2) `get_table` does not catch it (only `UnSatisfiableFkConstraintError` is
caught); (3) the `get_db` loop aborts immediately with that error, with no
table-local recovery and no result. -/
theorem C8_unsupported_type_fatal :
    (∀ ci : ColInfo, unsupportedTypeB ci = true →
      col_info_to_strategy ci = .error (.unsupported ci.pgtype ci.col_name)) ∧
    (∀ (ti : TableInfo) (store : Store) (rc : Option Nat) (ov : List (ColName × Strat))
       (t t₁ : Tape) (p c : String),
       get_row_gen ti.columns ti.fk_constraints store ov t =
         (.error (.unsupported p c), t₁) →
       get_table ti store rc ov t = (.error (.unsupported p c), t₁)) ∧
    (∀ (schema : List TableInfo) (rcs : List (TableName × Nat))
       (ovs : List (TableName × List (ColName × Strat))) (tbl : TableName)
       (rest : List TableName) (store : Store) (t t₁ : Tape) (ti : TableInfo)
       (p c : String),
       schema.find? (fun x => x.table == tbl) = some ti →
       get_table ti store (alookup rcs tbl) ((alookup ovs tbl).getD []) t =
         (.error (.unsupported p c), t₁) →
       get_db_loop schema rcs ovs (tbl :: rest) store t = .error (.unsupported p c)) := by
  refine ⟨col_info_to_strategy_unsupported, ?_, ?_⟩
  · intro ti store rc ov t t₁ p c h
    simp [get_table, h]
  · intro schema rcs ovs tbl rest store t t₁ ti p c hfind hget
    simp [get_db_loop, hfind, hget]

/-- C8 witness: the `tsrange` column `span` of `tiBad` aborts the whole run
with the error naming both the type and the column. -/
theorem C8_unsupported_type_fatal_witness :
    unsupportedTypeB unsupportedCI = true ∧
    col_info_to_strategy unsupportedCI = .error (.unsupported "tsrange" "span") ∧
    get_row_gen tiBad.columns tiBad.fk_constraints [] [] [0] =
      (.error (.unsupported "tsrange" "span"), [0]) ∧
    get_table tiBad [] none [] [0] = (.error (.unsupported "tsrange" "span"), [0]) ∧
    [tiBad].find? (fun x => x.table == "b") = some tiBad ∧
    get_db_loop [tiBad] [] [] ["b"] [] [0] = .error (.unsupported "tsrange" "span") := by
  refine ⟨by rfl, C8_unsupported_type_fatal.1 unsupportedCI (by rfl), by rfl, ?_, by rfl, ?_⟩
  · exact C8_unsupported_type_fatal.2.1 tiBad [] none [] [0] [0] "tsrange" "span" (by rfl)
  · exact C8_unsupported_type_fatal.2.2 [tiBad] [] [] "b" [] [] [0] [0] tiBad
      "tsrange" "span" (by rfl)
      (C8_unsupported_type_fatal.2.1 tiBad [] none [] [0] [0] "tsrange" "span" (by rfl))




/-! C2: uniqueness enforcement of `list_strategy`. -/

theorem getD_set_eq {α : Type} (s : List α) (i : Nat) (x : α) (d : α) (h : i < s.length) :
    (s.set i x).getD i d = x := by
  induction s generalizing i with
  | nil => simp at h
  | cons a as ih =>
    cases i with
    | zero => simp [List.set, List.getD]
    | succ n =>
      simp only [List.set, List.getD_cons_succ]
      exact ih n (by simpa using h)

theorem getD_set_ne {α : Type} (s : List α) (i j : Nat) (x : α) (d : α) (hne : i ≠ j) :
    (s.set i x).getD j d = s.getD j d := by
  induction s generalizing i j with
  | nil => simp [List.set]
  | cons a as ih =>
    cases i with
    | zero =>
      cases j with
      | zero => exact absurd rfl hne
      | succ m => simp [List.set, List.getD_cons_succ]
    | succ n =>
      cases j with
      | zero => simp [List.set, List.getD_cons_zero]
      | succ m =>
        simp only [List.set, List.getD_cons_succ]
        exact ih n m (fun hc => hne (by rw [hc]))

/-- Hash-set update of `list_strategy_go` only grows each per-constraint set. -/
theorem fold_set_superset (l : List (Nat × List Val)) (seen : List (List (List Val)))
    (i : Nat) (h : List Val) (hmem : h ∈ seen.getD i []) :
    h ∈ (l.foldl (fun s ih => s.set ih.1 (ih.2 :: s.getD ih.1 [])) seen).getD i [] := by
  induction l generalizing seen with
  | nil => exact hmem
  | cons p rest ih =>
    simp only [List.foldl_cons]
    apply ih
    by_cases hij : p.1 = i
    · subst hij
      by_cases hlt : p.1 < seen.length
      · rw [getD_set_eq _ _ _ _ hlt]
        exact List.mem_cons_of_mem _ hmem
      · rw [List.set_eq_of_length_le (Nat.le_of_not_lt hlt)]
        exact hmem
    · rw [getD_set_ne _ _ _ _ _ hij]
      exact hmem

/-- Every recorded new hash lands in its per-constraint set. -/
theorem fold_set_mem (l : List (Nat × List Val)) (seen : List (List (List Val)))
    (i : Nat) (h : List Val) (hmem : (i, h) ∈ l) (hlen : i < seen.length) :
    h ∈ (l.foldl (fun s ih => s.set ih.1 (ih.2 :: s.getD ih.1 [])) seen).getD i [] := by
  induction l generalizing seen with
  | nil => simp at hmem
  | cons p rest ih =>
    simp only [List.foldl_cons]
    rcases List.mem_cons.mp hmem with heq | hrest
    · subst heq
      apply fold_set_superset
      show h ∈ (seen.set i (h :: seen.getD i [])).getD i []
      rw [getD_set_eq _ _ _ _ hlen]
      exact List.mem_cons_self _ _
    · exact ih _ hrest (by simpa using hlen)

/-- Updating hash sets preserves the per-constraint count. -/
theorem fold_set_length (l : List (Nat × List Val)) (seen : List (List (List Val))) :
    (l.foldl (fun s ih => s.set ih.1 (ih.2 :: s.getD ih.1 [])) seen).length = seen.length := by
  induction l generalizing seen with
  | nil => rfl
  | cons p rest ih =>
    simp only [List.foldl_cons]
    rw [ih, List.length_set]

/-- Two rows conflict under `ubs` when some constraint hashes both to the same
defined key; accepted rows are pairwise conflict-free. -/
def UcDistinct (ubs : List (Row → Except Unit (List Val))) (r1 r2 : Row) : Prop :=
  ∀ u ∈ ubs, ∀ h1 h2, u r1 = .ok h1 → u r2 = .ok h2 → h1 ≠ h2

theorem list_strategy_go_pairwise (genFn : Tape → Except Err Row × Tape)
    (ubs : List (Row → Except Unit (List Val))) (target : Nat) :
    ∀ (fuel : Nat) (items : List Row) (seen : List (List (List Val))) (t : Tape)
      (items' : List Row) (t' : Tape),
      seen.length = ubs.length →
      (∀ i (hi : i < ubs.length) r h, r ∈ items → ubs[i] r = .ok h → h ∈ seen.getD i []) →
      items.Pairwise (UcDistinct ubs) →
      list_strategy_go genFn ubs target fuel items seen t = (.ok items', t') →
      items'.Pairwise (UcDistinct ubs) := by
  intro fuel
  induction fuel with
  | zero =>
    intro items seen t items' t' _ _ hpw hrun
    simp only [list_strategy_go] at hrun
    cases hrun
    exact hpw
  | succ n ih =>
    intro items seen t items' t' hlen hrec hpw hrun
    simp only [list_strategy_go] at hrun
    by_cases hdone : target ≤ items.length
    · rw [if_pos hdone] at hrun
      cases hrun
      exact hpw
    · rw [if_neg hdone] at hrun
      rcases hgen : genFn t with ⟨res, t₂⟩
      rw [hgen] at hrun
      cases res with
      | error e => simp at hrun
      | ok item =>
        simp only at hrun
        by_cases hemp : ubs.isEmpty
        · rw [if_pos hemp] at hrun
          have hnil : ubs = [] := List.isEmpty_iff.mp hemp
          refine ih _ _ _ _ _ hlen ?_ ?_ hrun
          · intro i hi
            rw [hnil] at hi
            simp at hi
          · refine List.pairwise_append.mpr ⟨hpw, ?_, ?_⟩
            · simp [UcDistinct, hnil]
            · intro r hr r' hr'
              simp only [List.mem_singleton] at hr'
              subst hr'
              intro u hu
              rw [hnil] at hu
              simp at hu
        · rw [if_neg hemp] at hrun
          have hNHmem : ∀ (i : Nat) (h : List Val),
              ((i, h) ∈ ubs.enum.filterMap (fun iu =>
                match iu.2 item with
                | .ok h2 => some (iu.1, h2)
                | .error _ => none)) ↔
              ∃ u, ubs.get? i = some u ∧ u item = .ok h := by
            intro i h
            constructor
            · intro hm
              rcases List.mem_filterMap.mp hm with ⟨⟨j, u⟩, hj, hval⟩
              have hju : ubs.get? j = some u := List.mem_enum_iff_get?.mp hj
              dsimp only at hval
              cases hu : u item with
              | error e => rw [hu] at hval; simp at hval
              | ok hv =>
                rw [hu] at hval
                simp only [Option.some.injEq, Prod.mk.injEq] at hval
                refine ⟨u, ?_, ?_⟩
                · rw [← hval.1]; exact hju
                · rw [hu, hval.2]
            · rintro ⟨u, hui, huok⟩
              apply List.mem_filterMap.mpr
              refine ⟨(i, u), List.mem_enum_iff_get?.mpr hui, ?_⟩
              simp [huok]
          by_cases hskip : (ubs.enum.filterMap (fun iu =>
              match iu.2 item with
              | .ok h2 => some (iu.1, h2)
              | .error _ => none)).any (fun ih2 => ih2.2 ∈ seen.getD ih2.1 [])
          · rw [if_pos hskip] at hrun
            exact ih _ _ _ _ _ hlen hrec hpw hrun
          · rw [if_neg hskip] at hrun
            have hnotin : ∀ (i : Nat) (h : List Val),
                ((i, h) ∈ ubs.enum.filterMap (fun iu =>
                  match iu.2 item with
                  | .ok h2 => some (iu.1, h2)
                  | .error _ => none)) → ¬ h ∈ seen.getD i [] := by
              intro i h hm hcontra
              have := List.any_eq_false.mp (by simpa using hskip) (i, h) hm
              simp only [decide_eq_true_eq] at this
              exact this (by simpa [List.getD_eq_getElem?_getD] using hcontra)
            refine ih _ _ _ _ _ ?_ ?_ ?_ hrun
            · rw [fold_set_length]
              exact hlen
            · intro i hi r h hr hok
              rcases List.mem_append.mp hr with hold | hnew
              · exact fold_set_superset _ _ _ _ (hrec i hi r h hold hok)
              · simp only [List.mem_singleton] at hnew
                subst hnew
                apply fold_set_mem
                · exact (hNHmem i h).mpr ⟨ubs[i], by simp [List.get?_eq_getElem?,
                    List.getElem?_eq_getElem hi], hok⟩
                · rw [hlen]; exact hi
            · refine List.pairwise_append.mpr ⟨hpw, ?_, ?_⟩
              · simp [UcDistinct]
              · intro r hr r' hr'
                simp only [List.mem_singleton] at hr'
                subst hr'
                intro u hu h1 h2 hok1 hok2
                rcases List.get_of_mem hu with ⟨⟨i, hi⟩, hui⟩
                have hgood : ubs[i] = u := by
                  rw [← hui, List.get_eq_getElem]
                have hrecorded : h1 ∈ seen.getD i [] := by
                  refine hrec i hi r h1 hr ?_
                  rw [hgood]
                  exact hok1
                intro hcontra
                rw [← hcontra] at hok2
                refine hnotin i h1 ?_ hrecorded
                refine (hNHmem i h1).mpr ⟨u, ?_, hok2⟩
                rw [List.get?_eq_get hi, hui]


/-- Helper: `getD` agrees with indexing in bounds. -/
theorem getD_eq_getElem_of_lt {α : Type} (l : List α) (d : α) (j : Nat) (h : j < l.length) :
    l.getD j d = l[j] := by
  rw [List.getD_eq_getElem?_getD, List.getElem?_eq_getElem h]
  rfl

/-- `list_strategy` only returns pairwise conflict-free row lists. -/
theorem list_strategy_pairwise (genFn : Tape → Except Err Row × Tape)
    (minLen maxLen : Nat) (ubs : List (Row → Except Unit (List Val))) (maxIter : Nat)
    (t : Tape) (rows : List Row) (t' : Tape)
    (hok : list_strategy genFn minLen maxLen ubs maxIter t = (.ok rows, t')) :
    rows.Pairwise (UcDistinct ubs) := by
  unfold list_strategy at hok
  by_cases hbad : maxLen < minLen
  · rw [if_pos hbad] at hok
    simp at hok
  · rw [if_neg hbad] at hok
    refine list_strategy_go_pairwise genFn ubs _ maxIter [] _ _ rows t' ?_ ?_ ?_ hok
    · simp
    · intro i hi r h hr
      simp at hr
    · exact List.Pairwise.nil

/-- C2: among the rows the table engine accepts for a table with a declared
unique constraint `U`, no two distinct accepted rows agree, with all values
non-null, on all of `U`'s columns.  (A row with a null in some column of `U`
is exempt from `U`'s check, and rows are still checked against the other
constraints: the statement quantifies over every declared constraint
independently.) -/
theorem C2_unique_constraints_enforced (ti : TableInfo) (store : Store)
    (rc : Option Nat) (ov : List (ColName × Strat)) (t : Tape) (rows : List Row)
    (t' : Tape) (hok : get_table ti store rc ov t = (.ok rows, t')) :
    ∀ U ∈ ti.unique_constraints, ∀ j k : Nat, j < k → k < rows.length →
      ¬ (∀ c ∈ U, ∃ v, v ≠ Val.null ∧ vlookup (rows.getD j []) c = some v ∧
          vlookup (rows.getD k []) c = some v) := by
  have hpw : rows.Pairwise (UcDistinct (ti.unique_constraints.map get_uc_hasher)) := by
    unfold get_table at hok
    rcases htrial : get_row_gen ti.columns ti.fk_constraints store ov t with ⟨res, t₁⟩
    rw [htrial] at hok
    cases res with
    | error e =>
      cases e with
      | fkUnsat cols =>
        simp only at hok
        cases hok
        exact List.Pairwise.nil
      | unsupported p c => simp at hok
      | cycle => simp at hok
      | keyError k => simp at hok
      | badRange => simp at hok
      | fuel => simp at hok
    | ok r0 =>
      simp only at hok
      exact list_strategy_pairwise _ _ _ _ _ _ _ _ hok
  intro U hU j k hjk hk hcontra
  have hj : j < rows.length := Nat.lt_trans hjk hk
  have hrel : UcDistinct (ti.unique_constraints.map get_uc_hasher) rows[j] rows[k] :=
    List.pairwise_iff_getElem.mp hpw j k hj hk hjk
  have hu : get_uc_hasher U ∈ ti.unique_constraints.map get_uc_hasher :=
    List.mem_map.mpr ⟨U, hU, rfl⟩
  have hlookeq : ∀ c ∈ U, vlookup rows[j] c = vlookup rows[k] c := by
    intro c hc
    rcases hcontra c hc with ⟨v, _, hvj, hvk⟩
    rw [getD_eq_getElem_of_lt _ _ _ hj] at hvj
    rw [getD_eq_getElem_of_lt _ _ _ hk] at hvk
    rw [hvj, hvk]
  have hhasheq : U.filterMap (vlookup rows[j]) = U.filterMap (vlookup rows[k]) :=
    List.filterMap_congr hlookeq
  have hnonull : ∀ x ∈ U.filterMap (vlookup rows[j]), ¬ x = Val.null := by
    intro x hx
    rcases List.mem_filterMap.mp hx with ⟨c, hc, hcx⟩
    rcases hcontra c hc with ⟨v, hvnull, hvj, _⟩
    rw [getD_eq_getElem_of_lt _ _ _ hj] at hvj
    rw [hvj] at hcx
    cases hcx
    exact hvnull
  have hhashok : get_uc_hasher U rows[j] = .ok (U.filterMap (vlookup rows[j])) := by
    unfold get_uc_hasher
    rw [if_neg]
    intro hany
    rcases List.any_eq_true.mp hany with ⟨x, hx, hxn⟩
    exact hnonull x hx (by simpa using hxn)
  have hhashok' : get_uc_hasher U rows[k] = .ok (U.filterMap (vlookup rows[j])) := by
    unfold get_uc_hasher
    rw [← hhasheq, if_neg]
    intro hany
    rcases List.any_eq_true.mp hany with ⟨x, hx, hxn⟩
    exact hnonull x hx (by simpa using hxn)
  exact hrel (get_uc_hasher U) hu _ _ hhashok hhashok' rfl

/-- C2 witness: a concrete `get_table` run on `tiU` accepting two rows whose
values on the unique column differ. -/
theorem C2_unique_constraints_enforced_witness :
    get_table tiU [] (some 2) [] [1, 7, 7, 7, 8, 9] =
      (.ok [[("a", Val.fake "char" 7)], [("a", Val.fake "char" 8)]], [9]) ∧
    ¬ (∀ c ∈ ["a"], ∃ v, v ≠ Val.null ∧
        vlookup ([[("a", Val.fake "char" 7)], [("a", Val.fake "char" 8)]].getD 0 []) c = some v ∧
        vlookup ([[("a", Val.fake "char" 7)], [("a", Val.fake "char" 8)]].getD 1 []) c = some v) := by
  refine ⟨by rfl, ?_⟩
  exact C2_unique_constraints_enforced tiU [] (some 2) [] [1, 7, 7, 7, 8, 9]
    [[("a", Val.fake "char" 7)], [("a", Val.fake "char" 8)]] [9] (by rfl)
    ["a"] (by simp [tiU]) 0 1 (by decide) (by decide)



/-! Row-merge lemmas (dict semantics of `{**r1, **r2}`). -/

theorem vlookup_append (a b : Row) (c : ColName) :
    vlookup (a ++ b) c =
      match vlookup a c with
      | some v => some v
      | none => vlookup b c := by
  induction a with
  | nil => simp [vlookup]
  | cons kv rest ih =>
    by_cases hc : kv.1 = c
    · simp [vlookup, hc]
    · simp only [List.cons_append, vlookup, hc, if_false, ite_false]
      exact ih

theorem vlookup_mapped (r1 : Row) (f : ColName → Val → Val) (c : ColName) :
    vlookup (r1.map (fun kv => (kv.1, f kv.1 kv.2))) c = (vlookup r1 c).map (f c) := by
  induction r1 with
  | nil => simp [vlookup]
  | cons kv rest ih =>
    by_cases hc : kv.1 = c
    · subst hc
      simp [vlookup]
    · simp only [List.map_cons, vlookup, hc, if_false, ite_false]
      exact ih

theorem vlookup_filter_key (r : Row) (p : ColName → Bool) (c : ColName) :
    vlookup (r.filter (fun kv => p kv.1)) c = if p c then vlookup r c else none := by
  induction r with
  | nil => simp [vlookup]
  | cons kv rest ih =>
    by_cases hp : p kv.1
    · rw [List.filter_cons_of_pos (by simpa using hp)]
      by_cases hc : kv.1 = c
      · subst hc
        simp [vlookup, hp]
      · simp only [vlookup, hc, if_false, ite_false]
        exact ih
    · rw [List.filter_cons_of_neg (by simpa using hp)]
      by_cases hc : kv.1 = c
      · subst hc
        rw [ih, if_neg (by simpa using hp)]
        simp [vlookup, hp]
      · simp only [vlookup, hc, if_false, ite_false]
        exact ih

/-- The dict-update law: the second row wins on its keys. -/
theorem vlookup_rupdate (r1 r2 : Row) (c : ColName) :
    vlookup (rupdate r1 r2) c =
      match vlookup r2 c with
      | some v => some v
      | none => vlookup r1 c := by
  unfold rupdate
  rw [vlookup_append]
  have h1 : vlookup (r1.map (fun kv => (kv.1, (vlookup r2 kv.1).getD kv.2))) c =
      (vlookup r1 c).map (fun v => (vlookup r2 c).getD v) :=
    vlookup_mapped r1 (fun k v => (vlookup r2 k).getD v) c
  rw [h1]
  cases hv1 : vlookup r1 c with
  | none =>
    simp only [Option.map_none']
    show vlookup (r2.filter fun kv => (vlookup r1 kv.1).isNone) c = _
    rw [vlookup_filter_key r2 (fun k => (vlookup r1 k).isNone) c, hv1]
    simp only [Option.isNone_none, if_true]
    cases hv2 : vlookup r2 c <;> rfl
  | some v1 =>
    simp only [Option.map_some']
    cases hv2 : vlookup r2 c <;> simp

theorem vlookup_isSome_iff_mem_keys (r : Row) (c : ColName) :
    (vlookup r c).isSome ↔ c ∈ r.map Prod.fst := by
  induction r with
  | nil => simp [vlookup]
  | cons kv rest ih =>
    by_cases hc : kv.1 = c
    · subst hc
      simp [vlookup]
    · simp only [vlookup, hc, if_false, ite_false, List.map_cons, List.mem_cons]
      rw [ih]
      constructor
      · exact Or.inr
      · rintro (h | h)
        · exact absurd h.symm hc
        · exact h



/-! Join and projection lemmas. -/

theorem mem_cross_join (rows1 rows2 : List Row) (r : Row) :
    r ∈ cross_join rows1 rows2 ↔ ∃ r1 ∈ rows1, ∃ r2 ∈ rows2, r = rupdate r1 r2 := by
  unfold cross_join
  constructor
  · intro h
    rcases List.mem_flatMap.mp h with ⟨r1, h1, hm⟩
    rcases List.mem_map.mp hm with ⟨r2, h2, heq⟩
    exact ⟨r1, h1, r2, h2, heq.symm⟩
  · rintro ⟨r1, h1, r2, h2, rfl⟩
    exact List.mem_flatMap.mpr ⟨r1, h1, List.mem_map.mpr ⟨r2, h2, rfl⟩⟩

theorem mem_inner_join (rows1 rows2 : List Row) (onCols : List ColName) (r : Row) :
    r ∈ inner_join rows1 rows2 onCols →
      ∃ r1 ∈ rows1, ∃ r2 ∈ rows2,
        select_values r1 onCols = select_values r2 onCols ∧ r = rupdate r1 r2 := by
  unfold inner_join
  intro h
  rcases List.mem_flatMap.mp h with ⟨r1, h1, hm⟩
  rcases List.mem_map.mp hm with ⟨r2, h2, heq⟩
  have h2' := List.mem_filter.mp h2
  exact ⟨r1, h1, r2, h2'.1, by simpa using h2'.2, heq.symm⟩

theorem vlookup_cons (k : ColName) (v : Val) (rest : Row) (c : ColName) :
    vlookup ((k, v) :: rest) c = if k = c then some v else vlookup rest c := rfl

theorem vlookup_select (r : Row) (cols : List ColName) (c : ColName) :
    vlookup (select r cols) c = if c ∈ cols then vlookup r c else none := by
  induction cols with
  | nil => simp [select, vlookup]
  | cons c0 rest ih =>
    cases hv0 : vlookup r c0 with
    | some v =>
      have hsel : select r (c0 :: rest) = (c0, v) :: select r rest := by
        unfold select
        simp [List.filterMap_cons, hv0]
      rw [hsel, vlookup_cons]
      by_cases hc : c0 = c
      · rw [if_pos hc, if_pos (by rw [← hc]; exact List.mem_cons_self _ _), ← hc, hv0]
      · rw [if_neg hc, ih]
        by_cases hcr : c ∈ rest
        · rw [if_pos hcr, if_pos (List.mem_cons_of_mem _ hcr)]
        · rw [if_neg hcr, if_neg ?_]
          intro hm
          rcases List.mem_cons.mp hm with he | he
          · exact hc he.symm
          · exact hcr he
    | none =>
      have hsel : select r (c0 :: rest) = select r rest := by
        unfold select
        simp [List.filterMap_cons, hv0]
      rw [hsel, ih]
      by_cases hcr : c ∈ rest
      · rw [if_pos hcr, if_pos (List.mem_cons_of_mem _ hcr)]
      · rw [if_neg hcr]
        by_cases hc : c0 = c
        · rw [if_pos (by rw [← hc]; exact List.mem_cons_self _ _), ← hc, hv0]
        · rw [if_neg ?_]
          intro hm
          rcases List.mem_cons.mp hm with he | he
          · exact hc he.symm
          · exact hcr he

theorem alookup_mem {α : Type} (l : List (String × α)) (k : String) (v : α)
    (h : alookup l k = some v) : (k, v) ∈ l := by
  induction l with
  | nil => simp [alookup] at h
  | cons kv rest ih =>
    by_cases hk : kv.1 = k
    · rw [alookup, if_pos hk] at h
      cases h
      have heta : (k, kv.2) = kv := by rw [← hk]
      rw [heta]
      exact List.mem_cons_self _ _
    · rw [alookup, if_neg hk] at h
      exact List.mem_cons_of_mem _ (ih h)

theorem alookup_isSome_of_mem_keys {α : Type} (l : List (String × α)) (k : String)
    (h : k ∈ l.map Prod.fst) : (alookup l k).isSome := by
  induction l with
  | nil => simp at h
  | cons kv rest ih =>
    by_cases hk : kv.1 = k
    · rw [alookup, if_pos hk]; rfl
    · rw [alookup, if_neg hk]
      rcases List.mem_cons.mp h with heq | hrest
      · exact absurd heq.symm hk
      · exact ih hrest

theorem keys_renameRow (r : Row) (m : List (ColName × ColName)) (c : ColName) :
    c ∈ (renameRow r m).map Prod.fst ↔
      ∃ k ∈ r.map Prod.fst, (alookup m k).getD k = c := by
  unfold renameRow
  rw [List.map_map]
  constructor
  · intro h
    rcases List.mem_map.mp h with ⟨kv, hkv, heq⟩
    exact ⟨kv.1, List.mem_map.mpr ⟨kv, hkv, rfl⟩, heq⟩
  · rintro ⟨k, hk, heq⟩
    rcases List.mem_map.mp hk with ⟨kv, hkv, rfl⟩
    exact List.mem_map.mpr ⟨kv, hkv, heq⟩

theorem keys_rupdate (r1 r2 : Row) (c : ColName)
    (h : c ∈ (rupdate r1 r2).map Prod.fst) :
    c ∈ r1.map Prod.fst ∨ c ∈ r2.map Prod.fst := by
  have hs := (vlookup_isSome_iff_mem_keys _ c).mpr h
  rw [vlookup_rupdate] at hs
  cases hv2 : vlookup r2 c with
  | some v =>
    exact Or.inr ((vlookup_isSome_iff_mem_keys _ c).mp (by rw [hv2]; rfl))
  | none =>
    rw [hv2] at hs
    exact Or.inl ((vlookup_isSome_iff_mem_keys _ c).mp hs)

theorem mem_dedupGo (l : List String) (c : String) :
    ∀ seen : List String, c ∈ dedupGo seen l ↔ c ∈ l ∧ ¬ c ∈ seen := by
  induction l with
  | nil => intro seen; simp [dedupGo]
  | cons x xs ih =>
    intro seen
    by_cases hx : x ∈ seen
    · rw [dedupGo, if_pos hx]
      constructor
      · intro h
        rcases (ih seen).mp h with ⟨h1, h2⟩
        exact ⟨List.mem_cons_of_mem _ h1, h2⟩
      · rintro ⟨h1, h2⟩
        rcases List.mem_cons.mp h1 with he | he
        · exact absurd (he ▸ hx) h2
        · exact (ih seen).mpr ⟨he, h2⟩
    · rw [dedupGo, if_neg hx]
      constructor
      · intro h
        rcases List.mem_cons.mp h with he | he
        · exact ⟨he ▸ List.mem_cons_self _ _, he ▸ hx⟩
        · rcases (ih (x :: seen)).mp he with ⟨h1, h2⟩
          exact ⟨List.mem_cons_of_mem _ h1, fun hc => h2 (List.mem_cons_of_mem _ hc)⟩
      · rintro ⟨h1, h2⟩
        by_cases hcx : c = x
        · rw [hcx]
          exact List.mem_cons_self _ _
        · rcases List.mem_cons.mp h1 with he | he
          · exact absurd he hcx
          · refine List.mem_cons_of_mem _ ((ih (x :: seen)).mpr ⟨he, ?_⟩)
            intro hc
            rcases List.mem_cons.mp hc with hh | hh
            · exact hcx hh
            · exact h2 hh

theorem mem_dedupStr (l : List String) (c : String) : c ∈ dedupStr l ↔ c ∈ l := by
  unfold dedupStr
  rw [mem_dedupGo l c []]
  simp

theorem nodup_dedupGo (l seen : List String) : (dedupGo seen l).Nodup := by
  induction l generalizing seen with
  | nil => exact List.nodup_nil
  | cons x xs ih =>
    by_cases hx : x ∈ seen
    · rw [dedupGo, if_pos hx]; exact ih seen
    · rw [dedupGo, if_neg hx]
      refine List.nodup_cons.mpr ⟨fun hc => ?_, ih (x :: seen)⟩
      exact ((mem_dedupGo _ _ _).mp hc).2 (List.mem_cons_self _ _)

theorem nodup_dedupStr (l : List String) : (dedupStr l).Nodup := nodup_dedupGo l []

/-- Membership in the running seen-column set after one constraint. -/
theorem mem_seen_update (seen locals : List ColName) (c : ColName) :
    c ∈ seen ++ locals.filter (fun x => ¬ x ∈ seen) ↔ c ∈ seen ∨ c ∈ locals := by
  rw [List.mem_append, List.mem_filter]
  constructor
  · rintro (h | ⟨h1, _⟩)
    · exact Or.inl h
    · exact Or.inr h1
  · rintro (h | h)
    · exact Or.inl h
    · by_cases hs : c ∈ seen
      · exact Or.inl hs
      · exact Or.inr ⟨h, by simpa using hs⟩



/-! Key-shape lemmas for the FK resolver. -/

/-- Renaming a projection of a foreign row produces only local columns of the
constraint. -/
theorem renamed_keys_local (fk : FkConstraint) (r : Row) (c : ColName)
    (h : c ∈ (renameRow (select r (foreignColsOf fk)) (revMapOf fk)).map Prod.fst) :
    c ∈ localColsOf fk := by
  rcases (keys_renameRow _ _ _).mp h with ⟨k, hk, heq⟩
  have hkf : k ∈ foreignColsOf fk := by
    have := (vlookup_isSome_iff_mem_keys _ k).mpr hk
    rw [vlookup_select] at this
    by_cases hkin : k ∈ foreignColsOf fk
    · exact hkin
    · rw [if_neg hkin] at this
      simp at this
  have hksnd : k ∈ fk.local_foreign_mapping.map Prod.snd :=
    (mem_dedupStr _ _).mp hkf
  have hkeys : k ∈ (revMapOf fk).map Prod.fst := by
    unfold revMapOf
    rw [List.map_map]
    rcases List.mem_map.mp hksnd with ⟨lf, hlf, rfl⟩
    exact List.mem_map.mpr ⟨lf, List.mem_reverse.mpr hlf, rfl⟩
  have hsome := alookup_isSome_of_mem_keys _ _ hkeys
  cases hal : alookup (revMapOf fk) k with
  | none => rw [hal] at hsome; simp at hsome
  | some l =>
    have hmem := alookup_mem _ _ _ hal
    unfold revMapOf at hmem
    rcases List.mem_map.mp hmem with ⟨lf, hlf, hlfeq⟩
    have hlf' : lf ∈ fk.local_foreign_mapping := List.mem_reverse.mp hlf
    have hl : l ∈ fk.local_foreign_mapping.map Prod.fst := by
      refine List.mem_map.mpr ⟨lf, hlf', ?_⟩
      have := congrArg Prod.snd hlfeq
      simpa using this
    rw [hal] at heq
    simp only [Option.getD_some] at heq
    rw [← heq]
    exact (mem_dedupStr _ _).mpr hl

/-- Candidate rows of the constraint-processing loop have keys inside the
accumulated seen-column set. -/
theorem fk_options_go_keys (store : Store) :
    ∀ (fks : List FkConstraint) (seen : List ColName) (cs : List Row) (first : Bool)
      (seen' : List ColName) (rows' : List Row),
      fk_options_go store fks seen cs first = some (seen', rows') →
      (∀ r ∈ cs, ∀ c, c ∈ r.map Prod.fst → c ∈ seen) →
      ∀ r ∈ rows', ∀ c, c ∈ r.map Prod.fst → c ∈ seen' := by
  intro fks
  induction fks with
  | nil =>
    intro seen cs first seen' rows' hrun hcs
    simp only [fk_options_go] at hrun
    cases hrun
    exact hcs
  | cons fk rest ih =>
    intro seen cs first seen' rows' hrun hcs
    simp only [fk_options_go] at hrun
    by_cases hemp : ((storeGetD store fk.foreign_table).map
        (fun r => select r (foreignColsOf fk))).filter
        (fun r => r.all (fun kv => kv.2 ≠ Val.null)) |>.isEmpty
    · rw [if_pos hemp] at hrun
      simp at hrun
    · rw [if_neg hemp] at hrun
      have hrows2 : ∀ r ∈ (((storeGetD store fk.foreign_table).map
          (fun r => select r (foreignColsOf fk))).filter
          (fun r => r.all (fun kv => kv.2 ≠ Val.null))).map
          (fun r => renameRow r (revMapOf fk)),
          ∀ c, c ∈ r.map Prod.fst → c ∈ localColsOf fk := by
        intro r hr c hc
        rcases List.mem_map.mp hr with ⟨r0, hr0, rfl⟩
        have hr0' := (List.mem_filter.mp hr0).1
        rcases List.mem_map.mp hr0' with ⟨p, _, rfl⟩
        exact renamed_keys_local fk p c hc
      by_cases hfirst : first = true
      · rw [if_pos hfirst] at hrun
        refine ih _ _ _ _ _ hrun ?_
        intro r hr c hc
        exact (mem_seen_update _ _ _).mpr (Or.inr (hrows2 r hr c hc))
      · rw [if_neg hfirst] at hrun
        by_cases hovl : ((localColsOf fk).filter (fun c => c ∈ seen)).isEmpty
        · rw [if_pos hovl] at hrun
          refine ih _ _ _ _ _ hrun ?_
          intro r hr c hc
          rcases (mem_cross_join _ _ _).mp hr with ⟨r1, h1, r2, h2, rfl⟩
          rcases keys_rupdate _ _ _ hc with hk1 | hk2
          · exact (mem_seen_update _ _ _).mpr (Or.inl (hcs r1 h1 c hk1))
          · exact (mem_seen_update _ _ _).mpr (Or.inr (hrows2 r2 h2 c hk2))
        · rw [if_neg hovl] at hrun
          refine ih _ _ _ _ _ hrun ?_
          intro r hr c hc
          rcases mem_inner_join _ _ _ _ hr with ⟨r1, h1, r2, h2, _, rfl⟩
          rcases keys_rupdate _ _ _ hc with hk1 | hk2
          · exact (mem_seen_update _ _ _).mpr (Or.inl (hcs r1 h1 c hk1))
          · exact (mem_seen_update _ _ _).mpr (Or.inr (hrows2 r2 h2 c hk2))

/-- Seen columns of the loop come from the initial set or the constraints. -/
theorem fk_options_go_seen (store : Store) :
    ∀ (fks : List FkConstraint) (seen : List ColName) (cs : List Row) (first : Bool)
      (seen' : List ColName) (rows' : List Row),
      fk_options_go store fks seen cs first = some (seen', rows') →
      ∀ c ∈ seen', c ∈ seen ∨ ∃ fk ∈ fks, c ∈ localColsOf fk := by
  intro fks
  induction fks with
  | nil =>
    intro seen cs first seen' rows' hrun c hc
    simp only [fk_options_go] at hrun
    cases hrun
    exact Or.inl hc
  | cons fk rest ih =>
    intro seen cs first seen' rows' hrun c hc
    simp only [fk_options_go] at hrun
    by_cases hemp : ((storeGetD store fk.foreign_table).map
        (fun r => select r (foreignColsOf fk))).filter
        (fun r => r.all (fun kv => kv.2 ≠ Val.null)) |>.isEmpty
    · rw [if_pos hemp] at hrun
      simp at hrun
    · rw [if_neg hemp] at hrun
      have step : ∀ (cs2 : List Row),
          fk_options_go store rest (seen ++ (localColsOf fk).filter (fun x => ¬ x ∈ seen))
            cs2 false = some (seen', rows') →
          c ∈ seen ∨ ∃ fk2 ∈ fk :: rest, c ∈ localColsOf fk2 := by
        intro cs2 hrun2
        rcases ih _ _ _ _ _ hrun2 c hc with hin | ⟨fk2, hfk2, hcl⟩
        · rcases (mem_seen_update _ _ _).mp hin with h | h
          · exact Or.inl h
          · exact Or.inr ⟨fk, List.mem_cons_self _ _, h⟩
        · exact Or.inr ⟨fk2, List.mem_cons_of_mem _ hfk2, hcl⟩
      by_cases hfirst : first = true
      · rw [if_pos hfirst] at hrun
        exact step _ hrun
      · rw [if_neg hfirst] at hrun
        by_cases hovl : ((localColsOf fk).filter (fun c => c ∈ seen)).isEmpty
        · rw [if_pos hovl] at hrun
          exact step _ hrun
        · rw [if_neg hovl] at hrun
          exact step _ hrun

/-- Every seen column of `get_fk_constrained_options` is a local column of one
of the constraints passed in. -/
theorem get_fk_options_seen_subset (fks : List FkConstraint) (store : Store) (m : Nat)
    (c : ColName) (hc : c ∈ (get_fk_constrained_options fks store m).1) :
    ∃ fk ∈ fks, c ∈ localColsOf fk := by
  unfold get_fk_constrained_options at hc
  cases hgo : fk_options_go store fks [] [] true with
  | none =>
    rw [hgo] at hc
    simp only at hc
    rcases List.mem_flatMap.mp ((mem_dedupStr _ _).mp hc) with ⟨fk, hfk, hcl⟩
    exact ⟨fk, hfk, (mem_dedupStr _ _).mpr hcl⟩
  | some sc =>
    rw [hgo] at hc
    simp only at hc
    rcases fk_options_go_seen store fks [] [] true sc.1 sc.2 (by rw [hgo]) c hc with h | h
    · simp at h
    · exact h

/-- Sampled candidate rows only bind seen columns. -/
theorem get_fk_options_rows_keys (fks : List FkConstraint) (store : Store) (m : Nat)
    (seen : List ColName) (rs : List Row)
    (h : get_fk_constrained_options fks store m = (seen, some rs)) :
    ∀ r ∈ rs, ∀ c, c ∈ r.map Prod.fst → c ∈ seen := by
  unfold get_fk_constrained_options at h
  cases hgo : fk_options_go store fks [] [] true with
  | none =>
    rw [hgo] at h
    simp only [Prod.mk.injEq] at h
    exact absurd h.2 (by simp)
  | some sc =>
    rw [hgo] at h
    simp only [Prod.mk.injEq] at h
    by_cases hsemp : (sc.2.take m).isEmpty
    · rw [if_pos hsemp] at h
      exact absurd h.2 (by simp)
    · rw [if_neg hsemp] at h
      intro r hr c hc
      rw [← h.1]
      have hrs : sc.2.take m = rs := Option.some.inj h.2
      have hrcs : r ∈ sc.2 := List.take_subset m sc.2 (by rw [hrs]; exact hr)
      exact fk_options_go_keys store fks [] [] true sc.1 sc.2 (by rw [hgo])
        (by intro r hr; simp at hr) r hrcs c hc

/-- The sampled candidate list is never empty. -/
theorem get_fk_options_rows_ne_nil (fks : List FkConstraint) (store : Store) (m : Nat)
    (seen : List ColName) (rs : List Row)
    (h : get_fk_constrained_options fks store m = (seen, some rs)) : rs ≠ [] := by
  unfold get_fk_constrained_options at h
  cases hgo : fk_options_go store fks [] [] true with
  | none =>
    rw [hgo] at h
    simp only [Prod.mk.injEq] at h
    exact absurd h.2 (by simp)
  | some sc =>
    rw [hgo] at h
    simp only [Prod.mk.injEq] at h
    by_cases hsemp : (sc.2.take m).isEmpty
    · rw [if_pos hsemp] at h
      exact absurd h.2 (by simp)
    · rw [if_neg hsemp] at h
      have hrs : sc.2.take m = rs := Option.some.inj h.2
      intro hc
      rw [hc] at hrs
      rw [hrs] at hsemp
      simp at hsemp

/-- Local columns of enforceable constraints avoid the null-fixed set. -/
theorem enforceable_locals_not_null (fks : List FkConstraint) (nullNames : List ColName)
    (fk : FkConstraint) (h : fk ∈ enforceableFks fks nullNames) :
    ∀ c ∈ localColsOf fk, ¬ c ∈ nullNames := by
  intro c hc
  have hall := (List.mem_filter.mp h).2
  have hcmem : c ∈ fk.local_foreign_mapping.map Prod.fst := (mem_dedupStr _ _).mp hc
  have := List.all_eq_true.mp hall c hcmem
  simpa using this



/-! The merge phase of `dict_strategy` / `get_row`. -/

theorem gen_others_append (a b : List RowStrat) (r : Row) (t : Tape) :
    gen_others (a ++ b) r t = gen_others b (gen_others a r t).1 (gen_others a r t).2 := by
  induction a generalizing r t with
  | nil => rfl
  | cons o os ih =>
    simp only [List.cons_append, gen_others]
    exact ih _ _

theorem gen_null_rows_other (names : List ColName) (r : Row) (t : Tape) (c : ColName)
    (h : ¬ c ∈ names) :
    vlookup (gen_others (names.map (fun c2 => RowStrat.fixedRow [(c2, Val.null)])) r t).1 c =
      vlookup r c := by
  induction names generalizing r t with
  | nil => rfl
  | cons c0 rest ih =>
    simp only [List.map_cons, gen_others, genRowStrat]
    rw [ih _ _ (fun hc => h (List.mem_cons_of_mem _ hc))]
    rw [vlookup_rupdate, vlookup_cons]
    rw [if_neg (fun hc => h (by rw [← hc]; exact List.mem_cons_self _ _))]
    rfl

theorem gen_null_rows_null (names : List ColName) (r : Row) (t : Tape) (c : ColName)
    (h : c ∈ names) :
    vlookup (gen_others (names.map (fun c2 => RowStrat.fixedRow [(c2, Val.null)])) r t).1 c =
      some Val.null := by
  induction names generalizing r t with
  | nil => simp at h
  | cons c0 rest ih =>
    simp only [List.map_cons, gen_others, genRowStrat]
    by_cases hcr : c ∈ rest
    · exact ih _ _ hcr
    · have hc0 : c0 = c := by
        rcases List.mem_cons.mp h with he | he
        · exact he.symm
        · exact absurd he hcr
      rw [gen_null_rows_other _ _ _ _ hcr]
      rw [vlookup_rupdate, vlookup_cons, if_pos hc0]

theorem genRowStrat_oneOfRows_mem (rs : List Row) (t : Tape) (h : rs ≠ []) :
    (genRowStrat (.oneOfRows rs) t).1 ∈ rs := by
  simp only [genRowStrat]
  exact getD_mod_mem rs [] _ h

/-- Columns of the strategies dict built by `get_row` are declared and not
already handled. -/
theorem build_strategies_keys (ov : List (ColName × Strat)) (handled : List ColName) :
    ∀ (cis : List (ColName × ColInfo)) (strats : List (ColName × Strat)),
      build_strategies ov handled cis = .ok strats →
      ∀ c ∈ strats.map Prod.fst, c ∈ cis.map Prod.fst ∧ ¬ c ∈ handled := by
  intro cis
  induction cis with
  | nil =>
    intro strats h c hc
    simp only [build_strategies] at h
    cases h
    simp at hc
  | cons cci rest ih =>
    intro strats h c hc
    rcases cci with ⟨c0, ci⟩
    simp only [build_strategies] at h
    by_cases hh : c0 ∈ handled
    · rw [if_pos hh] at h
      rcases ih strats h c hc with ⟨h1, h2⟩
      exact ⟨List.mem_cons_of_mem _ h1, h2⟩
    · rw [if_neg hh] at h
      cases hse : (match alookup ov c0 with
        | some s => Except.ok s
        | none => col_info_to_strategy ci : Except Err Strat) with
      | error e => rw [hse] at h; simp at h
      | ok s =>
        rw [hse] at h
        cases hbs : build_strategies ov handled rest with
        | error e => rw [hbs] at h; simp at h
        | ok rest' =>
          rw [hbs] at h
          simp only [Except.ok.injEq] at h
          rw [← h] at hc
          simp only [List.map_cons, List.mem_cons] at hc
          rcases hc with he | he
          · exact ⟨by rw [he]; exact List.mem_cons_self _ _, he ▸ hh⟩
          · rcases ih rest' hbs c he with ⟨h1, h2⟩
            exact ⟨List.mem_cons_of_mem _ h1, h2⟩



/-- C10: in every invocation of `get_row`, the null-fixed columns and the
FK-resolver-constrained columns are disjoint (null-fixing a column removes
every constraint containing it from the enforceable set); the regular
strategies dict avoids both groups; and the final merge never overwrites a
null-fixed column: its value in the produced row is null. -/
theorem C10_null_fixed_fk_disjoint_no_overwrite
    (colInfos : List (ColName × ColInfo)) (fks : List FkConstraint) (store : Store)
    (ov : List (ColName × Strat)) (t t₁ : Tape) (nullNames : List ColName)
    (hnf : null_fix_phase colInfos ov (fkColsOf fks) t = (.ok nullNames, t₁)) :
    (∀ c ∈ nullNames,
      ¬ c ∈ (get_fk_constrained_options (enforceableFks fks nullNames) store 1000).1) ∧
    (∀ strats : List (ColName × Strat), build_strategies ov
        (nullNames ++ (get_fk_constrained_options (enforceableFks fks nullNames) store 1000).1)
        colInfos = .ok strats →
      ∀ c ∈ strats.map Prod.fst, ¬ c ∈ nullNames ∧
        ¬ c ∈ (get_fk_constrained_options (enforceableFks fks nullNames) store 1000).1) ∧
    (∀ (r : Row) (t₂ : Tape), get_row_gen colInfos fks store ov t = (.ok r, t₂) →
      ∀ c ∈ nullNames, vlookup r c = some Val.null) := by
  have hdisj : ∀ c ∈ nullNames,
      ¬ c ∈ (get_fk_constrained_options (enforceableFks fks nullNames) store 1000).1 := by
    intro c hc hcs
    rcases get_fk_options_seen_subset _ _ _ c hcs with ⟨fk, hfk, hcl⟩
    exact enforceable_locals_not_null fks nullNames fk hfk c hcl hc
  refine ⟨hdisj, ?_, ?_⟩
  · intro strats hbs c hcm
    rcases build_strategies_keys ov _ colInfos strats hbs c hcm with ⟨_, hnh⟩
    exact ⟨fun hcn => hnh (List.mem_append.mpr (Or.inl hcn)),
      fun hcs => hnh (List.mem_append.mpr (Or.inr hcs))⟩
  · intro r t₂ hr c hc
    unfold get_row_gen at hr
    rw [hnf] at hr
    dsimp only at hr
    split at hr
    · simp at hr
    · split at hr
      · simp at hr
      · rename_i strats hbs
        simp only [Prod.mk.injEq, Except.ok.injEq] at hr
        rw [← hr.1]
        unfold dict_strategy
        cases hso2 : (get_fk_constrained_options (enforceableFks fks nullNames) store 1000).2 with
        | none =>
          dsimp only
          rw [List.append_nil]
          exact gen_null_rows_null _ _ _ _ hc
        | some rs =>
          dsimp only
          rw [gen_others_append]
          simp only [gen_others]
          rw [vlookup_rupdate]
          have hfull : get_fk_constrained_options (enforceableFks fks nullNames) store 1000 =
              ((get_fk_constrained_options (enforceableFks fks nullNames) store 1000).1,
                some rs) := by
            rw [← hso2]
          have hne : rs ≠ [] := get_fk_options_rows_ne_nil _ _ _ _ _ hfull
          have hpick : vlookup (genRowStrat (.oneOfRows rs)
              (gen_others (nullNames.map (fun c2 => RowStrat.fixedRow [(c2, Val.null)]))
                (gen_strats strats t₁).1 (gen_strats strats t₁).2).2).1 c = none := by
            cases hv : vlookup (genRowStrat (.oneOfRows rs)
                (gen_others (nullNames.map (fun c2 => RowStrat.fixedRow [(c2, Val.null)]))
                  (gen_strats strats t₁).1 (gen_strats strats t₁).2).2).1 c with
            | none => rfl
            | some v =>
              have hsome : (vlookup (genRowStrat (.oneOfRows rs)
                  (gen_others (nullNames.map (fun c2 => RowStrat.fixedRow [(c2, Val.null)]))
                    (gen_strats strats t₁).1 (gen_strats strats t₁).2).2).1 c).isSome := by
                rw [hv]; rfl
              have hkeys := (vlookup_isSome_iff_mem_keys _ c).mp hsome
              have hmem := genRowStrat_oneOfRows_mem rs
                (gen_others (nullNames.map (fun c2 => RowStrat.fixedRow [(c2, Val.null)]))
                  (gen_strats strats t₁).1 (gen_strats strats t₁).2).2 hne
              have hcs := get_fk_options_rows_keys _ _ _ _ _ hfull _ hmem c hkeys
              exact absurd hcs (hdisj c hc)
          rw [hpick]
          exact gen_null_rows_null _ _ _ _ hc



/-- C10 witness: on `tiC` with tape `[0]` the FK column `pid` is null-fixed,
the enforceable set and hence the FK-resolved column set is empty, and the
produced row carries the null unchanged. -/
theorem C10_null_fixed_fk_disjoint_no_overwrite_witness :
    null_fix_phase tiC.columns [] (fkColsOf tiC.fk_constraints) [0] = (.ok ["pid"], []) ∧
    ¬ "pid" ∈ (get_fk_constrained_options (enforceableFks tiC.fk_constraints ["pid"]) [] 1000).1 ∧
    get_row_gen tiC.columns tiC.fk_constraints [] [] [0] = (.ok [("pid", Val.null)], []) ∧
    vlookup [("pid", Val.null)] "pid" = some Val.null := by
  refine ⟨by rfl, ?_, by rfl, ?_⟩
  · exact (C10_null_fixed_fk_disjoint_no_overwrite tiC.columns tiC.fk_constraints [] []
      [0] [] ["pid"] (by rfl)).1 "pid" (List.mem_cons_self _ _)
  · exact (C10_null_fixed_fk_disjoint_no_overwrite tiC.columns tiC.fk_constraints [] []
      [0] [] ["pid"] (by rfl)).2.2 [("pid", Val.null)] [] (by rfl) "pid"
      (List.mem_cons_self _ _)

/-! The Kahn-loop invariant, topological-order properties, and claim C4. -/

/-! Characterization of the graph/in-degree build of `topo_sort_tables`. -/

theorem dedupGo_length_le (l : List String) : ∀ seen, (dedupGo seen l).length ≤ l.length := by
  induction l with
  | nil => intro seen; simp [dedupGo]
  | cons x xs ih =>
    intro seen
    by_cases hx : x ∈ seen
    · rw [dedupGo, if_pos hx]
      exact Nat.le_succ_of_le (ih seen)
    · rw [dedupGo, if_neg hx]
      simpa using ih (x :: seen)

theorem dedupStr_length_le (l : List String) : (dedupStr l).length ≤ l.length :=
  dedupGo_length_le l []

theorem degGet_nil (x : TableName) : degGet [] x = 0 := rfl

theorem degGet_cons (kv : TableName × Int) (rest : Deg) (x : TableName) :
    degGet (kv :: rest) x = if kv.1 = x then kv.2 else degGet rest x := by
  by_cases h : kv.1 = x
  · simp [degGet, alookup, h]
  · simp only [degGet, alookup, h, if_false, ite_false]

theorem degGet_bump (d : Deg) (y x : TableName) :
    degGet (bump d y) x = degGet d x + (if x = y then 1 else 0) := by
  induction d with
  | nil =>
    by_cases hxy : x = y
    · subst hxy
      simp [bump, degGet, alookup]
    · have hyx : ¬ y = x := fun h => hxy h.symm
      simp [bump, degGet, alookup, hyx, hxy]
  | cons kv rest ih =>
    by_cases hk : kv.1 = y
    · rw [bump, if_pos hk]
      rw [degGet_cons, degGet_cons]
      by_cases hx : kv.1 = x
      · rw [if_pos hx, if_pos hx, if_pos (by rw [← hx, hk])]
      · rw [if_neg hx, if_neg hx, if_neg (fun h : x = y => hx (by rw [h, ← hk]))]
        omega
    · rw [bump, if_neg hk]
      rw [degGet_cons, degGet_cons]
      by_cases hx : kv.1 = x
      · rw [if_pos hx, if_pos hx, if_neg (fun h : x = y => hk (by rw [hx, h]))]
        omega
      · rw [if_neg hx, if_neg hx]
        exact ih

theorem degKeys_bump_mem (d : Deg) (y x : TableName) :
    x ∈ degKeys (bump d y) ↔ x ∈ degKeys d ∨ x = y := by
  induction d with
  | nil => simp [bump, degKeys, eq_comm]
  | cons kv rest ih =>
    by_cases hk : kv.1 = y
    · rw [bump, if_pos hk]
      simp only [degKeys, List.map_cons, List.mem_cons]
      constructor
      · rintro (h | h)
        · exact Or.inl (Or.inl h)
        · exact Or.inl (Or.inr h)
      · rintro ((h | h) | h)
        · exact Or.inl h
        · exact Or.inr h
        · exact Or.inl (by rw [h, ← hk])
    · rw [bump, if_neg hk]
      simp only [degKeys, List.map_cons, List.mem_cons] at ih ⊢
      rw [ih]
      tauto

theorem graphGet_nil (x : TableName) : graphGet [] x = [] := rfl

theorem graphGet_cons (kv : TableName × List TableName) (rest : Graph) (x : TableName) :
    graphGet (kv :: rest) x = if kv.1 = x then kv.2 else graphGet rest x := by
  by_cases h : kv.1 = x
  · simp [graphGet, alookup, h]
  · simp only [graphGet, alookup, h, if_false, ite_false]

theorem graphGet_addEdge_mem (g : Graph) (a b x y : TableName) :
    y ∈ graphGet (addEdge g a b) x ↔ y ∈ graphGet g x ∨ (x = a ∧ y = b) := by
  induction g with
  | nil =>
    by_cases hax : x = a
    · subst hax
      simp [addEdge, graphGet, alookup]
    · have hax' : ¬ a = x := fun h => hax h.symm
      simp [addEdge, graphGet, alookup, hax', hax]
  | cons kv rest ih =>
    by_cases hk : kv.1 = a
    · rw [addEdge, if_pos hk]
      rw [graphGet_cons, graphGet_cons]
      by_cases hx : kv.1 = x
      · rw [if_pos hx, if_pos hx]
        by_cases hb : b ∈ kv.2
        · rw [if_pos hb]
          constructor
          · exact Or.inl
          · rintro (h | ⟨_, rfl⟩)
            · exact h
            · exact hb
        · rw [if_neg hb, List.mem_append]
          constructor
          · rintro (h | h)
            · exact Or.inl h
            · exact Or.inr ⟨by rw [← hx, hk], by simpa using h⟩
          · rintro (h | ⟨_, rfl⟩)
            · exact Or.inl h
            · simp
      · rw [if_neg hx, if_neg hx]
        constructor
        · exact Or.inl
        · rintro (h | ⟨rfl, rfl⟩)
          · exact h
          · exact absurd hk hx
    · rw [addEdge, if_neg hk]
      rw [graphGet_cons, graphGet_cons]
      by_cases hx : kv.1 = x
      · rw [if_pos hx, if_pos hx]
        constructor
        · exact Or.inl
        · rintro (h | ⟨rfl, rfl⟩)
          · exact h
          · exact absurd hx hk
      · rw [if_neg hx, if_neg hx]
        exact ih

theorem graphKeys_addEdge_mem (g : Graph) (a b x : TableName) :
    x ∈ graphKeys (addEdge g a b) ↔ x ∈ graphKeys g ∨ x = a := by
  induction g with
  | nil => simp [addEdge, graphKeys, eq_comm]
  | cons kv rest ih =>
    by_cases hk : kv.1 = a
    · rw [addEdge, if_pos hk]
      simp only [graphKeys, List.map_cons, List.mem_cons]
      constructor
      · rintro (h | h)
        · exact Or.inl (Or.inl h)
        · exact Or.inl (Or.inr h)
      · rintro ((h | h) | h)
        · exact Or.inl h
        · exact Or.inr h
        · exact Or.inl (by rw [h, ← hk])
    · rw [addEdge, if_neg hk]
      simp only [graphKeys, List.map_cons, List.mem_cons] at ih ⊢
      rw [ih]
      tauto

theorem graphKeys_addEdge_nodup (g : Graph) (a b : TableName)
    (h : (graphKeys g).Nodup) : (graphKeys (addEdge g a b)).Nodup := by
  induction g with
  | nil => simp [addEdge, graphKeys]
  | cons kv rest ih =>
    by_cases hk : kv.1 = a
    · rw [addEdge, if_pos hk]
      simpa [graphKeys] using h
    · rw [addEdge, if_neg hk]
      simp only [graphKeys, List.map_cons, List.nodup_cons] at h ⊢
      refine ⟨fun hc => ?_, ih h.2⟩
      rcases (graphKeys_addEdge_mem rest a b kv.1).mp hc with hmem | heq
      · exact h.1 hmem
      · exact hk heq

theorem graphGet_addEdge_nodup (g : Graph) (a b x : TableName)
    (h : (graphGet g x).Nodup) : (graphGet (addEdge g a b) x).Nodup := by
  induction g with
  | nil =>
    by_cases hax : x = a
    · subst hax
      simp [addEdge, graphGet, alookup]
    · have hax' : ¬ a = x := fun h => hax h.symm
      simp [addEdge, graphGet, alookup, hax', hax]
  | cons kv rest ih =>
    by_cases hk : kv.1 = a
    · rw [addEdge, if_pos hk]
      rw [graphGet_cons] at h ⊢
      by_cases hx : kv.1 = x
      · rw [if_pos hx] at h ⊢
        by_cases hb : b ∈ kv.2
        · rw [if_pos hb]; exact h
        · rw [if_neg hb]
          rw [List.nodup_append]
          exact ⟨h, by simp, by simpa [List.disjoint_singleton] using hb⟩
      · rw [if_neg hx] at h ⊢
        exact h
    · rw [addEdge, if_neg hk]
      rw [graphGet_cons] at h ⊢
      by_cases hx : kv.1 = x
      · rw [if_pos hx] at h ⊢
        exact h
      · rw [if_neg hx] at h ⊢
        exact ih h



/-! The build loop, flattened over (foreign, local) constraint pairs. -/

theorem buildGD_eq_foldPairs (m : List (TableName × List FkConstraint)) :
    buildGD m = (pairsOf m).foldl
      (fun gd p => (addEdge gd.1 p.1 p.2, bump gd.2 p.2)) ([], []) := by
  suffices h : ∀ gd0 : Graph × Deg,
      m.foldl (fun gd entry => entry.2.foldl
        (fun gd2 fk => (addEdge gd2.1 fk.foreign_table entry.1, bump gd2.2 entry.1)) gd) gd0 =
      (pairsOf m).foldl (fun gd p => (addEdge gd.1 p.1 p.2, bump gd.2 p.2)) gd0 by
    exact h ([], [])
  induction m with
  | nil => intro gd0; rfl
  | cons e rest ih =>
    intro gd0
    show (rest.foldl _ (e.2.foldl _ gd0)) = _
    rw [ih]
    unfold pairsOf
    rw [List.flatMap_cons, List.foldl_append, List.foldl_map]

theorem degGet_foldPairs (l : List (TableName × TableName)) :
    ∀ (gd0 : Graph × Deg) (x : TableName),
      degGet ((l.foldl (fun gd p => (addEdge gd.1 p.1 p.2, bump gd.2 p.2)) gd0).2) x =
        degGet gd0.2 x + ((l.filter (fun p => p.2 = x)).length : Int) := by
  induction l with
  | nil => intro gd0 x; simp
  | cons p rest ih =>
    intro gd0 x
    rw [List.foldl_cons, ih]
    rw [degGet_bump]
    by_cases hx : x = p.2
    · rw [if_pos hx, List.filter_cons_of_pos (by simpa using hx.symm)]
      simp only [List.length_cons]
      push_cast
      omega
    · rw [if_neg hx, List.filter_cons_of_neg (by simpa using fun h => hx h.symm)]
      omega

theorem graphGet_foldPairs_mem (l : List (TableName × TableName)) :
    ∀ (gd0 : Graph × Deg) (f y : TableName),
      y ∈ graphGet ((l.foldl (fun gd p => (addEdge gd.1 p.1 p.2, bump gd.2 p.2)) gd0).1) f ↔
        y ∈ graphGet gd0.1 f ∨ (f, y) ∈ l := by
  induction l with
  | nil => intro gd0 f y; simp
  | cons p rest ih =>
    intro gd0 f y
    rw [List.foldl_cons, ih]
    rw [graphGet_addEdge_mem]
    constructor
    · rintro ((h | ⟨rfl, rfl⟩) | h)
      · exact Or.inl h
      · exact Or.inr (List.mem_cons_self _ _)
      · exact Or.inr (List.mem_cons_of_mem _ h)
    · rintro (h | h)
      · exact Or.inl (Or.inl h)
      · rcases List.mem_cons.mp h with he | he
        · refine Or.inl (Or.inr ?_)
          rw [← he]
          exact ⟨rfl, rfl⟩
        · exact Or.inr he

theorem graphKeys_foldPairs_mem (l : List (TableName × TableName)) :
    ∀ (gd0 : Graph × Deg) (x : TableName),
      x ∈ graphKeys ((l.foldl (fun gd p => (addEdge gd.1 p.1 p.2, bump gd.2 p.2)) gd0).1) ↔
        x ∈ graphKeys gd0.1 ∨ x ∈ l.map Prod.fst := by
  induction l with
  | nil => intro gd0 x; simp
  | cons p rest ih =>
    intro gd0 x
    rw [List.foldl_cons, ih]
    rw [graphKeys_addEdge_mem]
    simp only [List.map_cons, List.mem_cons]
    tauto

theorem degKeys_foldPairs_mem (l : List (TableName × TableName)) :
    ∀ (gd0 : Graph × Deg) (x : TableName),
      x ∈ degKeys ((l.foldl (fun gd p => (addEdge gd.1 p.1 p.2, bump gd.2 p.2)) gd0).2) ↔
        x ∈ degKeys gd0.2 ∨ x ∈ l.map Prod.snd := by
  induction l with
  | nil => intro gd0 x; simp
  | cons p rest ih =>
    intro gd0 x
    rw [List.foldl_cons, ih]
    rw [degKeys_bump_mem]
    simp only [List.map_cons, List.mem_cons]
    tauto

theorem graphKeys_foldPairs_nodup (l : List (TableName × TableName)) :
    ∀ (gd0 : Graph × Deg), (graphKeys gd0.1).Nodup →
      (graphKeys ((l.foldl (fun gd p => (addEdge gd.1 p.1 p.2, bump gd.2 p.2)) gd0).1)).Nodup := by
  induction l with
  | nil => intro gd0 h; exact h
  | cons p rest ih =>
    intro gd0 h
    rw [List.foldl_cons]
    exact ih _ (graphKeys_addEdge_nodup _ _ _ h)

theorem graphGet_foldPairs_nodup (l : List (TableName × TableName)) :
    ∀ (gd0 : Graph × Deg) (x : TableName), (graphGet gd0.1 x).Nodup →
      (graphGet ((l.foldl (fun gd p => (addEdge gd.1 p.1 p.2, bump gd.2 p.2)) gd0).1) x).Nodup := by
  induction l with
  | nil => intro gd0 x h; exact h
  | cons p rest ih =>
    intro gd0 x h
    rw [List.foldl_cons]
    exact ih _ _ (graphGet_addEdge_nodup _ _ _ _ h)

/-! Facts about the built graph of `topo_sort_tables`. -/

theorem buildGD_degGet (m : List (TableName × List FkConstraint)) (x : TableName) :
    degGet (buildGD m).2 x = (((pairsOf m).filter (fun p => p.2 = x)).length : Int) := by
  rw [buildGD_eq_foldPairs, degGet_foldPairs]
  rw [degGet_nil]
  omega

theorem buildGD_graphGet_mem (m : List (TableName × List FkConstraint)) (f y : TableName) :
    y ∈ graphGet (buildGD m).1 f ↔ (f, y) ∈ pairsOf m := by
  rw [buildGD_eq_foldPairs, graphGet_foldPairs_mem]
  rw [graphGet_nil]
  simp

theorem buildGD_graphKeys_mem (m : List (TableName × List FkConstraint)) (x : TableName) :
    x ∈ graphKeys (buildGD m).1 ↔ x ∈ (pairsOf m).map Prod.fst := by
  rw [buildGD_eq_foldPairs, graphKeys_foldPairs_mem]
  simp [graphKeys]

theorem buildGD_degKeys_mem (m : List (TableName × List FkConstraint)) (x : TableName) :
    x ∈ degKeys (buildGD m).2 ↔ x ∈ (pairsOf m).map Prod.snd := by
  rw [buildGD_eq_foldPairs, degKeys_foldPairs_mem]
  simp [degKeys]

theorem buildGD_graphKeys_nodup (m : List (TableName × List FkConstraint)) :
    (graphKeys (buildGD m).1).Nodup := by
  rw [buildGD_eq_foldPairs]
  exact graphKeys_foldPairs_nodup _ _ (by simp [graphKeys])

theorem buildGD_graphGet_nodup (m : List (TableName × List FkConstraint)) (x : TableName) :
    (graphGet (buildGD m).1 x).Nodup := by
  rw [buildGD_eq_foldPairs]
  exact graphGet_foldPairs_nodup _ _ _ (by simp [graphGet, alookup])

/-- The dependents relation of the built graph is the edge relation. -/
theorem buildGD_mem_iff_foreignsOfT (m : List (TableName × List FkConstraint))
    (f y : TableName) :
    y ∈ graphGet (buildGD m).1 f ↔ f ∈ foreignsOfT m y := by
  rw [buildGD_graphGet_mem]
  unfold foreignsOfT
  rw [mem_dedupStr]
  constructor
  · intro h
    refine List.mem_map.mpr ⟨(f, y), List.mem_filter.mpr ⟨h, by simp⟩, rfl⟩
  · intro h
    rcases List.mem_map.mp h with ⟨p, hp, rfl⟩
    have := List.mem_filter.mp hp
    have h2 : p.2 = y := by simpa using this.2
    rw [← h2]
    exact this.1

/-- The count bound: the number of distinct foreign tables of `x` is at most
its built in-degree. -/
theorem foreignsOfT_length_le (m : List (TableName × List FkConstraint)) (x : TableName) :
    (foreignsOfT m x).length ≤ ((pairsOf m).filter (fun p => p.2 = x)).length := by
  unfold foreignsOfT
  calc (dedupStr (((pairsOf m).filter (fun p => p.2 = x)).map Prod.fst)).length
      ≤ (((pairsOf m).filter (fun p => p.2 = x)).map Prod.fst).length :=
        dedupStr_length_le _
    _ = ((pairsOf m).filter (fun p => p.2 = x)).length := by rw [List.length_map]



/-! Counting helpers and the remaining state primitives of the Kahn loop. -/

theorem nodup_subset_length_le (s u : List String) (hs : s.Nodup)
    (hsub : ∀ x ∈ s, x ∈ u) : s.length ≤ u.length := by
  calc s.length = s.toFinset.card := (List.toFinset_card_of_nodup hs).symm
    _ ≤ u.toFinset.card := by
        apply Finset.card_le_card
        intro x hx
        rw [List.mem_toFinset] at hx ⊢
        exact hsub x hx
    _ ≤ u.length := List.toFinset_card_le u

theorem filter_mem_length_comm (s a : List String) (hs : s.Nodup) (ha : a.Nodup) :
    (s.filter (fun x => x ∈ a)).length = (a.filter (fun x => x ∈ s)).length := by
  have h1 : (s.filter (fun x => x ∈ a)).length =
      (s.filter (fun x => x ∈ a)).toFinset.card :=
    (List.toFinset_card_of_nodup (hs.filter _)).symm
  have h2 : (a.filter (fun x => x ∈ s)).length =
      (a.filter (fun x => x ∈ s)).toFinset.card :=
    (List.toFinset_card_of_nodup (ha.filter _)).symm
  rw [h1, h2]
  congr 1
  ext x
  simp only [List.mem_toFinset, List.mem_filter, decide_eq_true_eq]
  tauto

theorem filter_length_eq_all {α : Type} (l : List α) (p : α → Bool)
    (h : (l.filter p).length = l.length) : ∀ x ∈ l, p x := by
  induction l with
  | nil => intro x hx; simp at hx
  | cons y ys ih =>
    by_cases hy : p y
    · rw [List.filter_cons_of_pos hy] at h
      simp only [List.length_cons, Nat.succ.injEq] at h
      intro x hx
      rcases List.mem_cons.mp hx with he | he
      · exact he ▸ hy
      · exact ih h x he
    · rw [List.filter_cons_of_neg hy] at h
      have := List.length_filter_le p ys
      simp only [List.length_cons] at h
      omega
    
theorem degGet_degDec (d : Deg) (y x : TableName) :
    degGet (degDec d y) x = degGet d x - (if x = y then 1 else 0) := by
  induction d with
  | nil =>
    by_cases hxy : x = y
    · subst hxy
      simp [degDec, degGet, alookup]
    · have hyx : ¬ y = x := fun h => hxy h.symm
      simp [degDec, degGet, alookup, hyx, hxy]
  | cons kv rest ih =>
    by_cases hk : kv.1 = y
    · rw [degDec, if_pos hk]
      rw [degGet_cons, degGet_cons]
      by_cases hx : kv.1 = x
      · rw [if_pos hx, if_pos hx, if_pos (by rw [← hx, hk])]
      · rw [if_neg hx, if_neg hx, if_neg (fun h : x = y => hx (by rw [h, ← hk]))]
        omega
    · rw [degDec, if_neg hk]
      rw [degGet_cons, degGet_cons]
      by_cases hx : kv.1 = x
      · rw [if_pos hx, if_pos hx, if_neg (fun h : x = y => hk (by rw [hx, h]))]
        omega
      · rw [if_neg hx, if_neg hx]
        exact ih

theorem pdStep_mk (d : Deg) (q : List TableName) (x : TableName) :
    pdStep (d, q) x = (degDec d x, if degGet (degDec d x) x = 0 then q ++ [x] else q) := rfl

theorem foldl_pdStep_deg (deps : List TableName) :
    ∀ (d : Deg) (qacc : List TableName), deps.Nodup →
      ∀ x, degGet (deps.foldl pdStep (d, qacc)).1 x =
        degGet d x - (if x ∈ deps then 1 else 0) := by
  induction deps with
  | nil =>
    intro d qacc _ x
    simp only [List.foldl_nil, List.not_mem_nil, if_false, ite_false]
    omega
  | cons y ys ih =>
    intro d qacc hnd x
    have hys : ys.Nodup := (List.nodup_cons.mp hnd).2
    rw [List.foldl_cons, pdStep_mk]
    rw [ih _ _ hys x, degGet_degDec]
    by_cases hxy : x = y
    · subst hxy
      have hxys : ¬ x ∈ ys := (List.nodup_cons.mp hnd).1
      rw [if_pos rfl, if_neg hxys, if_pos (List.mem_cons_self _ _)]
      omega
    · rw [if_neg hxy]
      by_cases hxys : x ∈ ys
      · rw [if_pos hxys, if_pos (List.mem_cons_of_mem _ hxys)]
        omega
      · rw [if_neg hxys, if_neg (by
          intro hc
          rcases List.mem_cons.mp hc with he | he
          · exact hxy he
          · exact hxys he)]
        omega

theorem foldl_pdStep_q (deps : List TableName) :
    ∀ (d : Deg) (qacc : List TableName), deps.Nodup →
      (deps.foldl pdStep (d, qacc)).2 =
        qacc ++ deps.filter (fun x => degGet (deps.foldl pdStep (d, qacc)).1 x = 0) := by
  induction deps with
  | nil => intro d qacc _; simp
  | cons y ys ih =>
    intro d qacc hnd
    have hys : ys.Nodup := (List.nodup_cons.mp hnd).2
    have hyys : ¬ y ∈ ys := (List.nodup_cons.mp hnd).1
    have hfinal_y : degGet ((y :: ys).foldl pdStep (d, qacc)).1 y = degGet (degDec d y) y := by
      rw [List.foldl_cons, pdStep_mk, foldl_pdStep_deg ys _ _ hys y, if_neg hyys]
      omega
    have hfinal_ys : ∀ x, degGet ((y :: ys).foldl pdStep (d, qacc)).1 x =
        degGet (ys.foldl pdStep
          (degDec d y, if degGet (degDec d y) y = 0 then qacc ++ [y] else qacc)).1 x := by
      intro x
      rw [List.foldl_cons, pdStep_mk]
    by_cases hy0 : degGet (degDec d y) y = 0
    · have hpred : (y :: ys).filter
          (fun x => degGet ((y :: ys).foldl pdStep (d, qacc)).1 x = 0) =
          y :: ys.filter (fun x => degGet (ys.foldl pdStep (degDec d y, qacc ++ [y])).1 x = 0) := by
        rw [List.filter_cons_of_pos (by rw [hfinal_y]; simpa using hy0)]
        congr 1
        apply List.filter_congr
        intro x hx
        rw [hfinal_ys x, if_pos hy0]
      rw [hpred, List.foldl_cons, pdStep_mk, if_pos hy0, ih _ _ hys]
      simp
    · have hpred : (y :: ys).filter
          (fun x => degGet ((y :: ys).foldl pdStep (d, qacc)).1 x = 0) =
          ys.filter (fun x => degGet (ys.foldl pdStep (degDec d y, qacc)).1 x = 0) := by
        rw [List.filter_cons_of_neg (by rw [hfinal_y]; simpa using hy0)]
        apply List.filter_congr
        intro x hx
        rw [hfinal_ys x, if_neg hy0]
      rw [hpred, List.foldl_cons, pdStep_mk, if_neg hy0, ih _ _ hys]

/-- `process_deps` in closed form: each dependent's in-degree drops by one,
and exactly the dependents whose in-degree reached zero are enqueued, in
order. -/
theorem process_deps_spec (d : Deg) (deps : List TableName) (hnd : deps.Nodup) :
    (∀ x, degGet (process_deps d deps).1 x = degGet d x - (if x ∈ deps then 1 else 0)) ∧
    (process_deps d deps).2 =
      deps.filter (fun x => degGet (process_deps d deps).1 x = 0) := by
  unfold process_deps
  refine ⟨fun x => foldl_pdStep_deg deps d [] hnd x, ?_⟩
  rw [foldl_pdStep_q deps d [] hnd]
  simp



theorem alookup_append {α : Type} (a b : List (String × α)) (k : String) :
    alookup (a ++ b) k =
      match alookup a k with
      | some v => some v
      | none => alookup b k := by
  induction a with
  | nil => simp [alookup]
  | cons kv rest ih =>
    by_cases hk : kv.1 = k
    · simp [alookup, hk]
    · simp only [List.cons_append, alookup, hk, if_false, ite_false]
      exact ih

theorem graphGet_ensureKey (g : Graph) (tb x : TableName) :
    graphGet (ensureKey g tb) x = graphGet g x := by
  unfold ensureKey
  by_cases h : (alookup g tb).isSome
  · rw [if_pos h]
  · rw [if_neg h]
    unfold graphGet
    rw [alookup_append]
    cases hal : alookup g x with
    | some v => simp
    | none =>
      simp only []
      by_cases hx : tb = x
      · subst hx
        simp [alookup]
      · simp [alookup, hx]

theorem graphKeys_ensureKey_mem (g : Graph) (tb x : TableName) :
    x ∈ graphKeys (ensureKey g tb) ↔ x ∈ graphKeys g ∨ x = tb := by
  unfold ensureKey
  by_cases h : (alookup g tb).isSome
  · rw [if_pos h]
    constructor
    · exact Or.inl
    · rintro (hx | rfl)
      · exact hx
      · -- tb has a binding, hence is a key
        cases hal : alookup g x with
        | none => rw [hal] at h; simp at h
        | some v =>
          have := alookup_mem g x v hal
          unfold graphKeys
          exact List.mem_map.mpr ⟨(x, v), this, rfl⟩
  · rw [if_neg h]
    unfold graphKeys
    rw [List.map_append]
    simp [List.mem_append]

theorem graphKeys_ensureKey_self (g : Graph) (tb : TableName) :
    tb ∈ graphKeys (ensureKey g tb) :=
  (graphKeys_ensureKey_mem g tb tb).mpr (Or.inr rfl)

theorem graphKeys_ensureKey_nodup (g : Graph) (tb : TableName)
    (h : (graphKeys g).Nodup) : (graphKeys (ensureKey g tb)).Nodup := by
  unfold ensureKey
  by_cases hs : (alookup g tb).isSome
  · rw [if_pos hs]
    exact h
  · rw [if_neg hs]
    unfold graphKeys
    rw [List.map_append]
    simp only [List.map_cons, List.map_nil]
    rw [List.nodup_append]
    refine ⟨h, by simp, ?_⟩
    intro x hx
    simp only [List.mem_singleton]
    intro hxt
    subst hxt
    rcases List.mem_map.mp hx with ⟨kv, hkv, rfl⟩
    have : (alookup g kv.1).isSome := alookup_isSome_of_mem_keys g kv.1
      (List.mem_map.mpr ⟨kv, hkv, rfl⟩)
    exact hs this



theorem foreignsOfT_nodup (m : List (TableName × List FkConstraint)) (x : TableName) :
    (foreignsOfT m x).Nodup := nodup_dedupStr _

theorem filter_append_snoc_count (l s : List String) (tbl : String)
    (hl : l.Nodup) (hts : ¬ tbl ∈ s) :
    (l.filter (fun x => x ∈ s ++ [tbl])).length =
      (l.filter (fun x => x ∈ s)).length + (if tbl ∈ l then 1 else 0) := by
  induction l with
  | nil => simp
  | cons x xs ih =>
    have hx : ¬ x ∈ xs := (List.nodup_cons.mp hl).1
    have hxs : xs.Nodup := (List.nodup_cons.mp hl).2
    have ih' := ih hxs
    by_cases hxt : x = tbl
    · subst hxt
      rw [List.filter_cons, List.filter_cons]
      rw [if_pos (by simp), if_neg (by simpa using hts)]
      rw [if_pos (List.mem_cons_self _ _)]
      rw [List.length_cons, ih']
      rw [if_neg hx]
    · rw [List.filter_cons, List.filter_cons]
      by_cases hxm : x ∈ s
      · rw [if_pos (by simp [hxm]), if_pos (by simpa using hxm)]
        rw [List.length_cons, List.length_cons, ih']
        have : (tbl ∈ x :: xs) ↔ (tbl ∈ xs) := by
          constructor
          · intro h
            rcases List.mem_cons.mp h with h | h
            · exact absurd h.symm hxt
            · exact h
          · exact List.mem_cons_of_mem _
        rw [if_congr this rfl rfl]
        omega
      · have hnotin : ¬ x ∈ s ++ [tbl] := by
          rw [List.mem_append, List.mem_singleton]
          rintro (h | h)
          · exact hxm h
          · exact hxt h
        rw [if_neg (by simpa using hnotin), if_neg (by simpa using hxm), ih']
        have : (tbl ∈ x :: xs) ↔ (tbl ∈ xs) := by
          constructor
          · intro h
            rcases List.mem_cons.mp h with h | h
            · exact absurd h.symm hxt
            · exact h
          · exact List.mem_cons_of_mem _
        rw [if_congr this rfl rfl]

/-- The full invariant of the Kahn while loop: with enough fuel it always
returns, the emitted prefix is duplicate-free, extends the accumulator, its
graph keys are the built keys plus the emitted tables, and every emitted table
appears after all tables it references. -/
theorem kahn_loop_spec (m : List (TableName × List FkConstraint)) :
    ∀ (fuel : Nat) (g : Graph) (d : Deg) (q s : List TableName),
      (∀ x, graphGet g x = graphGet (buildGD m).1 x) →
      (∀ x, x ∈ graphKeys g ↔ x ∈ graphKeys (buildGD m).1 ∨ x ∈ s) →
      (graphKeys g).Nodup →
      (∀ x, degGet d x = degGet (buildGD m).2 x -
        (((foreignsOfT m x).filter (fun tb => tb ∈ s)).length : Int)) →
      s.Nodup → q.Nodup → (∀ x ∈ q, ¬ x ∈ s) →
      (∀ x ∈ q, degGet d x ≤ 0) → (∀ x ∈ s, degGet d x ≤ 0) →
      (∀ i (hi : i < s.length), ∀ f ∈ foreignsOfT m (s.get ⟨i, hi⟩), f ∈ s.take i) →
      (∀ x ∈ q, x ∈ graphKeys (buildGD m).1 ++ degKeys (buildGD m).2) →
      (∀ x ∈ s, x ∈ graphKeys (buildGD m).1 ++ degKeys (buildGD m).2) →
      (graphKeys (buildGD m).1 ++ degKeys (buildGD m).2).length + 1 ≤ fuel + s.length →
      ∃ g' s', kahn_loop fuel g d q s = some (g', s') ∧
        (∀ x, x ∈ graphKeys g' ↔ x ∈ graphKeys (buildGD m).1 ∨ x ∈ s') ∧
        (graphKeys g').Nodup ∧ s'.Nodup ∧ (∃ tl, s' = s ++ tl) ∧
        (∀ i (hi : i < s'.length), ∀ f ∈ foreignsOfT m (s'.get ⟨i, hi⟩), f ∈ s'.take i) := by
  intro fuel
  induction fuel with
  | zero =>
    intro g d q s _ _ _ _ h5 _ _ _ _ _ _ hsU hfuel
    exfalso
    have := nodup_subset_length_le s _ h5 hsU
    omega
  | succ fuel ih =>
    intro g d q s h1 h2 h3 h4 h5 h6 h7 h8 h9 h10 hqU hsU hfuel
    cases q with
    | nil =>
      exact ⟨g, s, rfl, h2, h3, h5, ⟨[], by simp⟩, h10⟩
    | cons tbl rest =>
      have htbl_s : ¬ tbl ∈ s := h7 tbl (List.mem_cons_self _ _)
      have hdeps_eq : graphGet g tbl = graphGet (buildGD m).1 tbl := h1 tbl
      have hdeps_nodup : (graphGet (buildGD m).1 tbl).Nodup := buildGD_graphGet_nodup m tbl
      obtain ⟨hpd_deg, hpd_q⟩ := process_deps_spec d (graphGet (buildGD m).1 tbl) hdeps_nodup
      have hdtbl : degGet d tbl ≤ 0 := h8 tbl (List.mem_cons_self _ _)
      have hcnt : ((foreignsOfT m tbl).filter (fun tb => tb ∈ s)).length =
          (foreignsOfT m tbl).length := by
        have h4t := h4 tbl
        rw [buildGD_degGet] at h4t
        have hle1 : ((foreignsOfT m tbl).filter (fun tb => tb ∈ s)).length ≤
            (foreignsOfT m tbl).length := List.length_filter_le _ _
        have hle2 := foreignsOfT_length_le m tbl
        omega
      have hsub_tbl : ∀ f ∈ foreignsOfT m tbl, f ∈ s := by
        intro f hf
        have := filter_length_eq_all (foreignsOfT m tbl) (fun tb => tb ∈ s) hcnt f hf
        simpa using this
      have haddq_mem : ∀ x ∈ (process_deps d (graphGet (buildGD m).1 tbl)).2,
          x ∈ graphGet (buildGD m).1 tbl ∧ degGet d x = 1 := by
        intro x hx
        rw [hpd_q] at hx
        have hxd := List.mem_filter.mp hx
        have hx1 : x ∈ graphGet (buildGD m).1 tbl := hxd.1
        have hx0 : degGet (process_deps d (graphGet (buildGD m).1 tbl)).1 x = 0 := by
          simpa using hxd.2
        have hdd := hpd_deg x
        rw [if_pos hx1] at hdd
        exact ⟨hx1, by omega⟩
      have haddq_nodup : (process_deps d (graphGet (buildGD m).1 tbl)).2.Nodup := by
        rw [hpd_q]; exact hdeps_nodup.filter _
      have h1' : ∀ x, graphGet (ensureKey g tbl) x = graphGet (buildGD m).1 x := by
        intro x; rw [graphGet_ensureKey]; exact h1 x
      have h2' : ∀ x, x ∈ graphKeys (ensureKey g tbl) ↔
          x ∈ graphKeys (buildGD m).1 ∨ x ∈ s ++ [tbl] := by
        intro x
        rw [graphKeys_ensureKey_mem, h2 x, List.mem_append, List.mem_singleton]
        tauto
      have h3' : (graphKeys (ensureKey g tbl)).Nodup := graphKeys_ensureKey_nodup g tbl h3
      have h4' : ∀ x, degGet (process_deps d (graphGet (buildGD m).1 tbl)).1 x =
          degGet (buildGD m).2 x -
          (((foreignsOfT m x).filter (fun tb => tb ∈ s ++ [tbl])).length : Int) := by
        intro x
        rw [hpd_deg x, h4 x]
        rw [filter_append_snoc_count (foreignsOfT m x) s tbl (foreignsOfT_nodup m x) htbl_s]
        have hmemiff : x ∈ graphGet (buildGD m).1 tbl ↔ tbl ∈ foreignsOfT m x :=
          buildGD_mem_iff_foreignsOfT m tbl x
        by_cases hxd : x ∈ graphGet (buildGD m).1 tbl
        · rw [if_pos hxd, if_pos (hmemiff.mp hxd)]
          push_cast
          ring
        · rw [if_neg hxd, if_neg (fun hc => hxd (hmemiff.mpr hc))]
          push_cast
          ring
      have h5' : (s ++ [tbl]).Nodup := by
        rw [List.nodup_append]
        refine ⟨h5, List.nodup_singleton _, ?_⟩
        intro x hxs hxe
        rw [List.mem_singleton] at hxe
        subst hxe
        exact htbl_s hxs
      have hq6 : rest.Nodup := (List.nodup_cons.mp h6).2
      have htbl_rest : ¬ tbl ∈ rest := (List.nodup_cons.mp h6).1
      have h6' : (rest ++ (process_deps d (graphGet (buildGD m).1 tbl)).2).Nodup := by
        rw [List.nodup_append]
        refine ⟨hq6, haddq_nodup, ?_⟩
        intro x hxr hxa
        have hx1 := (haddq_mem x hxa).2
        have := h8 x (List.mem_cons_of_mem _ hxr)
        omega
      have h7' : ∀ x ∈ rest ++ (process_deps d (graphGet (buildGD m).1 tbl)).2,
          ¬ x ∈ s ++ [tbl] := by
        intro x hx hxs
        rw [List.mem_append, List.mem_singleton] at hxs
        rcases List.mem_append.mp hx with hxr | hxa
        · rcases hxs with hxs | hxe
          · exact h7 x (List.mem_cons_of_mem _ hxr) hxs
          · subst hxe
            exact htbl_rest hxr
        · have hx1 := (haddq_mem x hxa).2
          rcases hxs with hxs | hxe
          · have := h9 x hxs
            omega
          · subst hxe
            omega
      have h8' : ∀ x ∈ rest ++ (process_deps d (graphGet (buildGD m).1 tbl)).2,
          degGet (process_deps d (graphGet (buildGD m).1 tbl)).1 x ≤ 0 := by
        intro x hx
        rcases List.mem_append.mp hx with hxr | hxa
        · have hle := h8 x (List.mem_cons_of_mem _ hxr)
          have hd := hpd_deg x
          by_cases hxd : x ∈ graphGet (buildGD m).1 tbl
          · rw [if_pos hxd] at hd; omega
          · rw [if_neg hxd] at hd; omega
        · rw [hpd_q] at hxa
          have := (List.mem_filter.mp hxa).2
          simp only [decide_eq_true_eq] at this
          omega
      have h9' : ∀ x ∈ s ++ [tbl],
          degGet (process_deps d (graphGet (buildGD m).1 tbl)).1 x ≤ 0 := by
        intro x hx
        have hd := hpd_deg x
        have hle : degGet (process_deps d (graphGet (buildGD m).1 tbl)).1 x ≤ degGet d x := by
          by_cases hxd : x ∈ graphGet (buildGD m).1 tbl
          · rw [if_pos hxd] at hd; omega
          · rw [if_neg hxd] at hd; omega
        rcases List.mem_append.mp hx with hxs | hxe
        · have := h9 x hxs
          omega
        · rw [List.mem_singleton] at hxe
          subst hxe
          omega
      have h10' : ∀ i (hi : i < (s ++ [tbl]).length),
          ∀ f ∈ foreignsOfT m ((s ++ [tbl]).get ⟨i, hi⟩), f ∈ (s ++ [tbl]).take i := by
        intro i hi f hf
        have hi' : i < s.length + 1 := by
          simpa using hi
        by_cases his : i < s.length
        · have hget : (s ++ [tbl]).get ⟨i, hi⟩ = s.get ⟨i, his⟩ := by
            rw [List.get_append _ his]
          rw [hget] at hf
          have := h10 i his f hf
          rw [List.take_append_of_le_length (le_of_lt his)]
          exact this
        · have hieq : i = s.length := by omega
          subst hieq
          have hget : (s ++ [tbl]).get ⟨s.length, hi⟩ = tbl := by
            simp
          rw [hget] at hf
          rw [List.take_append_of_le_length (le_refl _), List.take_length]
          exact hsub_tbl f hf
      have hqU' : ∀ x ∈ rest ++ (process_deps d (graphGet (buildGD m).1 tbl)).2,
          x ∈ graphKeys (buildGD m).1 ++ degKeys (buildGD m).2 := by
        intro x hx
        rcases List.mem_append.mp hx with hxr | hxa
        · exact hqU x (List.mem_cons_of_mem _ hxr)
        · have hx1 := (haddq_mem x hxa).1
          have hp : (tbl, x) ∈ pairsOf m := (buildGD_graphGet_mem m tbl x).mp hx1
          have hx2 : x ∈ (pairsOf m).map Prod.snd := List.mem_map.mpr ⟨(tbl, x), hp, rfl⟩
          exact List.mem_append.mpr (Or.inr ((buildGD_degKeys_mem m x).mpr hx2))
      have hsU' : ∀ x ∈ s ++ [tbl],
          x ∈ graphKeys (buildGD m).1 ++ degKeys (buildGD m).2 := by
        intro x hx
        rcases List.mem_append.mp hx with hxs | hxe
        · exact hsU x hxs
        · rw [List.mem_singleton] at hxe
          subst hxe
          exact hqU x (List.mem_cons_self _ _)
      have hfuel' : (graphKeys (buildGD m).1 ++ degKeys (buildGD m).2).length + 1 ≤
          fuel + (s ++ [tbl]).length := by
        simp only [List.length_append, List.length_cons, List.length_nil] at hfuel ⊢
        omega
      obtain ⟨g2, s2, heq, p1, p2, p3, ⟨tl, htl⟩, p5⟩ :=
        ih (ensureKey g tbl) (process_deps d (graphGet (buildGD m).1 tbl)).1
          (rest ++ (process_deps d (graphGet (buildGD m).1 tbl)).2) (s ++ [tbl])
          h1' h2' h3' h4' h5' h6' h7' h8' h9' h10' hqU' hsU' hfuel'
      refine ⟨g2, s2, ?_, p1, p2, p3, ⟨tbl :: tl, by rw [htl]; simp⟩, p5⟩
      have hred : kahn_loop (fuel + 1) g d (tbl :: rest) s =
          kahn_loop fuel (ensureKey g tbl) (process_deps d (graphGet g tbl)).1
            (rest ++ (process_deps d (graphGet g tbl)).2) (s ++ [tbl]) := rfl
      rw [hred, hdeps_eq]
      exact heq



/-- Instantiating the loop invariant at `topo_sort_tables`'s initial state. -/
theorem topo_kahn_some (m : List (TableName × List FkConstraint)) :
    ∃ g' s',
      kahn_loop ((graphKeys (buildGD m).1).length + (degKeys (buildGD m).2).length + 1)
        (buildGD m).1 (buildGD m).2
        ((graphKeys (buildGD m).1).filter (fun tb => degGet (buildGD m).2 tb = 0)) []
        = some (g', s') ∧
      (∀ x, x ∈ graphKeys g' ↔ x ∈ graphKeys (buildGD m).1 ∨ x ∈ s') ∧
      (graphKeys g').Nodup ∧ s'.Nodup ∧
      (∀ i (hi : i < s'.length), ∀ f ∈ foreignsOfT m (s'.get ⟨i, hi⟩), f ∈ s'.take i) := by
  obtain ⟨g', s', heq, p1, p2, p3, _, p5⟩ :=
    kahn_loop_spec m ((graphKeys (buildGD m).1).length + (degKeys (buildGD m).2).length + 1)
      (buildGD m).1 (buildGD m).2
      ((graphKeys (buildGD m).1).filter (fun tb => degGet (buildGD m).2 tb = 0)) []
      (fun _ => rfl) (by intro x; simp) (buildGD_graphKeys_nodup m)
      (by intro x; simp)
      List.nodup_nil ((buildGD_graphKeys_nodup m).filter _)
      (by intro x _; simp)
      (by
        intro x hx
        have := (List.mem_filter.mp hx).2
        simp only [decide_eq_true_eq] at this
        omega)
      (by intro x hx; simp at hx)
      (by intro i hi; simp at hi)
      (by intro x hx; exact List.mem_append.mpr (Or.inl (List.mem_filter.mp hx).1))
      (by intro x hx; simp at hx)
      (by rw [List.length_append]; omega)
  exact ⟨g', s', heq, p1, p2, p3, p5⟩

/-- Rewriting `topo_sort_tables` by the result of its Kahn loop. -/
theorem topo_sort_eq (m : List (TableName × List FkConstraint))
    (allTables : List TableName) (g' : Graph) (s' : List TableName)
    (heq : kahn_loop ((graphKeys (buildGD m).1).length + (degKeys (buildGD m).2).length + 1)
      (buildGD m).1 (buildGD m).2
      ((graphKeys (buildGD m).1).filter (fun tb => degGet (buildGD m).2 tb = 0)) []
      = some (g', s')) :
    topo_sort_tables m allTables =
      if s'.length = (graphKeys g').length then
        .ok (s' ++ allTables.filter (fun tb => ¬ tb ∈ s'))
      else .error .cycle := by
  simp only [topo_sort_tables]
  rw [heq]

theorem nodup_subset_length_eq_iff (s u : List String) (hs : s.Nodup) (hu : u.Nodup)
    (hsub : ∀ x ∈ s, x ∈ u) : s.length = u.length ↔ ∀ x ∈ u, x ∈ s := by
  have hcards : s.toFinset.card = s.length := List.toFinset_card_of_nodup hs
  have hcardu : u.toFinset.card = u.length := List.toFinset_card_of_nodup hu
  have hsubf : s.toFinset ⊆ u.toFinset := by
    intro y hy
    rw [List.mem_toFinset] at hy ⊢
    exact hsub y hy
  constructor
  · intro hlen x hx
    have hle : u.toFinset.card ≤ s.toFinset.card := by omega
    have := Finset.eq_of_subset_of_card_le hsubf hle
    rw [← List.mem_toFinset, ← this, List.mem_toFinset] at hx
    exact hx
  · intro hall
    have hsubf2 : u.toFinset ⊆ s.toFinset := by
      intro y hy
      rw [List.mem_toFinset] at hy ⊢
      exact hall y hy
    have heqf := Finset.Subset.antisymm hsubf hsubf2
    rw [heqf] at hcards
    omega

theorem mem_foreignsOfT_iff (m : List (TableName × List FkConstraint)) (a b : TableName) :
    a ∈ foreignsOfT m b ↔ (a, b) ∈ pairsOf m := by
  unfold foreignsOfT
  rw [mem_dedupStr]
  constructor
  · intro h
    rcases List.mem_map.mp h with ⟨p, hp, rfl⟩
    rcases List.mem_filter.mp hp with ⟨hpm, hpb⟩
    simp only [decide_eq_true_eq] at hpb
    rw [show ((p.1 : TableName), b) = p from by rw [← hpb]]
    exact hpm
  · intro h
    exact List.mem_map.mpr ⟨(a, b), List.mem_filter.mpr ⟨h, by simp⟩, rfl⟩

theorem edgeB_iff (m : List (TableName × List FkConstraint)) (a b : TableName) :
    edgeB m a b = true ↔ (a, b) ∈ pairsOf m := by
  unfold edgeB pairsOf
  rw [List.any_eq_true]
  constructor
  · rintro ⟨e, he, hcond⟩
    rw [Bool.and_eq_true] at hcond
    rcases hcond with ⟨hb, hex⟩
    rw [beq_iff_eq] at hb
    rcases List.any_eq_true.mp hex with ⟨fk, hfk, ha⟩
    rw [beq_iff_eq] at ha
    refine List.mem_flatMap.mpr ⟨e, he, ?_⟩
    refine List.mem_map.mpr ⟨fk, hfk, ?_⟩
    rw [ha, hb]
  · intro h
    rcases List.mem_flatMap.mp h with ⟨e, he, hin⟩
    rcases List.mem_map.mp hin with ⟨fk, hfk, hpair⟩
    refine ⟨e, he, ?_⟩
    rw [Bool.and_eq_true]
    have h1 : fk.foreign_table = a := congrArg Prod.fst hpair
    have h2 : e.1 = b := congrArg Prod.snd hpair
    exact ⟨beq_iff_eq.mpr h2, List.any_eq_true.mpr ⟨fk, hfk, beq_iff_eq.mpr h1⟩⟩

theorem foreignsOfT_subset_keys (m : List (TableName × List FkConstraint))
    (x f : TableName) (hf : f ∈ foreignsOfT m x) : f ∈ graphKeys (buildGD m).1 := by
  rw [buildGD_graphKeys_mem]
  exact List.mem_map.mpr ⟨(f, x), (mem_foreignsOfT_iff m f x).mp hf, rfl⟩

theorem indexOf_lt_of_mem_take (a : String) :
    ∀ (l : List String) (i : Nat), a ∈ l.take i → l.indexOf a < i := by
  intro l
  induction l with
  | nil => intro i h; simp at h
  | cons x xs ih =>
    intro i h
    cases i with
    | zero => simp at h
    | succ j =>
      rw [List.take_succ_cons] at h
      by_cases hax : x = a
      · subst hax
        rw [List.indexOf_cons_self]
        omega
      · rcases List.mem_cons.mp h with hh | hmem
        · exact absurd hh.symm hax
        · rw [List.indexOf_cons_ne _ hax]
          have := ih j hmem
          omega

theorem sorted_edge_lt (m : List (TableName × List FkConstraint)) (s : List TableName)
    (hord : ∀ i (hi : i < s.length), ∀ f ∈ foreignsOfT m (s.get ⟨i, hi⟩), f ∈ s.take i)
    (a b : TableName) (he : edgeB m a b = true) (hb : b ∈ s) :
    a ∈ s ∧ s.indexOf a < s.indexOf b := by
  have hj : s.indexOf b < s.length := List.indexOf_lt_length.mpr hb
  have hgb : s.get ⟨s.indexOf b, hj⟩ = b := List.indexOf_get hj
  have ha : a ∈ foreignsOfT m b := (mem_foreignsOfT_iff m a b).mpr ((edgeB_iff m a b).mp he)
  have hmem := hord (s.indexOf b) hj a (by rw [hgb]; exact ha)
  exact ⟨List.mem_of_mem_take hmem, indexOf_lt_of_mem_take a s (s.indexOf b) hmem⟩

theorem sorted_reach_lt (m : List (TableName × List FkConstraint)) (s : List TableName)
    (hord : ∀ i (hi : i < s.length), ∀ f ∈ foreignsOfT m (s.get ⟨i, hi⟩), f ∈ s.take i) :
    ∀ (fuel : Nat) (a b : TableName), reachB m fuel a b = true → b ∈ s →
      a ∈ s ∧ s.indexOf a < s.indexOf b := by
  intro fuel
  induction fuel with
  | zero => intro a b h hb; exact sorted_edge_lt m s hord a b h hb
  | succ fuel ih =>
    intro a b h hb
    unfold reachB at h
    rw [Bool.or_eq_true] at h
    rcases h with he | hex
    · exact sorted_edge_lt m s hord a b he hb
    · rcases List.any_eq_true.mp hex with ⟨c, _, hcc⟩
      rw [Bool.and_eq_true] at hcc
      rcases hcc with ⟨hac, hcb⟩
      obtain ⟨hcs, hlt⟩ := ih c b hcb hb
      obtain ⟨has, hlt2⟩ := sorted_edge_lt m s hord a c hac hcs
      exact ⟨has, by omega⟩

theorem reachB_src_edge (m : List (TableName × List FkConstraint)) :
    ∀ (fuel : Nat) (a b : TableName), reachB m fuel a b = true →
      ∃ c, edgeB m a c = true := by
  intro fuel a b h
  cases fuel with
  | zero => exact ⟨b, h⟩
  | succ f =>
    unfold reachB at h
    rw [Bool.or_eq_true] at h
    rcases h with he | hex
    · exact ⟨b, he⟩
    · rcases List.any_eq_true.mp hex with ⟨c, _, hcc⟩
      rw [Bool.and_eq_true] at hcc
      exact ⟨c, hcc.1⟩

/-- A cyclic FK graph always drives `topo_sort_tables` into its cycle error. -/
theorem topo_cycle_error (m : List (TableName × List FkConstraint))
    (allTables : List TableName) (hc : has_cycle m = true) :
    topo_sort_tables m allTables = .error Err.cycle := by
  obtain ⟨g', s', heq, p1, p2, p3, p5⟩ := topo_kahn_some m
  rw [topo_sort_eq m allTables g' s' heq]
  rw [if_neg]
  intro hlen
  have hsub : ∀ x ∈ s', x ∈ graphKeys g' := fun x hx => (p1 x).mpr (Or.inr hx)
  have hall : ∀ x ∈ graphKeys g', x ∈ s' :=
    (nodup_subset_length_eq_iff s' (graphKeys g') p3 p2 hsub).mp hlen
  unfold has_cycle at hc
  rcases List.any_eq_true.mp hc with ⟨tb, _, hreach⟩
  obtain ⟨c, hec⟩ := reachB_src_edge m _ tb tb hreach
  have htbG0 : tb ∈ graphKeys (buildGD m).1 := by
    rw [buildGD_graphKeys_mem]
    exact List.mem_map.mpr ⟨(tb, c), (edgeB_iff m tb c).mp hec, rfl⟩
  have htbs : tb ∈ s' := hall tb ((p1 tb).mpr (Or.inl htbG0))
  have := sorted_reach_lt m s' p5 _ tb tb hreach htbs
  omega

/-- An `ok` result of `topo_sort_tables` covers all tables, is duplicate-free
when the input table list is, and places every table after all tables its FK
constraints reference. -/
theorem topo_sort_ok_props (m : List (TableName × List FkConstraint))
    (allTables : List TableName) (order : List TableName)
    (hok : topo_sort_tables m allTables = .ok order) (hnd : allTables.Nodup) :
    order.Nodup ∧ (∀ tb ∈ allTables, tb ∈ order) ∧
    (∀ i (hi : i < order.length), ∀ f ∈ foreignsOfT m (order.get ⟨i, hi⟩),
      f ∈ order.take i) := by
  obtain ⟨g', s', heq, p1, p2, p3, p5⟩ := topo_kahn_some m
  rw [topo_sort_eq m allTables g' s' heq] at hok
  by_cases hlen : s'.length = (graphKeys g').length
  case neg =>
    rw [if_neg hlen] at hok
    exact absurd hok (by simp)
  rw [if_pos hlen] at hok
  have horder : order = s' ++ allTables.filter (fun tb => ¬ tb ∈ s') := by
    have := Except.ok.inj hok
    exact this.symm
  have hG0s : ∀ x ∈ graphKeys (buildGD m).1, x ∈ s' := by
    intro x hx
    have hsub : ∀ y ∈ s', y ∈ graphKeys g' := fun y hy => (p1 y).mpr (Or.inr hy)
    exact (nodup_subset_length_eq_iff s' (graphKeys g') p3 p2 hsub).mp hlen x
      ((p1 x).mpr (Or.inl hx))
  subst horder
  refine ⟨?_, ?_, ?_⟩
  · rw [List.nodup_append]
    refine ⟨p3, hnd.filter _, ?_⟩
    intro x hxs hxf
    have := (List.mem_filter.mp hxf).2
    simp only [decide_eq_true_eq] at this
    exact this hxs
  · intro tb htb
    by_cases hts : tb ∈ s'
    · exact List.mem_append.mpr (Or.inl hts)
    · exact List.mem_append.mpr (Or.inr (List.mem_filter.mpr ⟨htb, by simpa using hts⟩))
  · intro i hi f hf
    by_cases his : i < s'.length
    · have hget : (s' ++ allTables.filter (fun tb => ¬ tb ∈ s')).get ⟨i, hi⟩ =
          s'.get ⟨i, his⟩ := by
        rw [List.get_append _ his]
      rw [hget] at hf
      have := p5 i his f hf
      rw [List.take_append_of_le_length (le_of_lt his)]
      exact this
    · have hfs : f ∈ s' := by
        apply hG0s
        exact foreignsOfT_subset_keys m _ f hf
      rw [List.take_append_eq_append_take]
      refine List.mem_append.mpr (Or.inl ?_)
      rw [List.take_of_length_le (by omega)]
      exact hfs



/-- C4: For every schema whose FK graph contains a cycle (including a
self-referencing table), `get_db` fails with the cycle-detected error: the
dependency orderer runs before any generation, so the run's result is the
error and no table receives any rows; the error is returned unconditionally
(fatal, no recovery path). -/
theorem C4_cycle_fatal (schema : List TableInfo) (data0 : Store)
    (rcs : List (TableName × Nat)) (ovs : List (TableName × List (ColName × Strat)))
    (t : Tape) (hc : has_cycle (fk_map_of schema) = true) :
    get_db schema data0 rcs ovs t = .error Err.cycle := by
  unfold get_db
  rw [topo_cycle_error _ _ hc]

theorem C4_cycle_fatal_witness :
    has_cycle (fk_map_of selfSchema) = true ∧
      get_db selfSchema [] [] [] [] = .error Err.cycle :=
  ⟨by decide, C4_cycle_fatal selfSchema [] [] [] [] (by decide)⟩

/-! The row-engine FK/key invariants, the `get_db` loop invariant, and claims C1 and C9. -/

theorem vlookup_rupdate_right (r1 r2 : Row) (c : ColName)
    (h : (vlookup r2 c).isSome) : vlookup (rupdate r1 r2) c = vlookup r2 c := by
  rw [vlookup_rupdate]
  cases hv : vlookup r2 c with
  | none => rw [hv] at h; simp at h
  | some v => rfl

theorem vlookup_rupdate_left (r1 r2 : Row) (c : ColName)
    (h : vlookup r2 c = none) : vlookup (rupdate r1 r2) c = vlookup r1 c := by
  rw [vlookup_rupdate, h]

theorem vlookup_rupdate_isSome (r1 r2 : Row) (c : ColName) :
    (vlookup (rupdate r1 r2) c).isSome ↔
      (vlookup r1 c).isSome ∨ (vlookup r2 c).isSome := by
  rw [vlookup_rupdate]
  cases hv : vlookup r2 c with
  | none => simp
  | some v => simp

theorem alookup_of_mem_nodup {α : Type} (l : List (String × α)) (k : String) (v : α)
    (hnd : (l.map Prod.fst).Nodup) (hm : (k, v) ∈ l) : alookup l k = some v := by
  induction l with
  | nil => simp at hm
  | cons kv rest ih =>
    rcases List.mem_cons.mp hm with he | he
    · rw [← he]
      simp [alookup]
    · have hk : kv.1 ≠ k := by
        intro hk
        have : kv.1 ∈ rest.map Prod.fst := by
          rw [hk]
          exact List.mem_map.mpr ⟨(k, v), he, rfl⟩
        exact (List.nodup_cons.mp (by simpa using hnd)).1 this
      rw [alookup, if_neg hk]
      exact ih (List.nodup_cons.mp (by simpa using hnd)).2 he

theorem revMapOf_keys (fk : FkConstraint) :
    (revMapOf fk).map Prod.fst = (fk.local_foreign_mapping.map Prod.snd).reverse := by
  unfold revMapOf
  rw [List.map_map, ← List.map_reverse]
  rfl

theorem alookup_revMapOf (fk : FkConstraint)
    (hsnd : (fk.local_foreign_mapping.map Prod.snd).Nodup)
    (lf : ColName × ColName) (hlf : lf ∈ fk.local_foreign_mapping) :
    alookup (revMapOf fk) lf.2 = some lf.1 := by
  apply alookup_of_mem_nodup
  · rw [revMapOf_keys]
    exact List.nodup_reverse.mpr hsnd
  · unfold revMapOf
    exact List.mem_map.mpr ⟨lf, List.mem_reverse.mpr hlf, rfl⟩

theorem vlookup_renameRow_inj (mm : List (ColName × ColName)) :
    ∀ (r : Row) (k : ColName),
      (∀ k1 ∈ r.map Prod.fst, ∀ k2 ∈ r.map Prod.fst,
        (alookup mm k1).getD k1 = (alookup mm k2).getD k2 → k1 = k2) →
      k ∈ r.map Prod.fst →
      vlookup (renameRow r mm) ((alookup mm k).getD k) = vlookup r k := by
  intro r
  induction r with
  | nil => intro k _ hk; simp at hk
  | cons kv rest ih =>
    intro k hinj hk
    show vlookup (((alookup mm kv.1).getD kv.1, kv.2) :: renameRow rest mm) _ = _
    rw [vlookup_cons, vlookup_cons]
    by_cases h0 : kv.1 = k
    · rw [if_pos h0, if_pos (by rw [h0])]
    · have hkr : k ∈ rest.map Prod.fst := by
        have hk2 := hk
        rw [List.map_cons] at hk2
        rcases List.mem_cons.mp hk2 with he | he
        · exact absurd he.symm h0
        · exact he
      rw [if_neg h0, if_neg ?_]
      · exact ih k
          (fun k1 h1 k2 h2 => hinj k1 (by simp [h1]) k2 (by simp [h2])) hkr
      · intro heq
        exact h0 (hinj kv.1 (by simp) k hk heq)

theorem select_keys_subset (r : Row) (cols : List ColName) (c : ColName)
    (h : c ∈ (select r cols).map Prod.fst) : c ∈ cols := by
  have := (vlookup_isSome_iff_mem_keys _ c).mpr h
  rw [vlookup_select] at this
  by_cases hc : c ∈ cols
  · exact hc
  · rw [if_neg hc] at this
    simp at this

theorem mem_select_keys (r : Row) (cols : List ColName) (c : ColName)
    (hc : c ∈ cols) (hs : (vlookup r c).isSome) : c ∈ (select r cols).map Prod.fst := by
  rw [← vlookup_isSome_iff_mem_keys, vlookup_select, if_pos hc]
  exact hs

theorem rename_select_transfer (fk : FkConstraint) (p : Row)
    (hfst : (fk.local_foreign_mapping.map Prod.fst).Nodup)
    (hsnd : (fk.local_foreign_mapping.map Prod.snd).Nodup)
    (hpres : ∀ lf ∈ fk.local_foreign_mapping, (vlookup p lf.2).isSome)
    (lf : ColName × ColName) (hlf : lf ∈ fk.local_foreign_mapping) :
    vlookup (renameRow (select p (foreignColsOf fk)) (revMapOf fk)) lf.1 =
      vlookup p lf.2 := by
  have hren : (alookup (revMapOf fk) lf.2).getD lf.2 = lf.1 := by
    rw [alookup_revMapOf fk hsnd lf hlf]
    rfl
  have hF : lf.2 ∈ foreignColsOf fk :=
    (mem_dedupStr _ _).mpr (List.mem_map.mpr ⟨lf, hlf, rfl⟩)
  have hkmem : lf.2 ∈ (select p (foreignColsOf fk)).map Prod.fst :=
    mem_select_keys p _ lf.2 hF (hpres lf hlf)
  have hinj : ∀ k1 ∈ (select p (foreignColsOf fk)).map Prod.fst,
      ∀ k2 ∈ (select p (foreignColsOf fk)).map Prod.fst,
      (alookup (revMapOf fk) k1).getD k1 = (alookup (revMapOf fk) k2).getD k2 →
      k1 = k2 := by
    intro k1 h1 k2 h2 heq
    have hk1F : k1 ∈ fk.local_foreign_mapping.map Prod.snd :=
      (mem_dedupStr _ _).mp (select_keys_subset p _ k1 h1)
    have hk2F : k2 ∈ fk.local_foreign_mapping.map Prod.snd :=
      (mem_dedupStr _ _).mp (select_keys_subset p _ k2 h2)
    rcases List.mem_map.mp hk1F with ⟨lf1, hlf1, rfl⟩
    rcases List.mem_map.mp hk2F with ⟨lf2, hlf2, rfl⟩
    rw [alookup_revMapOf fk hsnd lf1 hlf1, alookup_revMapOf fk hsnd lf2 hlf2] at heq
    simp only [Option.getD_some] at heq
    have : lf1 = lf2 := by
      apply List.inj_on_of_nodup_map hfst hlf1 hlf2
      exact heq
    rw [this]
  rw [← hren, vlookup_renameRow_inj (revMapOf fk) (select p (foreignColsOf fk))
    lf.2 hinj hkmem]
  rw [vlookup_select, if_pos hF]

theorem select_values_eq_pointwise (cols : List ColName) :
    ∀ (r1 r2 : Row),
      (∀ c ∈ cols, (vlookup r1 c).isSome) → (∀ c ∈ cols, (vlookup r2 c).isSome) →
      select_values r1 cols = select_values r2 cols →
      ∀ c ∈ cols, vlookup r1 c = vlookup r2 c := by
  induction cols with
  | nil => intro r1 r2 _ _ _ c hc; simp at hc
  | cons c0 rest ih =>
    intro r1 r2 h1 h2 heq c hc
    unfold select_values at heq
    rw [List.filterMap_cons, List.filterMap_cons] at heq
    obtain ⟨v1, hv1⟩ := Option.isSome_iff_exists.mp (h1 c0 (List.mem_cons_self _ _))
    obtain ⟨v2, hv2⟩ := Option.isSome_iff_exists.mp (h2 c0 (List.mem_cons_self _ _))
    rw [hv1, hv2] at heq
    simp only [List.cons.injEq] at heq
    rcases List.mem_cons.mp hc with he | he
    · subst he
      rw [hv1, hv2, heq.1]
    · exact ih r1 r2 (fun c hc => h1 c (List.mem_cons_of_mem _ hc))
        (fun c hc => h2 c (List.mem_cons_of_mem _ hc)) heq.2 c he

theorem rupdate_agree_seen (r1 r2 : Row) (seen locals : List ColName)
    (hk2 : ∀ c ∈ r2.map Prod.fst, c ∈ locals)
    (hagree : ∀ c ∈ locals, c ∈ seen → vlookup r2 c = vlookup r1 c) :
    ∀ c ∈ seen, vlookup (rupdate r1 r2) c = vlookup r1 c := by
  intro c hc
  rw [vlookup_rupdate]
  cases hv2 : vlookup r2 c with
  | none => rfl
  | some v =>
    have hck : c ∈ r2.map Prod.fst :=
      (vlookup_isSome_iff_mem_keys _ c).mp (by rw [hv2]; rfl)
    have := hagree c (hk2 c hck) hc
    rw [hv2] at this
    exact this



theorem mem_localColsOf (fk : FkConstraint) (c : ColName) :
    c ∈ localColsOf fk ↔ ∃ lf ∈ fk.local_foreign_mapping, lf.1 = c := by
  unfold localColsOf
  rw [mem_dedupStr]
  constructor
  · intro h
    rcases List.mem_map.mp h with ⟨lf, hlf, rfl⟩
    exact ⟨lf, hlf, rfl⟩
  · rintro ⟨lf, hlf, rfl⟩
    exact List.mem_map.mpr ⟨lf, hlf, rfl⟩

/-- The full invariant of the constraint-processing loop: every surviving
candidate row binds exactly the accumulated seen columns, matches a committed
foreign row of every processed constraint, and any seen-determined property of
the running candidates is preserved. -/
theorem fk_options_go_match (store : Store) :
    ∀ (fks : List FkConstraint) (seen : List ColName) (cs : List Row) (first : Bool)
      (seen' : List ColName) (rows' : List Row) (P : Row → Prop),
      fk_options_go store fks seen cs first = some (seen', rows') →
      (∀ fk ∈ fks, FkWfStore store fk) →
      (first = false → ∀ r ∈ cs, RowOn seen r ∧ P r) →
      (first = true → seen = [] ∧ cs = []) →
      (∀ r r', P r → (∀ c ∈ seen, vlookup r' c = vlookup r c) → P r') →
      (first = true → ∀ r, P r) →
      ∀ r ∈ rows', RowOn seen' r ∧ P r ∧ ∀ fk ∈ fks, FkMatch store fk r := by
  intro fks
  induction fks with
  | nil =>
    intro seen cs first seen' rows' P hrun hwf hpre hinit hstable hPtrue r hr
    simp only [fk_options_go] at hrun
    cases hrun
    cases first with
    | false =>
      rcases hpre rfl r hr with ⟨h1, h2⟩
      exact ⟨h1, h2, by simp⟩
    | true =>
      rw [(hinit rfl).2] at hr
      simp at hr
  | cons fk rest ih =>
    intro seen cs first seen' rows' P hrun hwf hpre hinit hstable hPtrue r hr
    have hwfk := hwf fk (List.mem_cons_self _ _)
    rcases hwfk with ⟨hfst, hsnd, hpres⟩
    simp only [fk_options_go] at hrun
    by_cases hemp : ((storeGetD store fk.foreign_table).map
        (fun r => select r (foreignColsOf fk))).filter
        (fun r => r.all (fun kv => kv.2 ≠ Val.null)) |>.isEmpty
    · rw [if_pos hemp] at hrun
      simp at hrun
    · rw [if_neg hemp] at hrun
      -- decomposition of the renamed candidate rows
      have hrows2 : ∀ r2 ∈ (((storeGetD store fk.foreign_table).map
          (fun r => select r (foreignColsOf fk))).filter
          (fun r => r.all (fun kv => kv.2 ≠ Val.null))).map
          (fun r => renameRow r (revMapOf fk)),
          ∃ p ∈ storeGetD store fk.foreign_table,
            (∀ c ∈ r2.map Prod.fst, c ∈ localColsOf fk) ∧
            (∀ lf ∈ fk.local_foreign_mapping, vlookup r2 lf.1 = vlookup p lf.2) := by
        intro r2 hr2
        rcases List.mem_map.mp hr2 with ⟨rr, hrr, rfl⟩
        have hrr0 := (List.mem_filter.mp hrr).1
        rcases List.mem_map.mp hrr0 with ⟨p, hp, rfl⟩
        refine ⟨p, hp, ?_, ?_⟩
        · intro c hc
          exact renamed_keys_local fk p c hc
        · intro lf hlf
          exact rename_select_transfer fk p hfst hsnd (hpres p hp) lf hlf
      have hrows2on : ∀ r2 ∈ (((storeGetD store fk.foreign_table).map
          (fun r => select r (foreignColsOf fk))).filter
          (fun r => r.all (fun kv => kv.2 ≠ Val.null))).map
          (fun r => renameRow r (revMapOf fk)),
          (∀ c ∈ r2.map Prod.fst, c ∈ localColsOf fk) ∧
          (∀ c ∈ localColsOf fk, (vlookup r2 c).isSome) ∧ FkMatch store fk r2 := by
        intro r2 hr2
        rcases hrows2 r2 hr2 with ⟨p, hp, hkeys, htrans⟩
        refine ⟨hkeys, ?_, ⟨p, hp, htrans⟩⟩
        intro c hc
        rcases (mem_localColsOf fk c).mp hc with ⟨lf, hlf, rfl⟩
        rw [htrans lf hlf]
        exact hpres p hp lf hlf
      -- the new seen set
      have hseen2 : ∀ c, c ∈ seen ++ (localColsOf fk).filter (fun x => ¬ x ∈ seen) ↔
          c ∈ seen ∨ c ∈ localColsOf fk := fun c => mem_seen_update seen _ c
      -- stability of the strengthened property
      have hstable' : ∀ r0 r0', (P r0 ∧ FkMatch store fk r0) →
          (∀ c ∈ seen ++ (localColsOf fk).filter (fun x => ¬ x ∈ seen),
            vlookup r0' c = vlookup r0 c) →
          (P r0' ∧ FkMatch store fk r0') := by
        rintro r0 r0' ⟨hP0, p0, hp0, htr0⟩ hagr
        refine ⟨hstable r0 r0' hP0 ?_, p0, hp0, ?_⟩
        · intro c hc
          exact hagr c ((hseen2 c).mpr (Or.inl hc))
        · intro lf hlf
          rw [hagr lf.1 ((hseen2 lf.1).mpr (Or.inr ((mem_localColsOf fk lf.1).mpr
            ⟨lf, hlf, rfl⟩)))]
          exact htr0 lf hlf
      by_cases hfirst : first = true
      · rw [if_pos hfirst] at hrun
        rcases hinit hfirst with ⟨hseen0, _⟩
        have hres := ih (seen ++ (localColsOf fk).filter (fun x => ¬ x ∈ seen)) _ false
          seen' rows' (fun r0 => P r0 ∧ FkMatch store fk r0) hrun
          (fun fk2 hfk2 => hwf fk2 (List.mem_cons_of_mem _ hfk2))
          (by
            intro _ r2 hr2
            rcases hrows2on r2 hr2 with ⟨hkeys, hcompl, hmatch⟩
            refine ⟨⟨?_, ?_⟩, hPtrue hfirst r2, hmatch⟩
            · intro c hc
              exact (hseen2 c).mpr (Or.inr (hkeys c hc))
            · intro c hc
              rcases (hseen2 c).mp hc with hcs | hcl
              · rw [hseen0] at hcs
                simp at hcs
              · exact hcompl c hcl)
          (by intro h; simp at h)
          hstable'
          (by intro h; simp at h)
          r hr
        rcases hres with ⟨hon, ⟨hP, hM⟩, hrest⟩
        refine ⟨hon, hP, ?_⟩
        intro fk2 hfk2
        rcases List.mem_cons.mp hfk2 with he | he
        · rw [he]; exact hM
        · exact hrest fk2 he
      · rw [if_neg hfirst] at hrun
        have hfirstf : first = false := by
          cases first
          · rfl
          · exact absurd rfl hfirst
        -- properties of joined rows, shared by both join branches
        have hjoin : ∀ (r1 r2 : Row), r1 ∈ cs →
            r2 ∈ (((storeGetD store fk.foreign_table).map
              (fun r => select r (foreignColsOf fk))).filter
              (fun r => r.all (fun kv => kv.2 ≠ Val.null))).map
              (fun r => renameRow r (revMapOf fk)) →
            (∀ c ∈ localColsOf fk, c ∈ seen → vlookup r2 c = vlookup r1 c) →
            RowOn (seen ++ (localColsOf fk).filter (fun x => ¬ x ∈ seen))
              (rupdate r1 r2) ∧
            (P (rupdate r1 r2) ∧ FkMatch store fk (rupdate r1 r2)) := by
          intro r1 r2 h1 h2 hagree
          rcases hpre hfirstf r1 h1 with ⟨⟨hk1, hc1⟩, hP1⟩
          rcases hrows2on r2 h2 with ⟨hk2, hc2, p2, hp2, htr2⟩
          have hagr : ∀ c ∈ seen, vlookup (rupdate r1 r2) c = vlookup r1 c :=
            rupdate_agree_seen r1 r2 seen (localColsOf fk) hk2 hagree
          refine ⟨⟨?_, ?_⟩, ?_, ?_⟩
          · intro c hc
            rcases keys_rupdate r1 r2 c hc with hcc | hcc
            · exact (hseen2 c).mpr (Or.inl (hk1 c hcc))
            · exact (hseen2 c).mpr (Or.inr (hk2 c hcc))
          · intro c hc
            rcases (hseen2 c).mp hc with hcs | hcl
            · rw [hagr c hcs]
              exact hc1 c hcs
            · rw [vlookup_rupdate_isSome]
              exact Or.inr (hc2 c hcl)
          · exact hstable r1 (rupdate r1 r2) hP1 hagr
          · refine ⟨p2, hp2, ?_⟩
            intro lf hlf
            have hl : lf.1 ∈ localColsOf fk := (mem_localColsOf fk lf.1).mpr ⟨lf, hlf, rfl⟩
            rw [vlookup_rupdate_right r1 r2 lf.1 (hc2 lf.1 hl)]
            exact htr2 lf hlf
        by_cases hovl : ((localColsOf fk).filter (fun c => c ∈ seen)).isEmpty
        · rw [if_pos hovl] at hrun
          have hnool : ∀ c ∈ localColsOf fk, ¬ c ∈ seen := by
            have := List.isEmpty_iff.mp hovl
            intro c hc hcs
            have : c ∈ ((localColsOf fk).filter (fun c => c ∈ seen)) :=
              List.mem_filter.mpr ⟨hc, by simpa using hcs⟩
            rw [List.isEmpty_iff.mp hovl] at this
            simp at this
          have hres := ih (seen ++ (localColsOf fk).filter (fun x => ¬ x ∈ seen)) _ false
            seen' rows' (fun r0 => P r0 ∧ FkMatch store fk r0) hrun
            (fun fk2 hfk2 => hwf fk2 (List.mem_cons_of_mem _ hfk2))
            (by
              intro _ rj hrj
              rcases (mem_cross_join _ _ _).mp hrj with ⟨r1, h1, r2, h2, rfl⟩
              have := hjoin r1 r2 h1 h2 (fun c hc hcs => absurd hcs (hnool c hc))
              exact ⟨this.1, this.2⟩)
            (by intro h; simp at h)
            hstable'
            (by intro h; simp at h)
            r hr
          rcases hres with ⟨hon, ⟨hP, hM⟩, hrest⟩
          refine ⟨hon, hP, ?_⟩
          intro fk2 hfk2
          rcases List.mem_cons.mp hfk2 with he | he
          · rw [he]; exact hM
          · exact hrest fk2 he
        · rw [if_neg hovl] at hrun
          have hres := ih (seen ++ (localColsOf fk).filter (fun x => ¬ x ∈ seen)) _ false
            seen' rows' (fun r0 => P r0 ∧ FkMatch store fk r0) hrun
            (fun fk2 hfk2 => hwf fk2 (List.mem_cons_of_mem _ hfk2))
            (by
              intro _ rj hrj
              rcases mem_inner_join _ _ _ _ hrj with ⟨r1, h1, r2, h2, hsv, rfl⟩
              rcases hpre hfirstf r1 h1 with ⟨⟨hk1, hc1⟩, _⟩
              rcases hrows2on r2 h2 with ⟨hk2, hc2, _⟩
              have hpw : ∀ c ∈ (localColsOf fk).filter (fun c => c ∈ seen),
                  vlookup r1 c = vlookup r2 c := by
                apply select_values_eq_pointwise
                · intro c hc
                  exact hc1 c (by simpa using (List.mem_filter.mp hc).2)
                · intro c hc
                  exact hc2 c (List.mem_filter.mp hc).1
                · exact hsv
              have := hjoin r1 r2 h1 h2 (fun c hc hcs =>
                (hpw c (List.mem_filter.mpr ⟨hc, by simpa using hcs⟩)).symm)
              exact ⟨this.1, this.2⟩)
            (by intro h; simp at h)
            hstable'
            (by intro h; simp at h)
            r hr
          rcases hres with ⟨hon, ⟨hP, hM⟩, hrest⟩
          refine ⟨hon, hP, ?_⟩
          intro fk2 hfk2
          rcases List.mem_cons.mp hfk2 with he | he
          · rw [he]; exact hM
          · exact hrest fk2 he



theorem mem_fkColsOf (fks : List FkConstraint) (c : ColName) :
    c ∈ fkColsOf fks ↔ ∃ fk ∈ fks, c ∈ fk.local_foreign_mapping.map Prod.fst := by
  unfold fkColsOf
  rw [mem_dedupStr]
  simp [List.mem_flatMap]

theorem fk_options_go_seen_mono (store : Store) :
    ∀ (fks : List FkConstraint) (seen : List ColName) (cs : List Row) (first : Bool)
      (seen' : List ColName) (rows' : List Row),
      fk_options_go store fks seen cs first = some (seen', rows') →
      (∀ c ∈ seen, c ∈ seen') ∧ (∀ fk ∈ fks, ∀ c ∈ localColsOf fk, c ∈ seen') := by
  intro fks
  induction fks with
  | nil =>
    intro seen cs first seen' rows' hrun
    simp only [fk_options_go] at hrun
    cases hrun
    exact ⟨fun c hc => hc, by simp⟩
  | cons fk rest ih =>
    intro seen cs first seen' rows' hrun
    simp only [fk_options_go] at hrun
    by_cases hemp : ((storeGetD store fk.foreign_table).map
        (fun r => select r (foreignColsOf fk))).filter
        (fun r => r.all (fun kv => kv.2 ≠ Val.null)) |>.isEmpty
    · rw [if_pos hemp] at hrun
      simp at hrun
    · rw [if_neg hemp] at hrun
      have step : ∀ (cs2 : List Row),
          fk_options_go store rest (seen ++ (localColsOf fk).filter (fun x => ¬ x ∈ seen))
            cs2 false = some (seen', rows') →
          (∀ c ∈ seen, c ∈ seen') ∧
          (∀ fk2 ∈ fk :: rest, ∀ c ∈ localColsOf fk2, c ∈ seen') := by
        intro cs2 hrun2
        rcases ih _ _ _ _ _ hrun2 with ⟨hmono, hloc⟩
        refine ⟨?_, ?_⟩
        · intro c hc
          exact hmono c ((mem_seen_update _ _ _).mpr (Or.inl hc))
        · intro fk2 hfk2 c hc
          rcases List.mem_cons.mp hfk2 with he | he
          · subst he
            exact hmono c ((mem_seen_update _ _ _).mpr (Or.inr hc))
          · exact hloc fk2 he c hc
      by_cases hfirst : first = true
      · rw [if_pos hfirst] at hrun
        exact step _ hrun
      · rw [if_neg hfirst] at hrun
        by_cases hovl : ((localColsOf fk).filter (fun c => c ∈ seen)).isEmpty
        · rw [if_pos hovl] at hrun
          exact step _ hrun
        · rw [if_neg hovl] at hrun
          exact step _ hrun

/-- Every local column of every constraint ends up in the seen set returned by
`get_fk_constrained_options`. -/
theorem get_fk_options_locals_seen (fks : List FkConstraint) (store : Store) (m : Nat) :
    ∀ fk ∈ fks, ∀ c ∈ localColsOf fk, c ∈ (get_fk_constrained_options fks store m).1 := by
  intro fk hfk c hc
  unfold get_fk_constrained_options
  cases hgo : fk_options_go store fks [] [] true with
  | none =>
    simp only []
    rw [mem_fkColsOf]
    exact ⟨fk, hfk, (mem_dedupStr _ _).mp hc⟩
  | some sc =>
    simp only []
    exact (fk_options_go_seen_mono store fks [] [] true sc.1 sc.2 (by rw [hgo])).2
      fk hfk c hc

/-- The candidate rows returned by `get_fk_constrained_options` bind exactly
the seen columns and match a committed foreign row of every constraint. -/
theorem get_fk_options_match (fks : List FkConstraint) (store : Store) (m : Nat)
    (seen : List ColName) (rs : List Row)
    (hwf : ∀ fk ∈ fks, FkWfStore store fk)
    (h : get_fk_constrained_options fks store m = (seen, some rs)) :
    ∀ r ∈ rs, RowOn seen r ∧ ∀ fk ∈ fks, FkMatch store fk r := by
  unfold get_fk_constrained_options at h
  cases hgo : fk_options_go store fks [] [] true with
  | none =>
    rw [hgo] at h
    simp only [Prod.mk.injEq] at h
    exact absurd h.2 (by simp)
  | some sc =>
    rw [hgo] at h
    simp only [Prod.mk.injEq] at h
    by_cases hsemp : (sc.2.take m).isEmpty
    · rw [if_pos hsemp] at h
      exact absurd h.2 (by simp)
    · rw [if_neg hsemp] at h
      intro r hr
      have hrs : sc.2.take m = rs := Option.some.inj h.2
      have hrcs : r ∈ sc.2 := List.take_subset m sc.2 (by rw [hrs]; exact hr)
      have hres := fk_options_go_match store fks [] [] true sc.1 sc.2 (fun _ => True)
        (by rw [hgo]) hwf (by intro hx; simp at hx) (fun _ => ⟨rfl, rfl⟩)
        (fun _ _ _ _ => trivial) (fun _ _ => trivial) r hrcs
      rw [← h.1]
      exact ⟨hres.1, hres.2.2⟩

theorem null_fix_phase_subset (colInfos : List (ColName × ColInfo))
    (ov : List (ColName × Strat)) :
    ∀ (cols : List ColName) (t : Tape) (names : List ColName) (t' : Tape),
      null_fix_phase colInfos ov cols t = (.ok names, t') → ∀ c ∈ names, c ∈ cols := by
  intro cols
  induction cols with
  | nil =>
    intro t names t' h c hc
    simp only [null_fix_phase] at h
    cases h
    simp at hc
  | cons c0 rest ih =>
    intro t names t' h c hc
    simp only [null_fix_phase] at h
    cases hse : (match alookup ov c0 with
      | some s => Except.ok s
      | none =>
        match alookup colInfos c0 with
        | some ci => col_info_to_strategy ci
        | none => Except.error (Err.keyError c0) : Except Err Strat) with
    | error e =>
      rw [hse] at h
      simp at h
    | ok strat =>
      rw [hse] at h
      dsimp only at h
      cases hrec : null_fix_phase colInfos ov rest (genV strat t).2 with
      | mk res t'' =>
        cases res with
        | error e =>
          rw [hrec] at h
          simp at h
        | ok names' =>
          rw [hrec] at h
          simp only [Prod.mk.injEq, Except.ok.injEq] at h
          rw [← h.1] at hc
          by_cases hnull : (genV strat t).1 = Val.null
          · rw [if_pos hnull] at hc
            rcases List.mem_cons.mp hc with he | he
            · rw [he]
              exact List.mem_cons_self _ _
            · exact List.mem_cons_of_mem _ (ih _ _ _ hrec c he)
          · rw [if_neg hnull] at hc
            exact List.mem_cons_of_mem _ (ih _ _ _ hrec c hc)

theorem build_strategies_complete (ov : List (ColName × Strat)) (handled : List ColName) :
    ∀ (cis : List (ColName × ColInfo)) (strats : List (ColName × Strat)),
      build_strategies ov handled cis = .ok strats →
      ∀ cci ∈ cis, cci.1 ∈ handled ∨ cci.1 ∈ strats.map Prod.fst := by
  intro cis
  induction cis with
  | nil => intro strats _ cci hcci; simp at hcci
  | cons cci0 rest ih =>
    intro strats h cci hcci
    rcases cci0 with ⟨c0, ci⟩
    simp only [build_strategies] at h
    by_cases hh : c0 ∈ handled
    · rw [if_pos hh] at h
      rcases List.mem_cons.mp hcci with he | he
      · rw [he]
        exact Or.inl hh
      · exact ih strats h cci he
    · rw [if_neg hh] at h
      cases hse : (match alookup ov c0 with
        | some s => Except.ok s
        | none => col_info_to_strategy ci : Except Err Strat) with
      | error e => rw [hse] at h; simp at h
      | ok s =>
        rw [hse] at h
        cases hbs : build_strategies ov handled rest with
        | error e => rw [hbs] at h; simp at h
        | ok rest' =>
          rw [hbs] at h
          simp only [Except.ok.injEq] at h
          rcases List.mem_cons.mp hcci with he | he
          · rw [he, ← h]
            exact Or.inr (by simp)
          · rcases ih rest' hbs cci he with hl | hr
            · exact Or.inl hl
            · rw [← h]
              refine Or.inr ?_
              simp only [List.map_cons, List.mem_cons]
              exact Or.inr hr

theorem gen_strats_keys (strats : List (ColName × Strat)) :
    ∀ t : Tape, (gen_strats strats t).1.map Prod.fst = strats.map Prod.fst := by
  induction strats with
  | nil => intro t; rfl
  | cons cs rest ih =>
    intro t
    rcases cs with ⟨c, s⟩
    simp only [gen_strats, List.map_cons]
    rw [ih]

theorem gen_others_keys (others : List RowStrat) :
    ∀ (r : Row) (t : Tape) (c : ColName),
      c ∈ (gen_others others r t).1.map Prod.fst →
      c ∈ r.map Prod.fst ∨ ∃ o ∈ others, ∃ t0, c ∈ (genRowStrat o t0).1.map Prod.fst := by
  induction others with
  | nil => intro r t c h; exact Or.inl h
  | cons o os ih =>
    intro r t c h
    simp only [gen_others] at h
    rcases ih _ _ c h with hk | ⟨o2, ho2, t0, hk⟩
    · rcases keys_rupdate _ _ _ hk with hk1 | hk2
      · exact Or.inl hk1
      · exact Or.inr ⟨o, List.mem_cons_self _ _, t, hk2⟩
    · exact Or.inr ⟨o2, List.mem_cons_of_mem _ ho2, t0, hk⟩

theorem gen_others_isSome (others : List RowStrat) :
    ∀ (r : Row) (t : Tape) (c : ColName), (vlookup r c).isSome →
      (vlookup (gen_others others r t).1 c).isSome := by
  induction others with
  | nil => intro r t c h; exact h
  | cons o os ih =>
    intro r t c h
    simp only [gen_others]
    exact ih _ _ c ((vlookup_rupdate_isSome _ _ _).mpr (Or.inl h))

theorem localColsOf_ne_nil (fk : FkConstraint) (h : fk.local_foreign_mapping ≠ []) :
    ∃ c, c ∈ localColsOf fk := by
  cases hm : fk.local_foreign_mapping with
  | nil => exact absurd hm h
  | cons lf rest =>
    exact ⟨lf.1, (mem_localColsOf fk lf.1).mpr ⟨lf, by rw [hm]; exact List.mem_cons_self _ _, rfl⟩⟩

theorem not_enforceable_has_null_local (fks : List FkConstraint)
    (nullNames : List ColName) (fk : FkConstraint) (hfk : fk ∈ fks)
    (hne : ¬ fk ∈ enforceableFks fks nullNames) :
    ∃ c ∈ localColsOf fk, c ∈ nullNames := by
  unfold enforceableFks at hne
  have hnall : ¬ ((fk.local_foreign_mapping.map Prod.fst).all
      (fun c => ¬ c ∈ nullNames)) = true := by
    intro hall
    exact hne (List.mem_filter.mpr ⟨hfk, hall⟩)
  rw [List.all_eq_true] at hnall
  push_neg at hnall
  rcases hnall with ⟨c, hc, hcn⟩
  refine ⟨c, (mem_localColsOf fk c).mpr ?_, ?_⟩
  · rcases List.mem_map.mp hc with ⟨lf, hlf, rfl⟩
    exact ⟨lf, hlf, rfl⟩
  · simpa using hcn



/-- A null-fixed column's value in any successfully produced row is null (the
FK resolver never binds it, and the null-fix `others` entry wins over the
regular strategy dict). -/
theorem get_row_gen_null_value (colInfos : List (ColName × ColInfo))
    (fks : List FkConstraint) (store : Store) (ov : List (ColName × Strat))
    (t t₁ : Tape) (nullNames : List ColName)
    (hnf : null_fix_phase colInfos ov (fkColsOf fks) t = (.ok nullNames, t₁)) :
    ∀ (r : Row) (t₂ : Tape), get_row_gen colInfos fks store ov t = (.ok r, t₂) →
      ∀ c ∈ nullNames, vlookup r c = some Val.null := by
  have hdisj : ∀ c ∈ nullNames,
      ¬ c ∈ (get_fk_constrained_options (enforceableFks fks nullNames) store 1000).1 := by
    intro c hc hcs
    rcases get_fk_options_seen_subset _ _ _ c hcs with ⟨fk, hfk, hcl⟩
    exact enforceable_locals_not_null fks nullNames fk hfk c hcl hc
  intro r t₂ hr c hc
  unfold get_row_gen at hr
  rw [hnf] at hr
  dsimp only at hr
  split at hr
  · simp at hr
  · split at hr
    · simp at hr
    · rename_i strats hbs
      simp only [Prod.mk.injEq, Except.ok.injEq] at hr
      rw [← hr.1]
      unfold dict_strategy
      cases hso2 : (get_fk_constrained_options (enforceableFks fks nullNames) store 1000).2 with
      | none =>
        dsimp only
        rw [List.append_nil]
        exact gen_null_rows_null _ _ _ _ hc
      | some rs =>
        dsimp only
        rw [gen_others_append]
        simp only [gen_others]
        rw [vlookup_rupdate]
        have hfull : get_fk_constrained_options (enforceableFks fks nullNames) store 1000 =
            ((get_fk_constrained_options (enforceableFks fks nullNames) store 1000).1,
              some rs) := by
          rw [← hso2]
        have hne : rs ≠ [] := get_fk_options_rows_ne_nil _ _ _ _ _ hfull
        have hpick : vlookup (genRowStrat (.oneOfRows rs)
            (gen_others (nullNames.map (fun c2 => RowStrat.fixedRow [(c2, Val.null)]))
              (gen_strats strats t₁).1 (gen_strats strats t₁).2).2).1 c = none := by
          cases hv : vlookup (genRowStrat (.oneOfRows rs)
              (gen_others (nullNames.map (fun c2 => RowStrat.fixedRow [(c2, Val.null)]))
                (gen_strats strats t₁).1 (gen_strats strats t₁).2).2).1 c with
          | none => rfl
          | some v =>
            have hsome : (vlookup (genRowStrat (.oneOfRows rs)
                (gen_others (nullNames.map (fun c2 => RowStrat.fixedRow [(c2, Val.null)]))
                  (gen_strats strats t₁).1 (gen_strats strats t₁).2).2).1 c).isSome := by
              rw [hv]; rfl
            have hkeys := (vlookup_isSome_iff_mem_keys _ c).mp hsome
            have hmem := genRowStrat_oneOfRows_mem rs
              (gen_others (nullNames.map (fun c2 => RowStrat.fixedRow [(c2, Val.null)]))
                (gen_strats strats t₁).1 (gen_strats strats t₁).2).2 hne
            have hcs := get_fk_options_rows_keys _ _ _ _ _ hfull _ hmem c hkeys
            exact absurd hcs (hdisj c hc)
        rw [hpick]
        exact gen_null_rows_null _ _ _ _ hc

/-- The shape of every row produced by the row engine: it binds exactly the
declared columns, and for every FK constraint either some local column is
null or a committed foreign row matches the constraint's columns. -/
theorem get_row_gen_shape (colInfos : List (ColName × ColInfo))
    (fks : List FkConstraint) (store : Store) (ov : List (ColName × Strat))
    (t t₂ : Tape) (r : Row)
    (hwf : ∀ fk ∈ fks, FkWfStore store fk)
    (hnemap : ∀ fk ∈ fks, fk.local_foreign_mapping ≠ [])
    (hloc : ∀ fk ∈ fks, ∀ lf ∈ fk.local_foreign_mapping, lf.1 ∈ colInfos.map Prod.fst)
    (hok : get_row_gen colInfos fks store ov t = (.ok r, t₂)) :
    ((∀ cci ∈ colInfos, (vlookup r cci.1).isSome) ∧
     (∀ kv ∈ r, kv.1 ∈ colInfos.map Prod.fst)) ∧
    (∀ fk ∈ fks, (∃ c ∈ localColsOf fk, vlookup r c = some Val.null) ∨
      FkMatch store fk r) := by
  have hok0 := hok
  unfold get_row_gen at hok
  rcases hnf0 : null_fix_phase colInfos ov (fkColsOf fks) t with ⟨nfres, t₁⟩
  rw [hnf0] at hok
  cases nfres with
  | error e =>
    dsimp only at hok
    simp at hok
  | ok nullNames =>
    dsimp only at hok
    have hnullv : ∀ c ∈ nullNames, vlookup r c = some Val.null :=
      get_row_gen_null_value colInfos fks store ov t t₁ nullNames hnf0 r t₂ hok0
    have hwfe : ∀ fk ∈ enforceableFks fks nullNames, FkWfStore store fk := by
      intro fk hfk
      exact hwf fk (List.mem_filter.mp hfk).1
    split at hok
    · simp at hok
    · rename_i hguard
      split at hok
      · simp at hok
      · rename_i strats hbs
        simp only [Prod.mk.injEq, Except.ok.injEq] at hok
        obtain ⟨hr1, _⟩ := hok
        subst hr1
        unfold dict_strategy
        cases hso2 : (get_fk_constrained_options (enforceableFks fks nullNames) store 1000).2 with
        | none =>
          -- with no FK strategy the seen set must be empty
          have hempty : (get_fk_constrained_options
              (enforceableFks fks nullNames) store 1000).1 = [] := by
            by_cases he : (get_fk_constrained_options
                (enforceableFks fks nullNames) store 1000).1.isEmpty
            · exact List.isEmpty_iff.mp he
            · exfalso
              exact hguard ⟨by simpa using he, by rw [hso2]; rfl⟩
          have hnullv2 := hnullv
          rw [hso2] at hnullv2
          unfold dict_strategy at hnullv2
          dsimp only at hnullv2
          rw [List.append_nil] at hnullv2
          dsimp only
          rw [List.append_nil]
          refine ⟨⟨?_, ?_⟩, ?_⟩
          · -- completeness of declared columns
            intro cci hcci
            by_cases hcn : cci.1 ∈ nullNames
            · rw [hnullv2 cci.1 hcn]
              rfl
            · have hnh : ¬ cci.1 ∈ nullNames ++ (get_fk_constrained_options
                  (enforceableFks fks nullNames) store 1000).1 := by
                rw [hempty, List.append_nil]
                exact hcn
              rcases build_strategies_complete ov _ colInfos strats hbs cci hcci with hh | hh
              · exact absurd hh hnh
              · apply gen_others_isSome
                rw [vlookup_isSome_iff_mem_keys, gen_strats_keys]
                exact hh
          · -- no extraneous columns
            intro kv hkv
            have hk : kv.1 ∈ (gen_others (nullNames.map
                (fun c => RowStrat.fixedRow [(c, Val.null)]))
                (gen_strats strats t₁).1 (gen_strats strats t₁).2).1.map Prod.fst :=
              List.mem_map.mpr ⟨kv, hkv, rfl⟩
            rcases gen_others_keys _ _ _ _ hk with hm | ⟨o, ho, t0, hko⟩
            · rw [gen_strats_keys] at hm
              exact (build_strategies_keys ov _ colInfos strats hbs kv.1 hm).1
            · rcases List.mem_map.mp ho with ⟨c2, hc2, rfl⟩
              simp only [genRowStrat, List.map_cons, List.map_nil,
                List.mem_singleton] at hko
              rw [hko]
              have := null_fix_phase_subset colInfos ov _ _ _ _ hnf0 c2 hc2
              rcases (mem_fkColsOf fks c2).mp this with ⟨fk, hfk, hcm⟩
              rcases List.mem_map.mp hcm with ⟨lf, hlf, rfl⟩
              exact hloc fk hfk lf hlf
          · -- FK condition: every constraint has a null-fixed local column
            intro fk hfk
            by_cases henf : fk ∈ enforceableFks fks nullNames
            · exfalso
              rcases localColsOf_ne_nil fk (hnemap fk hfk) with ⟨c, hc⟩
              have := get_fk_options_locals_seen (enforceableFks fks nullNames)
                store 1000 fk henf c hc
              rw [hempty] at this
              simp at this
            · rcases not_enforceable_has_null_local fks nullNames fk hfk henf with
                ⟨c, hcl, hcn⟩
              exact Or.inl ⟨c, hcl, hnullv2 c hcn⟩
        | some rs =>
          have hnullv2 := hnullv
          rw [hso2] at hnullv2
          unfold dict_strategy at hnullv2
          dsimp only at hnullv2
          rw [gen_others_append] at hnullv2
          simp only [gen_others] at hnullv2
          dsimp only
          rw [gen_others_append]
          simp only [gen_others]
          have hfull : get_fk_constrained_options (enforceableFks fks nullNames) store 1000 =
              ((get_fk_constrained_options (enforceableFks fks nullNames) store 1000).1,
                some rs) := by
            rw [← hso2]
          have hne : rs ≠ [] := get_fk_options_rows_ne_nil _ _ _ _ _ hfull
          have hcrmem := genRowStrat_oneOfRows_mem rs
            (gen_others (nullNames.map (fun c2 => RowStrat.fixedRow [(c2, Val.null)]))
              (gen_strats strats t₁).1 (gen_strats strats t₁).2).2 hne
          rcases get_fk_options_match (enforceableFks fks nullNames) store 1000
              _ rs hwfe hfull _ hcrmem with ⟨⟨hcrk, hcrc⟩, hcrm⟩
          refine ⟨⟨?_, ?_⟩, ?_⟩
          · -- completeness of declared columns
            intro cci hcci
            by_cases hcn : cci.1 ∈ nullNames
            · rw [hnullv2 cci.1 hcn]
              rfl
            · by_cases hcs : cci.1 ∈ (get_fk_constrained_options
                  (enforceableFks fks nullNames) store 1000).1
              · rw [vlookup_rupdate_isSome]
                exact Or.inr (hcrc cci.1 hcs)
              · have hnh : ¬ cci.1 ∈ nullNames ++ (get_fk_constrained_options
                    (enforceableFks fks nullNames) store 1000).1 := by
                  rw [List.mem_append]
                  rintro (h | h)
                  · exact hcn h
                  · exact hcs h
                rcases build_strategies_complete ov _ colInfos strats hbs cci hcci with
                  hh | hh
                · exact absurd hh hnh
                · rw [vlookup_rupdate_isSome]
                  refine Or.inl (gen_others_isSome _ _ _ _ ?_)
                  rw [vlookup_isSome_iff_mem_keys, gen_strats_keys]
                  exact hh
          · -- no extraneous columns
            intro kv hkv
            have hk : kv.1 ∈ (rupdate (gen_others (nullNames.map
                (fun c2 => RowStrat.fixedRow [(c2, Val.null)]))
                (gen_strats strats t₁).1 (gen_strats strats t₁).2).1
                (genRowStrat (.oneOfRows rs)
                  (gen_others (nullNames.map (fun c2 => RowStrat.fixedRow [(c2, Val.null)]))
                    (gen_strats strats t₁).1 (gen_strats strats t₁).2).2).1).map Prod.fst :=
              List.mem_map.mpr ⟨kv, hkv, rfl⟩
            rcases keys_rupdate _ _ _ hk with hk1 | hk2
            · rcases gen_others_keys _ _ _ _ hk1 with hm | ⟨o, ho, t0, hko⟩
              · rw [gen_strats_keys] at hm
                exact (build_strategies_keys ov _ colInfos strats hbs kv.1 hm).1
              · rcases List.mem_map.mp ho with ⟨c2, hc2, rfl⟩
                simp only [genRowStrat, List.map_cons, List.map_nil,
                  List.mem_singleton] at hko
                rw [hko]
                have := null_fix_phase_subset colInfos ov _ _ _ _ hnf0 c2 hc2
                rcases (mem_fkColsOf fks c2).mp this with ⟨fk, hfk, hcm⟩
                rcases List.mem_map.mp hcm with ⟨lf, hlf, rfl⟩
                exact hloc fk hfk lf hlf
            · have hseen := hcrk kv.1 hk2
              rcases get_fk_options_seen_subset _ store 1000 kv.1 hseen with ⟨fk, hfk, hcl⟩
              have hfks : fk ∈ fks := (List.mem_filter.mp hfk).1
              rcases (mem_localColsOf fk kv.1).mp hcl with ⟨lf, hlf, hlfe⟩
              rw [← hlfe]
              exact hloc fk hfks lf hlf
          · -- FK condition
            intro fk hfk
            by_cases henf : fk ∈ enforceableFks fks nullNames
            · refine Or.inr ?_
              rcases hcrm fk henf with ⟨p, hp, htr⟩
              refine ⟨p, hp, ?_⟩
              intro lf hlf
              have hl1 : lf.1 ∈ (get_fk_constrained_options
                  (enforceableFks fks nullNames) store 1000).1 :=
                get_fk_options_locals_seen _ store 1000 fk henf lf.1
                  ((mem_localColsOf fk lf.1).mpr ⟨lf, hlf, rfl⟩)
              rw [vlookup_rupdate_right _ _ _ (hcrc lf.1 hl1)]
              exact htr lf hlf
            · rcases not_enforceable_has_null_local fks nullNames fk hfk henf with
                ⟨c, hcl, hcn⟩
              exact Or.inl ⟨c, hcl, hnullv2 c hcn⟩



theorem list_strategy_go_prop (genFn : Tape → Except Err Row × Tape)
    (ubs : List (Row → Except Unit (List Val))) (targetLen : Nat) (P : Row → Prop)
    (hgen : ∀ (t : Tape) (r : Row) (t' : Tape), genFn t = (.ok r, t') → P r) :
    ∀ (fuel : Nat) (items : List Row) (seen : List (List (List Val))) (t : Tape)
      (res : List Row) (t'' : Tape),
      list_strategy_go genFn ubs targetLen fuel items seen t = (.ok res, t'') →
      (∀ i ∈ items, P i) → ∀ i ∈ res, P i := by
  intro fuel
  induction fuel with
  | zero =>
    intro items seen t res t'' h hitems
    simp only [list_strategy_go, Prod.mk.injEq, Except.ok.injEq] at h
    obtain ⟨h1, _⟩ := h
    subst h1
    exact hitems
  | succ fuel ih =>
    intro items seen t res t'' h hitems
    simp only [list_strategy_go] at h
    split at h
    · simp only [Prod.mk.injEq, Except.ok.injEq] at h
      obtain ⟨h1, _⟩ := h
      subst h1
      exact hitems
    · split at h
      case h_1 e t' heq => simp at h
      case h_2 item t' heq =>
        have hPitem := hgen t item t' heq
        split at h
        · refine ih _ _ _ _ _ h ?_
          intro i hi
          rcases List.mem_append.mp hi with hii | hii
          · exact hitems i hii
          · rw [List.mem_singleton.mp hii]
            exact hPitem
        · split at h
          · exact ih _ _ _ _ _ h hitems
          · refine ih _ _ _ _ _ h ?_
            intro i hi
            rcases List.mem_append.mp hi with hii | hii
            · exact hitems i hii
            · rw [List.mem_singleton.mp hii]
              exact hPitem

theorem list_strategy_prop (genFn : Tape → Except Err Row × Tape)
    (minLen maxLen : Nat) (ubs : List (Row → Except Unit (List Val)))
    (maxIter : Nat) (t : Tape) (res : List Row) (t'' : Tape) (P : Row → Prop)
    (hgen : ∀ (t0 : Tape) (r : Row) (t1 : Tape), genFn t0 = (.ok r, t1) → P r)
    (h : list_strategy genFn minLen maxLen ubs maxIter t = (.ok res, t'')) :
    ∀ i ∈ res, P i := by
  unfold list_strategy at h
  split at h
  · simp at h
  · exact list_strategy_go_prop genFn ubs _ P hgen maxIter [] _ _ res t'' h
      (by intro i hi; simp at hi)

theorem get_table_prop (ti : TableInfo) (store : Store) (rowCount : Option Nat)
    (ov : List (ColName × Strat)) (t t' : Tape) (rows : List Row) (P : Row → Prop)
    (hgen : ∀ (t0 : Tape) (r : Row) (t1 : Tape),
      get_row_gen ti.columns ti.fk_constraints store ov t0 = (.ok r, t1) → P r)
    (h : get_table ti store rowCount ov t = (.ok rows, t')) :
    ∀ r ∈ rows, P r := by
  unfold get_table at h
  split at h
  · simp only [Prod.mk.injEq, Except.ok.injEq] at h
    obtain ⟨h1, _⟩ := h
    subst h1
    intro r hr
    simp at hr
  · simp at h
  · exact list_strategy_prop _ _ _ _ _ _ rows t' P hgen h

theorem storeGetD_storeSet_eq (store : Store) (tbl : TableName) (rows : List Row) :
    storeGetD (storeSet store tbl rows) tbl = rows := by
  induction store with
  | nil => simp [storeSet, storeGetD, alookup]
  | cons kv rest ih =>
    by_cases hk : kv.1 = tbl
    · rw [storeSet, if_pos hk]
      simp [storeGetD, alookup]
    · rw [storeSet, if_neg hk]
      unfold storeGetD alookup
      rw [if_neg hk]
      exact ih

theorem storeGetD_storeSet_ne (store : Store) (tbl : TableName) (rows : List Row)
    (tb : TableName) (h : ¬ tbl = tb) :
    storeGetD (storeSet store tbl rows) tb = storeGetD store tb := by
  induction store with
  | nil =>
    unfold storeSet storeGetD alookup
    rw [if_neg h]
    rfl
  | cons kv rest ih =>
    by_cases hk : kv.1 = tbl
    · rw [storeSet, if_pos hk]
      unfold storeGetD alookup
      rw [if_neg h, if_neg (by rw [hk]; exact fun hc => h hc)]
    · rw [storeSet, if_neg hk]
      unfold storeGetD alookup
      by_cases hkb : kv.1 = tb
      · rw [if_pos hkb, if_pos hkb]
      · rw [if_neg hkb, if_neg hkb]
        exact ih

theorem mem_storeSet (store : Store) (tbl : TableName) (rows : List Row)
    (e : TableName × List Row) (he : e ∈ storeSet store tbl rows) :
    e = (tbl, rows) ∨ e ∈ store := by
  induction store with
  | nil =>
    simp only [storeSet, List.mem_singleton] at he
    exact Or.inl he
  | cons kv rest ih =>
    by_cases hk : kv.1 = tbl
    · rw [storeSet, if_pos hk] at he
      rcases List.mem_cons.mp he with h1 | h1
      · exact Or.inl h1
      · exact Or.inr (List.mem_cons_of_mem _ h1)
    · rw [storeSet, if_neg hk] at he
      rcases List.mem_cons.mp he with h1 | h1
      · exact Or.inr (by rw [h1]; exact List.mem_cons_self _ _)
      · rcases ih h1 with h2 | h2
        · exact Or.inl h2
        · exact Or.inr (List.mem_cons_of_mem _ h2)

theorem foreign_mem_foreignsOfT (schema : List TableInfo) (ti : TableInfo)
    (fk : FkConstraint) (hti : ti ∈ schema) (hfk : fk ∈ ti.fk_constraints) :
    fk.foreign_table ∈ foreignsOfT (fk_map_of schema) ti.table := by
  rw [mem_foreignsOfT_iff]
  unfold pairsOf fk_map_of
  rw [List.flatMap_map]
  refine List.mem_flatMap.mpr ⟨ti, hti, ?_⟩
  exact List.mem_map.mpr ⟨fk, hfk, rfl⟩

/-- The main loop invariant of `get_db`: processing tables in an order where
every table follows its referenced tables keeps every committed row bound to
exactly its table's declared columns, and every committed row either has a
null local column on each constraint or matches a committed foreign row. -/
theorem get_db_loop_inv (schema : List TableInfo) (rcs : List (TableName × Nat))
    (ovs : List (TableName × List (ColName × Strat))) (hwf : Wf schema) :
    ∀ (rest done : List TableName) (store : Store) (t : Tape) (store' : Store),
      get_db_loop schema rcs ovs rest store t = .ok store' →
      InitOk schema store →
      (done ++ rest).Nodup →
      (∀ i (hi : i < rest.length),
        ∀ f ∈ foreignsOfT (fk_map_of schema) (rest.get ⟨i, hi⟩), f ∈ done ++ rest.take i) →
      (∀ tb ∈ done, ∀ f ∈ foreignsOfT (fk_map_of schema) tb, f ∈ done) →
      (∀ tb ∈ done, ∀ ti ∈ schema, ti.table = tb →
        ∀ r ∈ storeGetD store tb, ∀ fk ∈ ti.fk_constraints,
          (∃ c ∈ localColsOf fk, vlookup r c = some Val.null) ∨ FkMatch store fk r) →
      InitOk schema store' ∧
      (∀ tb ∈ done ++ rest, ∀ ti ∈ schema, ti.table = tb →
        ∀ r ∈ storeGetD store' tb, ∀ fk ∈ ti.fk_constraints,
          (∃ c ∈ localColsOf fk, vlookup r c = some Val.null) ∨ FkMatch store' fk r) := by
  intro rest
  induction rest with
  | nil =>
    intro done store t store' h hkeys hnd hord hdfk hdone
    simp only [get_db_loop] at h
    cases h
    exact ⟨hkeys, by simpa using hdone⟩
  | cons tbl rest2 ih =>
    intro done store t store' h hkeys hnd hord hdfk hdone
    simp only [get_db_loop] at h
    cases hfind : schema.find? (fun ti => ti.table == tbl) with
    | none =>
      rw [hfind] at h
      simp at h
    | some ti =>
      rw [hfind] at h
      dsimp only at h
      cases hgt : get_table ti store (alookup rcs tbl) ((alookup ovs tbl).getD []) t with
      | mk gres t' =>
        cases gres with
        | error e =>
          rw [hgt] at h
          simp at h
        | ok rows =>
          rw [hgt] at h
          dsimp only at h
          have hti_mem : ti ∈ schema := List.mem_of_find?_eq_some hfind
          have hti_tbl : ti.table = tbl := by
            have := List.find?_some hfind
            simpa using this
          have htbl_done : ¬ tbl ∈ done := by
            intro hc
            rw [List.nodup_append] at hnd
            exact hnd.2.2 hc (List.mem_cons_self _ _)
          have hwfk : ∀ fk ∈ ti.fk_constraints, WfFk schema ti fk :=
            (hwf.2 ti hti_mem).2
          have htblfks : ∀ f ∈ foreignsOfT (fk_map_of schema) tbl, f ∈ done := by
            intro f hf
            have := hord 0 (by simp) f (by simpa using hf)
            simpa using this
          -- per-constraint hypotheses for the row engine
          have hrowswf : ∀ fk ∈ ti.fk_constraints, FkWfStore store fk := by
            intro fk hfk
            rcases hwfk fk hfk with ⟨h1, h2, _, hft, _, hforeign⟩
            refine ⟨h1, h2, ?_⟩
            intro p hp lf hlf
            rcases List.mem_map.mp hft with ⟨tj, htj, htjt⟩
            cases hal : alookup store fk.foreign_table with
            | none =>
              unfold storeGetD at hp
              rw [hal] at hp
              simp at hp
            | some rows0 =>
              unfold storeGetD at hp
              rw [hal] at hp
              simp only [Option.getD_some] at hp
              have hmemst := alookup_mem store fk.foreign_table rows0 hal
              have hrk : RowHasKeys tj p :=
                hkeys (fk.foreign_table, rows0) hmemst tj htj htjt p hp
              have hcol : lf.2 ∈ tj.columns.map Prod.fst :=
                hforeign tj htj htjt lf hlf
              rcases List.mem_map.mp hcol with ⟨cci, hcci, hcce⟩
              rw [← hcce]
              exact hrk.1 cci hcci
          have hgenP : ∀ (t0 : Tape) (r : Row) (t1 : Tape),
              get_row_gen ti.columns ti.fk_constraints store
                ((alookup ovs tbl).getD []) t0 = (.ok r, t1) →
              RowHasKeys ti r ∧ ∀ fk ∈ ti.fk_constraints,
                (∃ c ∈ localColsOf fk, vlookup r c = some Val.null) ∨
                  FkMatch store fk r := by
            intro t0 r t1 hr
            have := get_row_gen_shape ti.columns ti.fk_constraints store
              ((alookup ovs tbl).getD []) t0 t1 r hrowswf
              (fun fk hfk => (hwfk fk hfk).2.2.1)
              (fun fk hfk lf hlf => (hwfk fk hfk).2.2.2.2.1 lf hlf)
              hr
            exact ⟨⟨this.1.1, this.1.2⟩, this.2⟩
          have hrows : ∀ r ∈ rows, RowHasKeys ti r ∧ ∀ fk ∈ ti.fk_constraints,
              (∃ c ∈ localColsOf fk, vlookup r c = some Val.null) ∨
                FkMatch store fk r :=
            get_table_prop ti store _ _ t t' rows _ hgenP hgt
          -- invariants for the recursive call
          have hkeys2 : InitOk schema (storeSet store tbl rows) := by
            intro e he tj htj htjt r hr
            rcases mem_storeSet store tbl rows e he with he1 | he1
            · have htje : tj = ti := by
                apply List.inj_on_of_nodup_map hwf.1 htj hti_mem
                rw [htjt, hti_tbl, he1]
              rw [htje]
              rw [he1] at hr
              exact (hrows r hr).1
            · exact hkeys e he1 tj htj htjt r hr
          have hnd2 : ((done ++ [tbl]) ++ rest2).Nodup := by
            rw [← List.append_cons]
            exact hnd
          have hord2 : ∀ i (hi : i < rest2.length),
              ∀ f ∈ foreignsOfT (fk_map_of schema) (rest2.get ⟨i, hi⟩),
                f ∈ (done ++ [tbl]) ++ rest2.take i := by
            intro i hi f hf
            have hi' : i + 1 < (tbl :: rest2).length := by simpa using Nat.succ_lt_succ hi
            have := hord (i + 1) hi' f (by simpa using hf)
            rw [← List.append_cons]
            simpa using this
          have hdfk2 : ∀ tb ∈ done ++ [tbl],
              ∀ f ∈ foreignsOfT (fk_map_of schema) tb, f ∈ done ++ [tbl] := by
            intro tb htb f hf
            rcases List.mem_append.mp htb with h1 | h1
            · exact List.mem_append.mpr (Or.inl (hdfk tb h1 f hf))
            · rw [List.mem_singleton.mp h1] at hf
              exact List.mem_append.mpr (Or.inl (htblfks f hf))
          have hdone2 : ∀ tb ∈ done ++ [tbl], ∀ tj ∈ schema, tj.table = tb →
              ∀ r ∈ storeGetD (storeSet store tbl rows) tb, ∀ fk ∈ tj.fk_constraints,
                (∃ c ∈ localColsOf fk, vlookup r c = some Val.null) ∨
                  FkMatch (storeSet store tbl rows) fk r := by
            intro tb htb tj htj htjt r hr fk hfk
            rcases List.mem_append.mp htb with h1 | h1
            · -- previously processed table: its store entry and its foreign
              -- tables' entries are untouched
              have htbne : ¬ tbl = tb := by
                intro hc
                rw [hc] at htbl_done
                exact htbl_done h1
              rw [storeGetD_storeSet_ne store tbl rows tb htbne] at hr
              rcases hdone tb h1 tj htj htjt r hr fk hfk with hnull | ⟨p, hp, htr⟩
              · exact Or.inl hnull
              · refine Or.inr ⟨p, ?_, htr⟩
                have hftd : fk.foreign_table ∈ done := by
                  apply hdfk tb h1
                  rw [← htjt]
                  exact foreign_mem_foreignsOfT schema tj fk htj hfk
                have : ¬ tbl = fk.foreign_table := by
                  intro hc
                  rw [hc] at htbl_done
                  exact htbl_done hftd
                rw [storeGetD_storeSet_ne store tbl rows _ this]
                exact hp
            · -- the freshly processed table
              rw [List.mem_singleton.mp h1] at htjt
              have htje : tj = ti := by
                apply List.inj_on_of_nodup_map hwf.1 htj hti_mem
                rw [htjt, hti_tbl]
              rw [List.mem_singleton.mp h1, storeGetD_storeSet_eq] at hr
              rcases (hrows r hr).2 fk (by rw [← htje]; exact hfk) with hnull | ⟨p, hp, htr⟩
              · exact Or.inl hnull
              · refine Or.inr ⟨p, ?_, htr⟩
                have hftd : fk.foreign_table ∈ done := by
                  apply htblfks
                  rw [← hti_tbl]
                  exact foreign_mem_foreignsOfT schema ti fk hti_mem
                    (by rw [← htje]; exact hfk)
                have : ¬ tbl = fk.foreign_table := by
                  intro hc
                  rw [hc] at htbl_done
                  exact htbl_done hftd
                rw [storeGetD_storeSet_ne store tbl rows _ this]
                exact hp
          have := ih (done ++ [tbl]) (storeSet store tbl rows) t' store' h
            hkeys2 hnd2 hord2 hdfk2 hdone2
          refine ⟨this.1, ?_⟩
          intro tb htb
          apply this.2 tb
          rw [List.append_cons] at htb
          exact htb



/-- C1: in every successful `get_db` run over a well-formed schema snapshot
(pre-existing rows bind their tables' declared columns), every row generated
for a table and every FK constraint of that table all of whose local columns
are non-null in the row admit a committed row of the constraint's foreign
table whose referenced columns equal, column by column under the constraint's
local-to-foreign mapping, the row's local-column values; a constraint with a
null local column is exempt. -/
theorem C1_fk_rows_match_committed (schema : List TableInfo) (data0 : Store)
    (rcs : List (TableName × Nat)) (ovs : List (TableName × List (ColName × Strat)))
    (t : Tape) (store' : Store)
    (hwf : Wf schema) (hinit : InitOk schema data0)
    (hok : get_db schema data0 rcs ovs t = .ok store') :
    ∀ ti ∈ schema, ∀ r ∈ storeGetD store' ti.table, ∀ fk ∈ ti.fk_constraints,
      (∀ lf ∈ fk.local_foreign_mapping, vlookup r lf.1 ≠ some Val.null) →
      ∃ p ∈ storeGetD store' fk.foreign_table,
        ∀ lf ∈ fk.local_foreign_mapping, vlookup r lf.1 = vlookup p lf.2 := by
  unfold get_db at hok
  cases htopo : topo_sort_tables (fk_map_of schema) (schema.map (·.table)) with
  | error e =>
    rw [htopo] at hok
    simp at hok
  | ok order =>
    rw [htopo] at hok
    dsimp only at hok
    obtain ⟨ordnd, ordcov, ordprop⟩ :=
      topo_sort_ok_props (fk_map_of schema) (schema.map (·.table)) order htopo hwf.1
    have hinv := get_db_loop_inv schema rcs ovs hwf order [] data0 t store' hok
      hinit (by simpa using ordnd)
      (by intro i hi f hf; simpa using ordprop i hi f hf)
      (by intro tb htb; simp at htb)
      (by intro tb htb; simp at htb)
    intro ti hti r hr fk hfk hnn
    have htbo : ti.table ∈ order := ordcov ti.table (List.mem_map.mpr ⟨ti, hti, rfl⟩)
    rcases hinv.2 ti.table (by simpa using htbo) ti hti rfl r hr fk hfk with hnull | hm
    · rcases hnull with ⟨c, hcl, hcv⟩
      rcases (mem_localColsOf fk c).mp hcl with ⟨lf, hlf, hlfe⟩
      exact absurd (by rw [hlfe]; exact hcv) (hnn lf hlf)
    · exact hm

theorem C1_fk_rows_match_committed_witness :
    Wf [tiP, tiC2] ∧ InitOk [tiP, tiC2] [] ∧
    get_db [tiP, tiC2] [] [("p", 2), ("c", 1)] [] [5, 0, 1, 2, 3, 4, 6, 7, 8, 9, 10, 11] =
      .ok [("p", [[("id", Val.fake "char" 1)], [("id", Val.fake "char" 2)]]),
           ("c", [[("pid", Val.fake "char" 1)]])] ∧
    (∀ ti ∈ [tiP, tiC2],
      ∀ r ∈ storeGetD [("p", [[("id", Val.fake "char" 1)], [("id", Val.fake "char" 2)]]),
           ("c", [[("pid", Val.fake "char" 1)]])] ti.table,
      ∀ fk ∈ ti.fk_constraints,
      (∀ lf ∈ fk.local_foreign_mapping, vlookup r lf.1 ≠ some Val.null) →
      ∃ p ∈ storeGetD [("p", [[("id", Val.fake "char" 1)], [("id", Val.fake "char" 2)]]),
           ("c", [[("pid", Val.fake "char" 1)]])] fk.foreign_table,
        ∀ lf ∈ fk.local_foreign_mapping, vlookup r lf.1 = vlookup p lf.2) :=
  ⟨by decide, by decide, by rfl,
    C1_fk_rows_match_committed [tiP, tiC2] [] [("p", 2), ("c", 1)] []
      [5, 0, 1, 2, 3, 4, 6, 7, 8, 9, 10, 11]
      [("p", [[("id", Val.fake "char" 1)], [("id", Val.fake "char" 2)]]),
       ("c", [[("pid", Val.fake "char" 1)]])]
      (by decide) (by decide) (by rfl)⟩

/-- C9: in every successful `get_db` run over a well-formed schema snapshot
whose caller-supplied pre-existing rows bind exactly their tables' declared
columns, every row of the resulting store for a schema table binds exactly
that table's declared column names: all declared columns present, no
extraneous key. -/
theorem C9_rows_bind_declared_columns (schema : List TableInfo) (data0 : Store)
    (rcs : List (TableName × Nat)) (ovs : List (TableName × List (ColName × Strat)))
    (t : Tape) (store' : Store)
    (hwf : Wf schema) (hinit : InitOk schema data0)
    (hok : get_db schema data0 rcs ovs t = .ok store') :
    ∀ ti ∈ schema, ∀ r ∈ storeGetD store' ti.table, RowHasKeys ti r := by
  unfold get_db at hok
  cases htopo : topo_sort_tables (fk_map_of schema) (schema.map (·.table)) with
  | error e =>
    rw [htopo] at hok
    simp at hok
  | ok order =>
    rw [htopo] at hok
    dsimp only at hok
    obtain ⟨ordnd, _, ordprop⟩ :=
      topo_sort_ok_props (fk_map_of schema) (schema.map (·.table)) order htopo hwf.1
    have hinv := get_db_loop_inv schema rcs ovs hwf order [] data0 t store' hok
      hinit (by simpa using ordnd)
      (by intro i hi f hf; simpa using ordprop i hi f hf)
      (by intro tb htb; simp at htb)
      (by intro tb htb; simp at htb)
    intro ti hti r hr
    cases hal : alookup store' ti.table with
    | none =>
      unfold storeGetD at hr
      rw [hal] at hr
      simp at hr
    | some rows0 =>
      unfold storeGetD at hr
      rw [hal] at hr
      simp only [Option.getD_some] at hr
      exact hinv.1 (ti.table, rows0) (alookup_mem store' ti.table rows0 hal) ti hti rfl r hr

theorem C9_rows_bind_declared_columns_witness :
    Wf [tiU] ∧ InitOk [tiU] [] ∧
    get_db [tiU] [] [("u", 2)] [] [9, 0, 4, 5] =
      .ok [("u", [[("a", Val.fake "char" 4)], [("a", Val.fake "char" 5)]])] ∧
    (∀ ti ∈ [tiU],
      ∀ r ∈ storeGetD [("u", [[("a", Val.fake "char" 4)], [("a", Val.fake "char" 5)]])]
        ti.table, RowHasKeys ti r) :=
  ⟨by decide, by decide, by rfl,
    C9_rows_bind_declared_columns [tiU] [] [("u", 2)] [] [9, 0, 4, 5]
      [("u", [[("a", Val.fake "char" 4)], [("a", Val.fake "char" 5)]])]
      (by decide) (by decide) (by rfl)⟩

end PgFaker
